import Mathlib

/-!
Verification development for the feature-derivation pipeline of the
Quant_Trading_Project repository (src/feature_engineering.py).

The pipeline operates on pandas Series of IEEE-754 doubles.  We embed the
values as `FV`: an exact rational together with the special values `+inf`,
`-inf` and `NaN`, with the IEEE propagation rules for the arithmetic the
code performs.  The two transcendental routines the code calls
(`np.log` inside `compute_log_returns`, and the square root inside
`pandas.rolling.std` / `scipy.stats.zscore`) are abstracted as function
parameters `lg rt : ℚ → ℚ` applied to the finite, in-domain part of their
arguments; their out-of-domain and special-value behaviour (log of a
non-positive number, sqrt of a negative number, sqrt 0 = 0) is encoded
exactly.  A pandas DataFrame is an ordered list of named columns.
-/

namespace QTP

set_option maxRecDepth 100000

/-- IEEE-754-style scalar: an exact finite value, `+inf`, `-inf`, or `NaN`. -/
inductive FV where
  | num : ℚ → FV
  | pinf : FV
  | ninf : FV
  | nan : FV
deriving DecidableEq, Repr

namespace FV

/-- IEEE addition. -/
def add : FV → FV → FV
  | num a, num b => num (a + b)
  | num _, pinf => pinf
  | pinf, num _ => pinf
  | pinf, pinf => pinf
  | num _, ninf => ninf
  | ninf, num _ => ninf
  | ninf, ninf => ninf
  | pinf, ninf => nan
  | ninf, pinf => nan
  | nan, _ => nan
  | _, nan => nan

/-- IEEE negation. -/
def neg : FV → FV
  | num a => num (-a)
  | pinf => ninf
  | ninf => pinf
  | nan => nan

/-- IEEE subtraction (`a + (-b)`; in particular `inf - inf = NaN`). -/
def sub (a b : FV) : FV := add a (neg b)

/-- IEEE multiplication (`0 * inf = NaN`). -/
def mul : FV → FV → FV
  | num a, num b => num (a * b)
  | num a, pinf => if 0 < a then pinf else if a < 0 then ninf else nan
  | pinf, num a => if 0 < a then pinf else if a < 0 then ninf else nan
  | num a, ninf => if 0 < a then ninf else if a < 0 then pinf else nan
  | ninf, num a => if 0 < a then ninf else if a < 0 then pinf else nan
  | pinf, pinf => pinf
  | ninf, ninf => pinf
  | pinf, ninf => ninf
  | ninf, pinf => ninf
  | nan, _ => nan
  | _, nan => nan

/-- IEEE division.  Finite / 0 follows the sign of the numerator
(`x/+0 = +inf` for `x > 0`, `-inf` for `x < 0`, `0/0 = NaN`); a finite
numerator over an infinity is 0; `inf/inf = NaN`. -/
def div : FV → FV → FV
  | num a, num b =>
      if b = 0 then (if 0 < a then pinf else if a < 0 then ninf else nan)
      else num (a / b)
  | num _, pinf => num 0
  | num _, ninf => num 0
  | pinf, num b => if 0 ≤ b then pinf else ninf
  | ninf, num b => if 0 ≤ b then ninf else pinf
  | pinf, pinf => nan
  | pinf, ninf => nan
  | ninf, pinf => nan
  | ninf, ninf => nan
  | nan, _ => nan
  | _, nan => nan

/-- IEEE absolute value (`np.abs`). -/
def fabs : FV → FV
  | num a => num |a|
  | pinf => pinf
  | ninf => pinf
  | nan => nan

/-- IEEE "less than" comparison: any comparison with NaN is false. -/
def blt : FV → FV → Bool
  | num a, num b => decide (a < b)
  | num _, pinf => true
  | ninf, num _ => true
  | ninf, pinf => true
  | _, _ => false

/-- Is this value NaN? -/
def isNaN : FV → Bool
  | nan => true
  | _ => false

/-- The finite value carried, if any. -/
def toNum : FV → Option ℚ
  | num a => some a
  | _ => none

end FV

/-- Sum of a list of values with IEEE semantics (NaN-absorbing). -/
def sumFV (l : List FV) : FV := l.foldr FV.add (FV.num 0)

/-- `Series.shift(1)`: NaN in front, last element dropped. -/
def shift1 (xs : List FV) : List FV :=
  match xs with
  | [] => []
  | _ :: _ => FV.nan :: xs.dropLast

/-- `Series.diff()`: `x[t] - x[t-1]`, NaN at `t = 0`. -/
def diffL (xs : List FV) : List FV := List.zipWith FV.sub xs (shift1 xs)

/-- The trailing window of width `w` ending at index `t` (inclusive). -/
def windowAt (w t : ℕ) (xs : List FV) : List FV := (xs.take (t + 1)).drop (t + 1 - w)

/-- `Series.rolling(window=w).mean()`: NaN during warm-up (`t + 1 < w`),
otherwise the mean of the trailing `w` observations; a NaN inside the
window propagates through the sum. -/
def rollingMean (w : ℕ) (xs : List FV) : List FV :=
  (List.range xs.length).map fun t =>
    if t + 1 < w then FV.nan
    else FV.div (sumFV (windowAt w t xs)) (FV.num (w : ℚ))

/-- The sample variance (`ddof = 1`, pandas default) of the trailing
`w`-window; for `w = 1` the denominator is 0 and the result is `0/0 = NaN`,
matching `rolling(1).std()`. -/
def rollingVar (w : ℕ) (xs : List FV) : List FV :=
  (List.range xs.length).map fun t =>
    if t + 1 < w then FV.nan
    else
      let win := windowAt w t xs
      let m := FV.div (sumFV win) (FV.num (w : ℚ))
      FV.div (sumFV (win.map fun x => FV.mul (FV.sub x m) (FV.sub x m)))
        (FV.num ((w : ℚ) - 1))

/-- Square root on `FV`, with the finite positive part delegated to the
abstract routine `rt`; `sqrt 0 = 0` and `sqrt` of a negative is NaN. -/
def sqrtFV (rt : ℚ → ℚ) : FV → FV
  | FV.num v => if v < 0 then FV.nan else if v = 0 then FV.num 0 else FV.num (rt v)
  | FV.pinf => FV.pinf
  | FV.ninf => FV.nan
  | FV.nan => FV.nan

/-- `Series.rolling(window=w).std()`: square root of the sample variance. -/
def rollingStd (rt : ℚ → ℚ) (w : ℕ) (xs : List FV) : List FV :=
  (rollingVar w xs).map (sqrtFV rt)

/-- `np.log` on `FV`, with the finite positive part delegated to the
abstract routine `lg`; `log 0 = -inf`, log of a negative is NaN. -/
def logFV (lg : ℚ → ℚ) : FV → FV
  | FV.num v => if 0 < v then FV.num (lg v) else if v = 0 then FV.ninf else FV.nan
  | FV.pinf => FV.pinf
  | FV.ninf => FV.nan
  | FV.nan => FV.nan

/-- `ewm(span=w, adjust=False).mean()` recurrence, seeded with the first
observation: state-passing helper. -/
def ewmGo (a : ℚ) : FV → List FV → List FV
  | prev, [] => [prev]
  | prev, x :: xs =>
      prev :: ewmGo a (FV.add (FV.mul (FV.num (1 - a)) prev) (FV.mul (FV.num a) x)) xs

/-- `Series.ewm(span=w, adjust=False).mean()` with `a = 2/(w+1)`:
`y[0] = x[0]`, `y[t] = (1-a)·y[t-1] + a·x[t]`. -/
def ewmList (a : ℚ) : List FV → List FV
  | [] => []
  | x :: xs => ewmGo a x xs

/-- The non-NaN entries of a series (`Series.dropna()`). -/
def keptOf (xs : List FV) : List FV := xs.filter (fun v => !v.isNaN)

/-- Mean of the non-NaN entries (the statistic used by `scipy.stats.zscore`). -/
def keptMeanFV (xs : List FV) : FV :=
  FV.div (sumFV (keptOf xs)) (FV.num ((keptOf xs).length : ℚ))

/-- Population variance (`ddof = 0`, the scipy default) of the non-NaN entries. -/
def keptVarFV (xs : List FV) : FV :=
  let m := keptMeanFV xs
  FV.div (sumFV ((keptOf xs).map fun x => FV.mul (FV.sub x m) (FV.sub x m)))
    (FV.num ((keptOf xs).length : ℚ))

/-- `scipy.stats.zscore(xs.dropna())` assigned back to a DataFrame column:
the z-scores of the non-NaN entries (population mean/std) are re-inserted
at the positions of the non-NaN entries via pandas index alignment, and the
dropped positions are NaN.  When the non-NaN entries are constant the
population std is 0 and every re-inserted value is `0/0 = NaN`, matching
scipy's constant-input convention. -/
def zscoreReinsert (rt : ℚ → ℚ) (xs : List FV) : List FV :=
  let m := keptMeanFV xs
  let s := sqrtFV rt (keptVarFV xs)
  xs.map fun v => if v.isNaN then FV.nan else FV.div (FV.sub v m) s

/-- `delta.where(delta > 0, 0)`: keep where the condition holds, else 0;
a NaN fails the comparison and is replaced by 0. -/
def wherePos (v : FV) : FV := if FV.blt (FV.num 0) v then v else FV.num 0

/-- `-delta.where(delta < 0, 0)`. -/
def whereNegNeg (v : FV) : FV := FV.neg (if FV.blt v (FV.num 0) then v else FV.num 0)

/-- Row-wise max with pandas `skipna=True` semantics: NaN acts as missing. -/
def mergeMax (a b : FV) : FV :=
  if a.isNaN then b else if b.isNaN then a else if FV.blt a b then b else a

/-!  ## The DataFrame model

A pandas DataFrame is an ordered association list of named columns.
Reading a missing column raises `KeyError`, modelled in `Except`;
assigning a column replaces an existing column of that name or appends a
new one at the end; `dropna` removes every row containing a NaN in any
column and keeps all columns. -/

/-- A DataFrame: ordered named columns. -/
structure DataFrame where
  cols : List (String × List FV)
deriving DecidableEq, Repr

namespace DataFrame

/-- The column names, in order. -/
def names (df : DataFrame) : List String := df.cols.map Prod.fst

/-- `df[name]`: the column, or a `KeyError`. -/
def getCol (df : DataFrame) (n : String) : Except String (List FV) :=
  match df.cols.find? (fun p => p.1 == n) with
  | some p => Except.ok p.2
  | none => Except.error ("KeyError: " ++ n)

/-- `df[name] = col`: replace an existing column or append a new one. -/
def setCol (df : DataFrame) (n : String) (c : List FV) : DataFrame :=
  if n ∈ df.names then ⟨df.cols.map fun p => if p.1 = n then (n, c) else p⟩
  else ⟨df.cols ++ [(n, c)]⟩

/-- `df.drop(columns=ns)`. -/
def dropCols (df : DataFrame) (ns : List String) : DataFrame :=
  ⟨df.cols.filter fun p => !(ns.contains p.1)⟩

/-- The number of rows (length of the first column; frames are rectangular). -/
def nrows (df : DataFrame) : ℕ :=
  match df.cols with
  | [] => 0
  | p :: _ => p.2.length

/-- `df.dropna()`: drop every row containing a NaN in any column. -/
def dropna (df : DataFrame) : DataFrame :=
  let keep := (List.range df.nrows).filter fun t =>
    df.cols.all fun p => !(p.2.getD t FV.nan).isNaN
  ⟨df.cols.map fun p => (p.1, keep.map fun t => p.2.getD t FV.nan)⟩

end DataFrame

/-!  ## The indicator computations (feature_engineering.py) -/

/-- `compute_log_returns`: `df["Log_Returns"] = np.log(df["Close"] / df["Close"].shift(1))`. -/
def compute_log_returns (lg : ℚ → ℚ) (df : DataFrame) : Except String DataFrame := do
  let close ← df.getCol "Close"
  pure (df.setCol "Log_Returns" ((List.zipWith FV.div close (shift1 close)).map (logFV lg)))

/-- `compute_z_score`: rolling mean/std of `column` over `window`, then
`(x - mean)/std`, reading the just-written mean/std columns back. -/
def compute_z_score (rt : ℚ → ℚ) (column : String) (window : ℕ) (df : DataFrame) :
    Except String DataFrame := do
  let x ← df.getCol column
  let df := df.setCol (column ++ "_Mean") (rollingMean window x)
  let df := df.setCol (column ++ "_Std") (rollingStd rt window x)
  let m ← df.getCol (column ++ "_Mean")
  let s ← df.getCol (column ++ "_Std")
  pure (df.setCol ("Z_Score_" ++ column)
    (List.zipWith FV.div (List.zipWith FV.sub x m) s))

/-- `compute_volatility`: rolling std under a separate name. -/
def compute_volatility (rt : ℚ → ℚ) (column : String) (window : ℕ) (df : DataFrame) :
    Except String DataFrame := do
  let x ← df.getCol column
  pure (df.setCol ("Volatility_" ++ column ++ "_" ++ toString window)
    (rollingStd rt window x))

/-- `compute_multiple_moving_averages`: one SMA column per requested window. -/
def compute_multiple_moving_averages (column : String) (windows : List ℕ)
    (df : DataFrame) : Except String DataFrame :=
  windows.foldlM
    (fun d w => do
      let x ← d.getCol column
      pure (d.setCol ("SMA_" ++ toString w) (rollingMean w x)))
    df

/-- `compute_multiple_exponential_moving_averages`:
`ewm(span=w, adjust=False).mean()` per requested window. -/
def compute_multiple_exponential_moving_averages (column : String) (windows : List ℕ)
    (df : DataFrame) : Except String DataFrame :=
  windows.foldlM
    (fun d (w : ℕ) => do
      let x ← d.getCol column
      pure (d.setCol ("EMA_" ++ toString w) (ewmList (2 / ((w : ℚ) + 1)) x)))
    df

/-- `compute_bollinger_bands`: mid = rolling mean, upper/lower = mid ± k·std
(the std is recomputed for each band, from identical inputs), width =
upper − lower; the just-written columns are read back as in the source. -/
def compute_bollinger_bands (rt : ℚ → ℚ) (column : String) (window : ℕ) (num_std : ℚ)
    (df : DataFrame) : Except String DataFrame := do
  let sw := toString window
  let x ← df.getCol column
  let df := df.setCol ("Bollinger_MA_" ++ sw) (rollingMean window x)
  let ma ← df.getCol ("Bollinger_MA_" ++ sw)
  let df := df.setCol ("Bollinger_Upper_" ++ sw)
    (List.zipWith FV.add ma ((rollingStd rt window x).map (FV.mul (FV.num num_std))))
  let ma2 ← df.getCol ("Bollinger_MA_" ++ sw)
  let df := df.setCol ("Bollinger_Lower_" ++ sw)
    (List.zipWith FV.sub ma2 ((rollingStd rt window x).map (FV.mul (FV.num num_std))))
  let up ← df.getCol ("Bollinger_Upper_" ++ sw)
  let lo ← df.getCol ("Bollinger_Lower_" ++ sw)
  pure (df.setCol ("Bollinger_Width_" ++ sw) (List.zipWith FV.sub up lo))

/-- `(delta.where(delta > 0, 0)).rolling(window).mean()`: the rolling mean
of gains. -/
def rsiGain (window : ℕ) (x : List FV) : List FV :=
  rollingMean window ((diffL x).map wherePos)

/-- `(-delta.where(delta < 0, 0)).rolling(window).mean()`: the rolling mean
of losses. -/
def rsiLoss (window : ℕ) (x : List FV) : List FV :=
  rollingMean window ((diffL x).map whereNegNeg)

/-- The RSI column values: `100 - 100/(1 + gain_mean/loss_mean)` with
gains/losses from `diff().where(...)`. -/
def rsiSeries (window : ℕ) (x : List FV) : List FV :=
  (List.zipWith FV.div (rsiGain window x) (rsiLoss window x)).map fun rs =>
    FV.sub (FV.num 100) (FV.div (FV.num 100) (FV.add (FV.num 1) rs))

/-- `compute_rsi`: the RSI column, then its z-scored variant
`zscore(df["RSI_w"].dropna())` re-inserted by index alignment. -/
def compute_rsi (rt : ℚ → ℚ) (column : String) (window : ℕ) (df : DataFrame) :
    Except String DataFrame := do
  let sw := toString window
  let x ← df.getCol column
  let df := df.setCol ("RSI_" ++ sw) (rsiSeries window x)
  let rsi ← df.getCol ("RSI_" ++ sw)
  pure (df.setCol ("Z_RSI_" ++ sw) (zscoreReinsert rt rsi))

/-- `compute_atr`: the three true-range components, their row max
(`skipna`), the rolling mean, then the intermediates are dropped. -/
def compute_atr (window : ℕ) (df : DataFrame) : Except String DataFrame := do
  let sw := toString window
  let high ← df.getCol "High"
  let low ← df.getCol "Low"
  let close ← df.getCol "Close"
  let df := df.setCol "High-Low" (List.zipWith FV.sub high low)
  let df := df.setCol "High-Close" ((List.zipWith FV.sub high (shift1 close)).map FV.fabs)
  let df := df.setCol "Low-Close" ((List.zipWith FV.sub low (shift1 close)).map FV.fabs)
  let hl ← df.getCol "High-Low"
  let hc ← df.getCol "High-Close"
  let lc ← df.getCol "Low-Close"
  let df := df.setCol "TrueRange" (List.zipWith mergeMax (List.zipWith mergeMax hl hc) lc)
  let tr ← df.getCol "TrueRange"
  let df := df.setCol ("ATR_" ++ sw) (rollingMean window tr)
  pure (df.dropCols ["High-Low", "High-Close", "Low-Close", "TrueRange"])

/-- `compute_order_flow_imbalance`:
`(TakerBuyBaseVolume - (Volume - TakerBuyBaseVolume)) / Volume`. -/
def compute_order_flow_imbalance (df : DataFrame) : Except String DataFrame := do
  let v ← df.getCol "Volume"
  let b ← df.getCol "TakerBuyBaseVolume"
  pure (df.setCol "OFI"
    (List.zipWith FV.div (List.zipWith FV.sub b (List.zipWith FV.sub v b)) v))

/-- `compute_volume_delta`: `TakerBuyBaseVolume - (Volume - TakerBuyBaseVolume)`. -/
def compute_volume_delta (df : DataFrame) : Except String DataFrame := do
  let v ← df.getCol "Volume"
  let b ← df.getCol "TakerBuyBaseVolume"
  pure (df.setCol "Volume_Delta"
    (List.zipWith FV.sub b (List.zipWith FV.sub v b)))

/-- The window sets of one `process_features` call. -/
structure Config where
  sma : List ℕ
  ema : List ℕ
  boll : List ℕ
  rsi : List ℕ
  atr : List ℕ
deriving DecidableEq, Repr

/-- The default window sets of `process_features`. -/
def defaultConfig : Config := ⟨[20, 50, 100], [20, 50], [20], [14], [14]⟩

/-- The indicator-computation part of `process_features` (everything between
loading the CSV and `dropna`): log returns, z-score and volatility with
the hard-coded window 20, then the SMA/EMA/Bollinger/RSI/ATR families over
the requested windows, then OFI and volume delta. -/
def featurize (lg rt : ℚ → ℚ) (cfg : Config) (df : DataFrame) :
    Except String DataFrame := do
  let df ← compute_log_returns lg df
  let df ← compute_z_score rt "Close" 20 df
  let df ← compute_volatility rt "Close" 20 df
  let df ← compute_multiple_moving_averages "Close" cfg.sma df
  let df ← compute_multiple_exponential_moving_averages "Close" cfg.ema df
  let df ← cfg.boll.foldlM (fun d w => compute_bollinger_bands rt "Close" w 2 d) df
  let df ← cfg.rsi.foldlM (fun d w => compute_rsi rt "Close" w d) df
  let df ← cfg.atr.foldlM (fun d w => compute_atr w d) df
  let df ← compute_order_flow_imbalance df
  compute_volume_delta df

/-- `process_features` on an already-loaded table (the file-existence check,
CSV parsing and CSV writing are I/O outside this core): all indicator
columns followed by the single global `dropna` trim. -/
def process_features (lg rt : ℚ → ℚ) (cfg : Config) (df : DataFrame) :
    Except String DataFrame := do
  let f ← featurize lg rt cfg df
  pure f.dropna

/-!  ## Named column formulas

The column values produced by each computer, as standalone functions of the
input columns; the orchestration lemmas show the pipeline's frame consists
exactly of these. -/

/-- `np.log(close / close.shift(1))`. -/
def logRet (lg : ℚ → ℚ) (close : List FV) : List FV :=
  (List.zipWith FV.div close (shift1 close)).map (logFV lg)

/-- `(x - x.rolling(w).mean()) / x.rolling(w).std()`. -/
def zScoreSeries (rt : ℚ → ℚ) (w : ℕ) (x : List FV) : List FV :=
  List.zipWith FV.div (List.zipWith FV.sub x (rollingMean w x)) (rollingStd rt w x)

/-- Bollinger upper band: `mid + k·std`. -/
def bollUpper (rt : ℚ → ℚ) (k : ℚ) (w : ℕ) (x : List FV) : List FV :=
  List.zipWith FV.add (rollingMean w x) ((rollingStd rt w x).map (FV.mul (FV.num k)))

/-- Bollinger lower band: `mid - k·std`. -/
def bollLower (rt : ℚ → ℚ) (k : ℚ) (w : ℕ) (x : List FV) : List FV :=
  List.zipWith FV.sub (rollingMean w x) ((rollingStd rt w x).map (FV.mul (FV.num k)))

/-- Bollinger width: `upper - lower`. -/
def bollWidth (rt : ℚ → ℚ) (k : ℚ) (w : ℕ) (x : List FV) : List FV :=
  List.zipWith FV.sub (bollUpper rt k w x) (bollLower rt k w x)

/-- The true-range series: row-wise `skipna` max of `high - low`,
`|high - close.shift(1)|`, `|low - close.shift(1)|`. -/
def trueRangeSeries (high low close : List FV) : List FV :=
  List.zipWith mergeMax
    (List.zipWith mergeMax (List.zipWith FV.sub high low)
      ((List.zipWith FV.sub high (shift1 close)).map FV.fabs))
    ((List.zipWith FV.sub low (shift1 close)).map FV.fabs)

/-- `ATR_w`: rolling mean of the true range. -/
def atrSeries (w : ℕ) (high low close : List FV) : List FV :=
  rollingMean w (trueRangeSeries high low close)

/-- `Volume_Delta`: `tbb - (vol - tbb)`. -/
def vdSeries (vol tbb : List FV) : List FV :=
  List.zipWith FV.sub tbb (List.zipWith FV.sub vol tbb)

/-- `OFI`: `(tbb - (vol - tbb)) / vol`. -/
def ofiSeries (vol tbb : List FV) : List FV :=
  List.zipWith FV.div (vdSeries vol tbb) vol

/-!  ## The generated column list of one pipeline run -/

/-- The five fixed leading columns (log returns and the hard-coded
window-20 z-score/volatility family). -/
def headPairs (lg rt : ℚ → ℚ) (close : List FV) : List (String × List FV) :=
  [("Log_Returns", logRet lg close),
   ("Close_Mean", rollingMean 20 close),
   ("Close_Std", rollingStd rt 20 close),
   ("Z_Score_Close", zScoreSeries rt 20 close),
   ("Volatility_Close_20", rollingStd rt 20 close)]

/-- One SMA column per requested window. -/
def smaPairs (close : List FV) (ws : List ℕ) : List (String × List FV) :=
  ws.map fun w => ("SMA_" ++ toString w, rollingMean w close)

/-- One EMA column per requested window. -/
def emaPairs (close : List FV) (ws : List ℕ) : List (String × List FV) :=
  ws.map fun (w : ℕ) => ("EMA_" ++ toString w, ewmList (2 / ((w : ℚ) + 1)) close)

/-- The four Bollinger columns of one window. -/
def bollPairsOne (rt : ℚ → ℚ) (k : ℚ) (close : List FV) (w : ℕ) :
    List (String × List FV) :=
  [("Bollinger_MA_" ++ toString w, rollingMean w close),
   ("Bollinger_Upper_" ++ toString w, bollUpper rt k w close),
   ("Bollinger_Lower_" ++ toString w, bollLower rt k w close),
   ("Bollinger_Width_" ++ toString w, bollWidth rt k w close)]

/-- The four Bollinger columns per requested window. -/
def bollPairs (rt : ℚ → ℚ) (k : ℚ) (close : List FV) (ws : List ℕ) :
    List (String × List FV) :=
  ws.flatMap (bollPairsOne rt k close)

/-- RSI and its z-scored variant of one window. -/
def rsiPairsOne (rt : ℚ → ℚ) (close : List FV) (w : ℕ) : List (String × List FV) :=
  [("RSI_" ++ toString w, rsiSeries w close),
   ("Z_RSI_" ++ toString w, zscoreReinsert rt (rsiSeries w close))]

/-- RSI and its z-scored variant per requested window. -/
def rsiPairs (rt : ℚ → ℚ) (close : List FV) (ws : List ℕ) :
    List (String × List FV) :=
  ws.flatMap (rsiPairsOne rt close)

/-- One ATR column per requested window (intermediates are dropped). -/
def atrPairs (high low close : List FV) (ws : List ℕ) : List (String × List FV) :=
  ws.map fun w => ("ATR_" ++ toString w, atrSeries w high low close)

/-- The two trailing order-flow columns. -/
def tailPairs (vol tbb : List FV) : List (String × List FV) :=
  [("OFI", ofiSeries vol tbb), ("Volume_Delta", vdSeries vol tbb)]

/-- All columns generated by one `featurize` run, in order. -/
def genCols (lg rt : ℚ → ℚ) (cfg : Config) (close high low vol tbb : List FV) :
    List (String × List FV) :=
  headPairs lg rt close ++ (smaPairs close cfg.sma ++ (emaPairs close cfg.ema ++
    (bollPairs rt 2 close cfg.boll ++ (rsiPairs rt close cfg.rsi ++
    (atrPairs high low close cfg.atr ++ tailPairs vol tbb)))))

/-- The names of the ATR scratch columns. -/
def intermNames : List String := ["High-Low", "High-Close", "Low-Close", "TrueRange"]

/-- The largest warm-up (`w - 1`) contributed by a list of rolling windows. -/
def maxOf (l : List ℕ) : ℕ := l.foldr (fun w m => max (w - 1) m) 0

/-- The number of leading rows lost to warm-up in one pipeline run: the
fixed window-20 z-score/volatility family always contributes 19, and each
requested SMA/Bollinger/RSI/ATR window `w` contributes `w - 1` (EMA columns
have no warm-up, and the single log-return NaN at row 0 is inside every
rolling warm-up). -/
def maxWarm (cfg : Config) : ℕ :=
  max 19 (maxOf (cfg.sma ++ cfg.boll ++ cfg.rsi ++ cfg.atr))

/-- The four Bollinger column names of one window. -/
def bollNames (w : ℕ) : List String :=
  ["Bollinger_MA_" ++ toString w, "Bollinger_Upper_" ++ toString w,
   "Bollinger_Lower_" ++ toString w, "Bollinger_Width_" ++ toString w]

/-- The two RSI column names of one window. -/
def rsiNames (w : ℕ) : List String :=
  ["RSI_" ++ toString w, "Z_RSI_" ++ toString w]

/-- The names of all columns one `featurize` run generates, in order. -/
def genNames (cfg : Config) : List String :=
  ["Log_Returns", "Close_Mean", "Close_Std", "Z_Score_Close", "Volatility_Close_20"] ++
  (cfg.sma.map (fun w => "SMA_" ++ toString w) ++
  (cfg.ema.map (fun w => "EMA_" ++ toString w) ++
  (cfg.boll.flatMap bollNames ++
  (cfg.rsi.flatMap rsiNames ++
  (cfg.atr.map (fun w => "ATR_" ++ toString w) ++ ["OFI", "Volume_Delta"])))))

/-!  ## Shape predicates

`AllNum xs`: every entry is finite.  `NanNum k xs`: a column whose first
`k` entries are NaN (the warm-up) and whose remaining entries are finite —
the shape every pipeline column has on non-degenerate input. -/

/-- Every entry of the series is a finite number. -/
def AllNum (xs : List FV) : Prop := ∀ v ∈ xs, ∃ q, v = FV.num q

/-- The series is NaN exactly on the first `k` positions and finite after. -/
def NanNum (k : ℕ) (xs : List FV) : Prop :=
  ∀ t v, xs.get? t = some v → (t < k ∧ v = FV.nan) ∨ (k ≤ t ∧ ∃ q, v = FV.num q)

/-!  ## Concrete evaluation data

A 25-row input table on which the whole pipeline evaluates to a closed
term: a zig-zag close path (up 1, then down 1/2), high/low one unit around
the close, constant volume and a 3-periodic taker-buy volume. -/

/-- The identity map on `ℚ`, instantiating the abstract `log` / `sqrt`
evaluation maps when a concrete run is needed. -/
def idq : ℚ → ℚ := fun q => q

/-- Zig-zag path from 100: up 1 after an even index, down 1/2 after an odd
one. -/
def zz : ℕ → ℚ
  | 0 => 100
  | n + 1 => if n % 2 = 0 then zz n + 1 else zz n - 1 / 2

/-- The 25-row zig-zag close column. -/
def closeT : List FV := (List.range 25).map fun i => FV.num (zz i)

/-- High: one unit above the close. -/
def highT : List FV := (List.range 25).map fun i => FV.num (zz i + 1)

/-- Low: one unit below the close. -/
def lowT : List FV := (List.range 25).map fun i => FV.num (zz i - 1)

/-- Constant volume 10. -/
def volT : List FV := (List.range 25).map fun i => FV.num (10 + 0 * (i : ℚ))

/-- 3-periodic taker-buy base volume (6, 7, 8, 6, ...). -/
def tbbT : List FV := (List.range 25).map fun i => FV.num (6 + ((i % 3 : ℕ) : ℚ))

/-- Timestamps 0, 1, 2, ... -/
def tsT : List FV := (List.range 25).map fun i => FV.num ((i : ℚ))

/-- Open: a quarter unit below the close. -/
def openT : List FV := (List.range 25).map fun i => FV.num (zz i - 1 / 4)

/-- Constant quote-asset volume. -/
def qavT : List FV := (List.range 25).map fun i => FV.num (1000 + 0 * (i : ℚ))

/-- Constant trade count. -/
def ntrT : List FV := (List.range 25).map fun i => FV.num (50 + 0 * (i : ℚ))

/-- Constant taker-buy quote volume. -/
def tbqT : List FV := (List.range 25).map fun i => FV.num (600 + 0 * (i : ℚ))

/-- The 25-row input table with the ten columns of the fetched data. -/
def inputDF : DataFrame :=
  ⟨[("Timestamp", tsT), ("Open", openT), ("High", highT), ("Low", lowT),
    ("Close", closeT), ("Volume", volT), ("QuoteAssetVolume", qavT),
    ("NumberOfTrades", ntrT), ("TakerBuyBaseVolume", tbbT),
    ("TakerBuyQuoteVolume", tbqT)]⟩

/-- A small window configuration: every indicator family at window 3. -/
def smallCfg : Config := ⟨[3], [3], [3], [3], [3]⟩

/-- The same ten columns with no rows at all. -/
def emptyDF : DataFrame :=
  ⟨[("Timestamp", []), ("Open", []), ("High", []), ("Low", []),
    ("Close", []), ("Volume", []), ("QuoteAssetVolume", []),
    ("NumberOfTrades", []), ("TakerBuyBaseVolume", []),
    ("TakerBuyQuoteVolume", [])]⟩

/-- A table without the required `Close` column. -/
def noCloseDF : DataFrame := ⟨[("Open", openT), ("High", highT)]⟩

/-- A table with the read columns except `Volume`: the pipeline only
notices its absence when the order-flow step finally reads it. -/
def noVolDF : DataFrame :=
  ⟨[("Close", closeT), ("High", highT), ("Low", lowT),
    ("TakerBuyBaseVolume", tbbT)]⟩

/-- A strictly increasing close series: every delta is `+1`, so the RSI is
the constant 100 on its defined range. -/
def incClose : List FV := (List.range 8).map fun i => FV.num (1 + (i : ℚ))

/-- A one-column table holding the increasing close. -/
def incDF : DataFrame := ⟨[("Close", incClose)]⟩

theorem NanNum_allNum {xs : List FV} (h : AllNum xs) : NanNum 0 xs := by
  intro t v hv
  exact Or.inr ⟨Nat.zero_le _, h v (List.get?_mem hv)⟩

/-!  ## Elementary facts about the FV arithmetic -/

namespace FV

theorem add_nan_left (b : FV) : FV.add FV.nan b = FV.nan := by cases b <;> rfl

theorem add_nan_right (a : FV) : FV.add a FV.nan = FV.nan := by cases a <;> rfl

theorem sub_nan_left (b : FV) : FV.sub FV.nan b = FV.nan := by cases b <;> rfl

theorem sub_nan_right (a : FV) : FV.sub a FV.nan = FV.nan := by cases a <;> rfl

theorem add_num (a b : ℚ) : FV.add (FV.num a) (FV.num b) = FV.num (a + b) := rfl

theorem sub_num (a b : ℚ) : FV.sub (FV.num a) (FV.num b) = FV.num (a - b) := by
  simp [FV.sub, FV.add, FV.neg, sub_eq_add_neg]

theorem mul_num (a b : ℚ) : FV.mul (FV.num a) (FV.num b) = FV.num (a * b) := rfl

theorem mul_num_nan (a : ℚ) : FV.mul (FV.num a) FV.nan = FV.nan := rfl

theorem div_nan_left (b : FV) : FV.div FV.nan b = FV.nan := by cases b <;> rfl

theorem div_nan_right (a : FV) : FV.div a FV.nan = FV.nan := by cases a <;> rfl

theorem div_num {b : ℚ} (a : ℚ) (hb : b ≠ 0) :
    FV.div (FV.num a) (FV.num b) = FV.num (a / b) := by
  simp [FV.div, hb]

theorem isNaN_num (q : ℚ) : (FV.num q).isNaN = false := rfl

theorem isNaN_iff {v : FV} : v.isNaN = true ↔ v = FV.nan := by cases v <;> simp [FV.isNaN]

end FV

/-!  ## get?-level facts about the series operations -/

theorem get?_zipWith {α : Type} (f : α → α → α) :
    ∀ (a b : List α) (t : ℕ),
      (List.zipWith f a b).get? t =
        (a.get? t).bind fun x => (b.get? t).map fun y => f x y := by
  intro a
  induction a with
  | nil => intro b t; simp
  | cons x xs ih =>
    intro b t
    cases b with
    | nil => simp
    | cons y ys =>
      cases t with
      | zero => simp
      | succ t => simpa using ih ys t

theorem get?_dropLast {α : Type} :
    ∀ (l : List α) (t : ℕ), t + 1 < l.length → l.dropLast.get? t = l.get? t := by
  intro l
  induction l with
  | nil => intro t h; simp at h
  | cons x xs ih =>
    intro t h
    cases xs with
    | nil => simp at h
    | cons y ys =>
      cases t with
      | zero => simp [List.dropLast]
      | succ t =>
        have h' : t + 1 < (y :: ys).length := by simpa using Nat.lt_of_succ_lt_succ h
        simpa [List.dropLast] using ih t h'

theorem length_shift1 (xs : List FV) : (shift1 xs).length = xs.length := by
  cases xs with
  | nil => rfl
  | cons x l => simp [shift1]

theorem shift1_get?_zero {xs : List FV} (h : xs ≠ []) :
    (shift1 xs).get? 0 = some FV.nan := by
  cases xs with
  | nil => exact absurd rfl h
  | cons x l => rfl

theorem shift1_get?_succ {xs : List FV} {t : ℕ} (h : t + 1 < xs.length) :
    (shift1 xs).get? (t + 1) = xs.get? t := by
  cases xs with
  | nil => simp at h
  | cons x l =>
    show (x :: l).dropLast.get? t = (x :: l).get? t
    exact get?_dropLast (x :: l) t h

theorem length_rollingMean (w : ℕ) (xs : List FV) :
    (rollingMean w xs).length = xs.length := by simp [rollingMean]

theorem length_rollingVar (w : ℕ) (xs : List FV) :
    (rollingVar w xs).length = xs.length := by simp [rollingVar]

theorem length_rollingStd (rt : ℚ → ℚ) (w : ℕ) (xs : List FV) :
    (rollingStd rt w xs).length = xs.length := by simp [rollingStd, length_rollingVar]

theorem rollingMean_get? {w t : ℕ} {xs : List FV} (h : t < xs.length) :
    (rollingMean w xs).get? t =
      some (if t + 1 < w then FV.nan
        else FV.div (sumFV (windowAt w t xs)) (FV.num (w : ℚ))) := by
  simp [rollingMean, List.get?_map, List.get?_range, h]

theorem rollingVar_get? {w t : ℕ} {xs : List FV} (h : t < xs.length) :
    (rollingVar w xs).get? t =
      some (if t + 1 < w then FV.nan
        else
          FV.div
            (sumFV ((windowAt w t xs).map fun x =>
              FV.mul (FV.sub x (FV.div (sumFV (windowAt w t xs)) (FV.num (w : ℚ))))
                (FV.sub x (FV.div (sumFV (windowAt w t xs)) (FV.num (w : ℚ))))))
            (FV.num ((w : ℚ) - 1))) := by
  simp [rollingVar, List.get?_map, List.get?_range, h]

theorem rollingStd_get? {rt : ℚ → ℚ} {w t : ℕ} {xs : List FV} (h : t < xs.length) :
    (rollingStd rt w xs).get? t = ((rollingVar w xs).get? t).map (sqrtFV rt) := by
  simp [rollingStd, List.get?_map]

theorem windowAt_subset (w t : ℕ) (xs : List FV) : windowAt w t xs ⊆ xs := by
  intro v hv
  exact List.take_subset _ _ (List.drop_subset _ _ hv)

theorem sumFV_num {l : List FV} (h : ∀ v ∈ l, ∃ q, v = FV.num q) :
    ∃ q, sumFV l = FV.num q := by
  induction l with
  | nil => exact ⟨0, rfl⟩
  | cons x xs ih =>
    obtain ⟨qx, hx⟩ := h x (List.mem_cons_self _ _)
    obtain ⟨qs, hs⟩ := ih fun v hv => h v (List.mem_cons_of_mem _ hv)
    exact ⟨qx + qs, by simp [sumFV] at hs ⊢; rw [hx, hs, FV.add_num]⟩

theorem sumFV_num_nonneg {l : List FV} (h : ∀ v ∈ l, ∃ q, v = FV.num q ∧ 0 ≤ q) :
    ∃ q, sumFV l = FV.num q ∧ 0 ≤ q := by
  induction l with
  | nil => exact ⟨0, rfl, le_refl 0⟩
  | cons x xs ih =>
    obtain ⟨qx, hx, hx0⟩ := h x (List.mem_cons_self _ _)
    obtain ⟨qs, hs, hs0⟩ := ih fun v hv => h v (List.mem_cons_of_mem _ hv)
    refine ⟨qx + qs, ?_, add_nonneg hx0 hs0⟩
    simp [sumFV] at hs ⊢
    rw [hx, hs, FV.add_num]

/-!  ## Warm-up shape of the rolling statistics -/

theorem lt_length_of_get? {α : Type} {l : List α} {t : ℕ} {v : α}
    (h : l.get? t = some v) : t < l.length := by
  by_contra hc
  push_neg at hc
  rw [List.get?_eq_none.mpr hc] at h
  exact Option.noConfusion h

theorem rollingMean_NanNum {w : ℕ} {xs : List FV} (hx : AllNum xs) (hw : 1 ≤ w) :
    NanNum (w - 1) (rollingMean w xs) := by
  intro t v hv
  have ht : t < xs.length := by
    have := lt_length_of_get? hv
    simpa [length_rollingMean] using this
  rw [rollingMean_get? ht] at hv
  have hv' := Option.some.inj hv
  by_cases hlt : t + 1 < w
  · left
    refine ⟨by omega, ?_⟩
    rw [← hv']
    simp [hlt]
  · right
    refine ⟨by omega, ?_⟩
    obtain ⟨q, hq⟩ := sumFV_num fun u hu => hx u (windowAt_subset w t xs hu)
    have hwq : (w : ℚ) ≠ 0 := Nat.cast_ne_zero.mpr (by omega)
    refine ⟨q / (w : ℚ), ?_⟩
    rw [← hv']
    simp [hlt, hq, FV.div_num _ hwq]

theorem rollingMean_nonneg {w : ℕ} {xs : List FV}
    (hx : ∀ v ∈ xs, ∃ q, v = FV.num q ∧ 0 ≤ q) :
    ∀ t q, (rollingMean w xs).get? t = some (FV.num q) → 0 ≤ q := by
  intro t q hv
  have ht : t < xs.length := by
    have := lt_length_of_get? hv
    simpa [length_rollingMean] using this
  rw [rollingMean_get? ht] at hv
  have hv' := Option.some.inj hv
  by_cases hlt : t + 1 < w
  · simp [hlt] at hv'
  · obtain ⟨s, hs, hs0⟩ := sumFV_num_nonneg
      (fun u hu => hx u (windowAt_subset w t xs hu))
    simp only [if_neg hlt, hs] at hv'
    by_cases hw0 : (w : ℚ) = 0
    · rw [hw0] at hv'
      by_cases h1 : (0 : ℚ) < s
      · simp [FV.div, h1] at hv'
      · by_cases h2 : s < 0
        · simp [FV.div, h1, h2] at hv'
        · simp [FV.div, h1, h2] at hv'
    · rw [FV.div_num _ hw0] at hv'
      have := FV.num.inj hv'
      rw [← this]
      have hw0' : (0 : ℚ) < (w : ℚ) := lt_of_le_of_ne (by positivity) (Ne.symm hw0)
      exact div_nonneg hs0 (le_of_lt hw0')

theorem rollingVar_spec {w : ℕ} {xs : List FV} (hx : AllNum xs) (hw : 2 ≤ w) :
    ∀ t v, (rollingVar w xs).get? t = some v →
      (t < w - 1 ∧ v = FV.nan) ∨ (w - 1 ≤ t ∧ ∃ q, v = FV.num q ∧ 0 ≤ q) := by
  intro t v hv
  have ht : t < xs.length := by
    have := lt_length_of_get? hv
    simpa [length_rollingVar] using this
  rw [rollingVar_get? ht] at hv
  have hv' := Option.some.inj hv
  by_cases hlt : t + 1 < w
  · left
    refine ⟨by omega, ?_⟩
    rw [← hv']
    simp [hlt]
  · right
    refine ⟨by omega, ?_⟩
    obtain ⟨s, hs⟩ := sumFV_num fun u hu => hx u (windowAt_subset w t xs hu)
    have hwq : (w : ℚ) ≠ 0 := Nat.cast_ne_zero.mpr (by omega)
    have hsq : ∀ u ∈ (windowAt w t xs).map fun x =>
        FV.mul (FV.sub x (FV.div (sumFV (windowAt w t xs)) (FV.num (w : ℚ))))
          (FV.sub x (FV.div (sumFV (windowAt w t xs)) (FV.num (w : ℚ)))),
        ∃ q, u = FV.num q ∧ 0 ≤ q := by
      intro u hu
      obtain ⟨x, hxmem, hxeq⟩ := List.mem_map.mp hu
      obtain ⟨qx, hqx⟩ := hx x (windowAt_subset w t xs hxmem)
      refine ⟨(qx - s / (w : ℚ)) * (qx - s / (w : ℚ)), ?_, mul_self_nonneg _⟩
      rw [← hxeq, hqx, hs, FV.div_num _ hwq, FV.sub_num, FV.mul_num]
    obtain ⟨sq, hsqe, hsq0⟩ := sumFV_num_nonneg hsq
    have hw1 : ((w : ℚ) - 1) ≠ 0 := by
      have h2 : (2 : ℚ) ≤ (w : ℚ) := by exact_mod_cast hw
      intro hcon
      rw [sub_eq_zero] at hcon
      rw [hcon] at h2
      norm_num at h2
    refine ⟨sq / ((w : ℚ) - 1), ?_, ?_⟩
    · rw [← hv']
      simp only [if_neg hlt]
      rw [hsqe, FV.div_num _ hw1]
    · have hw1' : (0 : ℚ) < (w : ℚ) - 1 := by
        have : (2 : ℚ) ≤ (w : ℚ) := by exact_mod_cast hw
        linarith
      exact div_nonneg hsq0 (le_of_lt hw1')

theorem rollingStd_NanNum {rt : ℚ → ℚ} {w : ℕ} {xs : List FV}
    (hx : AllNum xs) (hw : 2 ≤ w) : NanNum (w - 1) (rollingStd rt w xs) := by
  intro t v hv
  rw [rollingStd_get? (by
    have := lt_length_of_get? hv
    simpa [length_rollingStd] using this)] at hv
  obtain ⟨u, hu, huv⟩ := Option.map_eq_some'.mp hv
  rcases rollingVar_spec hx hw t u hu with ⟨h1, h2⟩ | ⟨h1, q, h2, h3⟩
  · left
    exact ⟨h1, by rw [← huv, h2]; rfl⟩
  · right
    refine ⟨h1, ?_⟩
    rw [← huv, h2]
    by_cases h0 : q = 0
    · exact ⟨0, by simp [sqrtFV, h0]⟩
    · exact ⟨rt q, by simp [sqrtFV, not_lt_of_le h3, h0]⟩

/-!  ## Pointwise combinators for the column shapes -/

theorem NanNum_zipWith {ka kb : ℕ} {a b : List FV} (op : FV → FV → FV)
    (hL : ∀ y, op FV.nan y = FV.nan) (hR : ∀ x, op x FV.nan = FV.nan)
    (hN : ∀ p q : ℚ, ∃ r, op (FV.num p) (FV.num q) = FV.num r)
    (ha : NanNum ka a) (hb : NanNum kb b) :
    NanNum (max ka kb) (List.zipWith op a b) := by
  intro t v hv
  rw [get?_zipWith] at hv
  cases hA : a.get? t with
  | none => rw [hA] at hv; simp at hv
  | some x =>
    cases hB : b.get? t with
    | none => rw [hA, hB] at hv; simp at hv
    | some y =>
      rw [hA, hB] at hv
      simp only [Option.bind_some, Option.map_some'] at hv
      have hv' := Option.some.inj hv
      rcases ha t x hA with ⟨h1, hx⟩ | ⟨h1, q, hx⟩
      · left
        exact ⟨lt_max_of_lt_left h1, by rw [← hv', hx, hL]⟩
      · rcases hb t y hB with ⟨h2, hy⟩ | ⟨h2, p, hy⟩
        · left
          exact ⟨lt_max_of_lt_right h2, by rw [← hv', hy, hR]⟩
        · right
          obtain ⟨r, hr⟩ := hN q p
          exact ⟨max_le h1 h2, r, by rw [← hv', hx, hy, hr]⟩

theorem NanNum_map {k : ℕ} {a : List FV} (f : FV → FV)
    (hnan : f FV.nan = FV.nan) (hnum : ∀ p : ℚ, ∃ r, f (FV.num p) = FV.num r)
    (ha : NanNum k a) : NanNum k (a.map f) := by
  intro t v hv
  rw [List.get?_map] at hv
  obtain ⟨u, hu, huv⟩ := Option.map_eq_some'.mp hv
  rcases ha t u hu with ⟨h1, hx⟩ | ⟨h1, q, hx⟩
  · left
    exact ⟨h1, by rw [← huv, hx, hnan]⟩
  · right
    obtain ⟨r, hr⟩ := hnum q
    exact ⟨h1, r, by rw [← huv, hx, hr]⟩

/-!  ## Shapes of the individual feature columns -/

theorem diffL_shape {xs : List FV} (hx : AllNum xs) :
    ∀ v ∈ diffL xs, v = FV.nan ∨ ∃ q, v = FV.num q := by
  intro v hv
  obtain ⟨t, ht⟩ := List.mem_iff_get?.mp hv
  rw [diffL, get?_zipWith] at ht
  cases hA : xs.get? t with
  | none => rw [hA] at ht; simp at ht
  | some x =>
    cases hB : (shift1 xs).get? t with
    | none => rw [hA, hB] at ht; simp at ht
    | some y =>
      rw [hA, hB] at ht
      simp only [Option.bind_some, Option.map_some'] at ht
      have ht' := Option.some.inj ht
      obtain ⟨qx, hqx⟩ := hx x (List.get?_mem hA)
      have hy : y = FV.nan ∨ ∃ q, y = FV.num q := by
        cases xs with
        | nil => simp [shift1] at hB
        | cons z zs =>
          cases t with
          | zero =>
            left
            have : (shift1 (z :: zs)).get? 0 = some FV.nan := rfl
            rw [this] at hB
            exact (Option.some.inj hB).symm
          | succ t' =>
            right
            have hlen : t' + 1 < (z :: zs).length := by
              have := lt_length_of_get? hB
              rwa [length_shift1] at this
            rw [shift1_get?_succ hlen] at hB
            exact hx y (List.get?_mem hB)
      rcases hy with hy | ⟨qy, hy⟩
      · left
        rw [← ht', hqx, hy, FV.sub_nan_right]
      · right
        exact ⟨qx - qy, by rw [← ht', hqx, hy, FV.sub_num]⟩

theorem wherePos_shape {u : FV} (hu : u = FV.nan ∨ ∃ q, u = FV.num q) :
    ∃ q, wherePos u = FV.num q ∧ 0 ≤ q := by
  rcases hu with hu | ⟨q, hu⟩
  · exact ⟨0, by rw [hu]; rfl, le_refl 0⟩
  · rw [hu, wherePos]
    by_cases h : FV.blt (FV.num 0) (FV.num q)
    · have hq : 0 < q := by simpa [FV.blt] using h
      exact ⟨q, by simp [h], le_of_lt hq⟩
    · exact ⟨0, by simp [h], le_refl 0⟩

theorem whereNegNeg_shape {u : FV} (hu : u = FV.nan ∨ ∃ q, u = FV.num q) :
    ∃ q, whereNegNeg u = FV.num q ∧ 0 ≤ q := by
  rcases hu with hu | ⟨q, hu⟩
  · refine ⟨0, by rw [hu]; simp [whereNegNeg, FV.blt, FV.neg], le_refl 0⟩
  · rw [hu, whereNegNeg]
    by_cases h : FV.blt (FV.num q) (FV.num 0)
    · have hq : q < 0 := by simpa [FV.blt] using h
      exact ⟨-q, by simp [h, FV.neg], by linarith⟩
    · exact ⟨0, by simp [h, FV.neg], le_refl 0⟩

theorem gains_shape {xs : List FV} (hx : AllNum xs) :
    ∀ v ∈ (diffL xs).map wherePos, ∃ q, v = FV.num q ∧ 0 ≤ q := by
  intro v hv
  obtain ⟨u, hu, huv⟩ := List.mem_map.mp hv
  obtain ⟨q, hq, hq0⟩ := wherePos_shape (diffL_shape hx u hu)
  exact ⟨q, by rw [← huv, hq], hq0⟩

theorem losses_shape {xs : List FV} (hx : AllNum xs) :
    ∀ v ∈ (diffL xs).map whereNegNeg, ∃ q, v = FV.num q ∧ 0 ≤ q := by
  intro v hv
  obtain ⟨u, hu, huv⟩ := List.mem_map.mp hv
  obtain ⟨q, hq, hq0⟩ := whereNegNeg_shape (diffL_shape hx u hu)
  exact ⟨q, by rw [← huv, hq], hq0⟩

theorem rsiGain_NanNum {w : ℕ} {x : List FV} (hx : AllNum x) (hw : 1 ≤ w) :
    NanNum (w - 1) (rsiGain w x) :=
  rollingMean_NanNum (fun v hv => (gains_shape hx v hv).imp fun _ h => h.1) hw

theorem rsiLoss_NanNum {w : ℕ} {x : List FV} (hx : AllNum x) (hw : 1 ≤ w) :
    NanNum (w - 1) (rsiLoss w x) :=
  rollingMean_NanNum (fun v hv => (losses_shape hx v hv).imp fun _ h => h.1) hw

theorem rsiGain_nonneg {w : ℕ} {x : List FV} (hx : AllNum x) :
    ∀ t q, (rsiGain w x).get? t = some (FV.num q) → 0 ≤ q :=
  rollingMean_nonneg (gains_shape hx)

theorem rsiLoss_nonneg {w : ℕ} {x : List FV} (hx : AllNum x) :
    ∀ t q, (rsiLoss w x).get? t = some (FV.num q) → 0 ≤ q :=
  rollingMean_nonneg (losses_shape hx)

/-- The RSI map applied to a finite `rs = g/l` with positive mean loss:
a finite value in `[0, 100]`. -/
theorem rsi_point_pos {g l : ℚ} (hg : 0 ≤ g) (hl : 0 < l) :
    FV.sub (FV.num 100)
        (FV.div (FV.num 100) (FV.add (FV.num 1) (FV.div (FV.num g) (FV.num l)))) =
      FV.num (100 - 100 / (1 + g / l)) ∧
      0 ≤ 100 - 100 / (1 + g / l) ∧ 100 - 100 / (1 + g / l) ≤ 100 := by
  have hl0 : l ≠ 0 := ne_of_gt hl
  have hr0 : 0 ≤ g / l := div_nonneg hg (le_of_lt hl)
  have h1r : (0 : ℚ) < 1 + g / l := by linarith
  refine ⟨?_, ?_, ?_⟩
  · rw [FV.div_num _ hl0, FV.add_num, FV.div_num _ (ne_of_gt h1r), FV.sub_num]
  · have hle : 100 / (1 + g / l) ≤ 100 := by
      rw [div_le_iff h1r]
      nlinarith
    linarith
  · have : 0 < 100 / (1 + g / l) := by positivity
    linarith

/-- The RSI map in the degenerate zero-mean-loss, positive-mean-gain case:
`rs = +inf` and the value is exactly 100 ("infinite gain"). -/
theorem rsi_point_inf {g : ℚ} (hg : 0 < g) :
    FV.sub (FV.num 100)
        (FV.div (FV.num 100) (FV.add (FV.num 1) (FV.div (FV.num g) (FV.num 0)))) =
      FV.num 100 := by
  have h1 : FV.div (FV.num g) (FV.num 0) = FV.pinf := by simp [FV.div, hg]
  rw [h1]
  show FV.sub (FV.num 100) (FV.div (FV.num 100) FV.pinf) = FV.num 100
  rw [show FV.div (FV.num 100) FV.pinf = FV.num 0 from rfl, FV.sub_num]
  norm_num

/-- The RSI map when both rolling means are zero: `rs = 0/0 = NaN` and the
value is NaN. -/
theorem rsi_point_nan :
    FV.sub (FV.num 100)
        (FV.div (FV.num 100) (FV.add (FV.num 1) (FV.div (FV.num 0) (FV.num 0)))) =
      FV.nan := rfl

theorem length_rsiSeries (w : ℕ) (x : List FV) :
    (rsiSeries w x).length = min x.length x.length := by
  simp [rsiSeries, rsiGain, rsiLoss, length_rollingMean, diffL, length_shift1]

theorem rsiSeries_get? {w t : ℕ} {x : List FV} :
    (rsiSeries w x).get? t =
      (((rsiGain w x).get? t).bind fun g => ((rsiLoss w x).get? t).map fun l =>
        FV.sub (FV.num 100)
          (FV.div (FV.num 100) (FV.add (FV.num 1) (FV.div g l)))) := by
  rw [rsiSeries, List.get?_map, get?_zipWith]
  cases (rsiGain w x).get? t with
  | none => rfl
  | some g =>
    cases (rsiLoss w x).get? t with
    | none => rfl
    | some l => rfl

theorem rsiSeries_NanNum {w : ℕ} {x : List FV} (hx : AllNum x) (hw : 1 ≤ w)
    (hnb : ∀ t, ¬((rsiGain w x).get? t = some (FV.num 0) ∧
      (rsiLoss w x).get? t = some (FV.num 0))) :
    NanNum (w - 1) (rsiSeries w x) := by
  intro t v hv
  rw [rsiSeries_get?] at hv
  cases hG : (rsiGain w x).get? t with
  | none => rw [hG] at hv; simp at hv
  | some g =>
    cases hL : (rsiLoss w x).get? t with
    | none => rw [hG, hL] at hv; simp at hv
    | some l =>
      rw [hG, hL] at hv
      simp only [Option.bind_some, Option.map_some'] at hv
      have hv' := Option.some.inj hv
      rcases rsiGain_NanNum hx hw t g hG with ⟨h1, hg⟩ | ⟨h1, qg, hg⟩
      · left
        refine ⟨h1, ?_⟩
        rw [← hv', hg, FV.div_nan_left, FV.add_nan_right, FV.div_nan_right,
          FV.sub_nan_right]
      · rcases rsiLoss_NanNum hx hw t l hL with ⟨h2, hl⟩ | ⟨h2, ql, hl⟩
        · omega
        · right
          refine ⟨h1, ?_⟩
          have hqg : 0 ≤ qg := rsiGain_nonneg hx t qg (by rw [← hg]; exact hG)
          have hql : 0 ≤ ql := rsiLoss_nonneg hx t ql (by rw [← hl]; exact hL)
          rcases lt_or_eq_of_le hql with hpos | hzero
          · obtain ⟨heq, _, _⟩ := rsi_point_pos hqg hpos
            exact ⟨_, by rw [← hv', hg, hl, heq]⟩
          · have hg0 : qg ≠ 0 := by
              intro hcon
              exact hnb t ⟨by rw [hcon] at hg; rw [← hg]; exact hG,
                by rw [← hzero] at hl; rw [← hl]; exact hL⟩
            have hgpos : 0 < qg := lt_of_le_of_ne hqg (Ne.symm hg0)
            refine ⟨100, ?_⟩
            rw [← hv', hg, hl, ← hzero, rsi_point_inf hgpos]

/-!  ## Shape of the z-scored (re-inserted) series -/

theorem keptOf_allNum {k : ℕ} {xs : List FV} (hs : NanNum k xs) :
    AllNum (keptOf xs) := by
  intro v hv
  obtain ⟨hvmem, hvn⟩ := List.mem_filter.mp hv
  obtain ⟨t, ht⟩ := List.mem_iff_get?.mp hvmem
  rcases hs t v ht with ⟨_, hnan⟩ | ⟨_, q, hq⟩
  · rw [hnan] at hvn
    simp [FV.isNaN] at hvn
  · exact ⟨q, hq⟩

theorem mem_keptOf {xs : List FV} {t : ℕ} {q : ℚ}
    (h : xs.get? t = some (FV.num q)) : FV.num q ∈ keptOf xs :=
  List.mem_filter.mpr ⟨List.get?_mem h, by simp [FV.isNaN]⟩

/-- Mean and population variance of the non-NaN entries are finite numbers
(variance nonnegative) as soon as some entry is non-NaN. -/
theorem keptStats {xs : List FV} (hAN : AllNum (keptOf xs)) (hne : keptOf xs ≠ []) :
    ∃ s pv : ℚ, keptMeanFV xs = FV.num s ∧ keptVarFV xs = FV.num pv ∧ 0 ≤ pv := by
  obtain ⟨s0, hs0⟩ := sumFV_num hAN
  have hm : ((keptOf xs).length : ℚ) ≠ 0 := by
    have : keptOf xs ≠ [] := hne
    have hlen : 0 < (keptOf xs).length := List.length_pos.mpr this
    exact Nat.cast_ne_zero.mpr (by omega)
  have hmean : keptMeanFV xs = FV.num (s0 / ((keptOf xs).length : ℚ)) := by
    rw [keptMeanFV, hs0, FV.div_num _ hm]
  have hmap : ∀ v ∈ (keptOf xs).map fun x =>
      FV.mul (FV.sub x (keptMeanFV xs)) (FV.sub x (keptMeanFV xs)),
      ∃ q, v = FV.num q ∧ 0 ≤ q := by
    intro v hv
    obtain ⟨x, hxm, hxe⟩ := List.mem_map.mp hv
    obtain ⟨qx, hqx⟩ := hAN x hxm
    refine ⟨(qx - s0 / ((keptOf xs).length : ℚ)) * (qx - s0 / ((keptOf xs).length : ℚ)),
      ?_, mul_self_nonneg _⟩
    rw [← hxe, hqx, hmean, FV.sub_num, FV.mul_num]
  obtain ⟨sq, hsq, hsq0⟩ := sumFV_num_nonneg hmap
  refine ⟨s0 / ((keptOf xs).length : ℚ), sq / ((keptOf xs).length : ℚ), hmean, ?_, ?_⟩
  · rw [keptVarFV, hsq, FV.div_num _ hm]
  · have hpos : (0 : ℚ) < ((keptOf xs).length : ℚ) := by
      have hlen : 0 < (keptOf xs).length := List.length_pos.mpr hne
      exact_mod_cast hlen
    exact div_nonneg hsq0 (le_of_lt hpos)

theorem length_zscoreReinsert (rt : ℚ → ℚ) (xs : List FV) :
    (zscoreReinsert rt xs).length = xs.length := by simp [zscoreReinsert]

theorem zscoreReinsert_get? {rt : ℚ → ℚ} {xs : List FV} {t : ℕ} :
    (zscoreReinsert rt xs).get? t = (xs.get? t).map fun v =>
      if v.isNaN then FV.nan
      else FV.div (FV.sub v (keptMeanFV xs)) (sqrtFV rt (keptVarFV xs)) := by
  rw [zscoreReinsert, List.get?_map]

theorem zscoreReinsert_NanNum {rt : ℚ → ℚ} {k : ℕ} {xs : List FV}
    (hs : NanNum k xs) (hnc : keptVarFV xs ≠ FV.num 0)
    (hrt : ∀ q : ℚ, 0 < q → 0 < rt q) :
    NanNum k (zscoreReinsert rt xs) := by
  intro t v hv
  rw [zscoreReinsert_get?] at hv
  obtain ⟨u, hu, huv⟩ := Option.map_eq_some'.mp hv
  rcases hs t u hu with ⟨h1, hnan⟩ | ⟨h1, q, hq⟩
  · left
    refine ⟨h1, ?_⟩
    rw [← huv, hnan]
    simp [FV.isNaN]
  · right
    refine ⟨h1, ?_⟩
    have hne : keptOf xs ≠ [] := by
      intro hcon
      have := mem_keptOf (by rw [← hq]; exact hu)
      rw [hcon] at this
      simp at this
    obtain ⟨s, pv, hmean, hvar, hpv0⟩ := keptStats (keptOf_allNum hs) hne
    have hpv : 0 < pv := by
      rcases lt_or_eq_of_le hpv0 with h | h
      · exact h
      · exact absurd (by rw [hvar, ← h]) hnc
    have hsig : sqrtFV rt (keptVarFV xs) = FV.num (rt pv) := by
      rw [hvar]
      simp [sqrtFV, not_lt_of_le hpv0, ne_of_gt hpv]
    have hrtpv : rt pv ≠ 0 := ne_of_gt (hrt pv hpv)
    refine ⟨(q - s) / rt pv, ?_⟩
    rw [← huv, hq]
    simp only [FV.isNaN_num, Bool.false_eq_true, if_false]
    rw [hmean, hsig, FV.sub_num, FV.div_num _ hrtpv]

/-!  ## Shapes of the remaining feature columns -/

theorem sub_shift1_shape {a c : List FV} (ha : AllNum a) (hc : AllNum c) :
    ∀ v ∈ List.zipWith FV.sub a (shift1 c), v = FV.nan ∨ ∃ q, v = FV.num q := by
  intro v hv
  obtain ⟨t, ht⟩ := List.mem_iff_get?.mp hv
  rw [get?_zipWith] at ht
  cases hA : a.get? t with
  | none => rw [hA] at ht; simp at ht
  | some x =>
    cases hB : (shift1 c).get? t with
    | none => rw [hA, hB] at ht; simp at ht
    | some y =>
      rw [hA, hB] at ht
      simp only [Option.bind_some, Option.map_some'] at ht
      have ht' := Option.some.inj ht
      obtain ⟨qx, hqx⟩ := ha x (List.get?_mem hA)
      have hy : y = FV.nan ∨ ∃ q, y = FV.num q := by
        cases c with
        | nil => simp [shift1] at hB
        | cons z zs =>
          cases t with
          | zero =>
            left
            have h0 : (shift1 (z :: zs)).get? 0 = some FV.nan := rfl
            rw [h0] at hB
            exact (Option.some.inj hB).symm
          | succ t' =>
            right
            have hlen : t' + 1 < (z :: zs).length := by
              have := lt_length_of_get? hB
              rwa [length_shift1] at this
            rw [shift1_get?_succ hlen] at hB
            exact hc y (List.get?_mem hB)
      rcases hy with hy | ⟨qy, hy⟩
      · left
        rw [← ht', hqx, hy, FV.sub_nan_right]
      · right
        exact ⟨qx - qy, by rw [← ht', hqx, hy, FV.sub_num]⟩

theorem logRet_NanNum {lg : ℚ → ℚ} {close : List FV}
    (hc : ∀ v ∈ close, ∃ q, v = FV.num q ∧ 0 < q) :
    NanNum 1 (logRet lg close) := by
  intro t v hv
  rw [logRet, List.get?_map] at hv
  obtain ⟨u, hu, huv⟩ := Option.map_eq_some'.mp hv
  rw [get?_zipWith] at hu
  cases hA : close.get? t with
  | none => rw [hA] at hu; simp at hu
  | some x =>
    cases hB : (shift1 close).get? t with
    | none => rw [hA, hB] at hu; simp at hu
    | some y =>
      rw [hA, hB] at hu
      simp only [Option.bind_some, Option.map_some'] at hu
      have hu' := Option.some.inj hu
      obtain ⟨qx, hqx, hqx0⟩ := hc x (List.get?_mem hA)
      cases t with
      | zero =>
        left
        refine ⟨Nat.zero_lt_one, ?_⟩
        have hne : close ≠ [] := by
          intro hcon
          rw [hcon] at hA
          simp at hA
        rw [shift1_get?_zero hne] at hB
        have hy := (Option.some.inj hB).symm
        rw [← huv, ← hu', hqx, hy, FV.div_nan_right]
        rfl
      | succ t' =>
        right
        refine ⟨Nat.one_le_iff_ne_zero.mpr (Nat.succ_ne_zero t'), ?_⟩
        have hlen : t' + 1 < close.length := by
          have := lt_length_of_get? hB
          rwa [length_shift1] at this
        rw [shift1_get?_succ hlen] at hB
        obtain ⟨qy, hqy, hqy0⟩ := hc y (List.get?_mem hB)
        have hdiv : FV.div x y = FV.num (qx / qy) := by
          rw [hqx, hqy, FV.div_num _ (ne_of_gt hqy0)]
        have hpos : 0 < qx / qy := div_pos hqx0 hqy0
        refine ⟨lg (qx / qy), ?_⟩
        rw [← huv, ← hu', hdiv]
        simp [logFV, hpos]

theorem zScoreSeries_NanNum {rt : ℚ → ℚ} {w : ℕ} {x : List FV}
    (hx : AllNum x) (hw : 2 ≤ w) (hnz : FV.num 0 ∉ rollingStd rt w x) :
    NanNum (w - 1) (zScoreSeries rt w x) := by
  intro t v hv
  rw [zScoreSeries, get?_zipWith] at hv
  cases hA : (List.zipWith FV.sub x (rollingMean w x)).get? t with
  | none => rw [hA] at hv; simp at hv
  | some u =>
    cases hB : (rollingStd rt w x).get? t with
    | none => rw [hA, hB] at hv; simp at hv
    | some s =>
      rw [hA, hB] at hv
      simp only [Option.bind_some, Option.map_some'] at hv
      have hv' := Option.some.inj hv
      have hmean : NanNum (w - 1) (rollingMean w x) :=
        rollingMean_NanNum hx (by omega)
      have hnum : NanNum (w - 1) (List.zipWith FV.sub x (rollingMean w x)) := by
        have := NanNum_zipWith FV.sub FV.sub_nan_left FV.sub_nan_right
          (fun p q => ⟨p - q, FV.sub_num p q⟩) (NanNum_allNum hx) hmean
        simpa using this
      rcases hnum t u hA with ⟨h1, hu⟩ | ⟨h1, qu, hu⟩
      · left
        exact ⟨h1, by rw [← hv', hu, FV.div_nan_left]⟩
      · right
        refine ⟨h1, ?_⟩
        rcases rollingStd_NanNum hx hw t s hB with ⟨h2, hs⟩ | ⟨h2, qs, hs⟩
        · omega
        · have hqs : qs ≠ 0 := by
            intro hcon
            apply hnz
            rw [hcon] at hs
            rw [hs] at hB
            exact List.get?_mem hB
          exact ⟨qu / qs, by rw [← hv', hu, hs, FV.div_num _ hqs]⟩

theorem bollUpper_NanNum {rt : ℚ → ℚ} {k : ℚ} {w : ℕ} {x : List FV}
    (hx : AllNum x) (hw : 2 ≤ w) : NanNum (w - 1) (bollUpper rt k w x) := by
  have hmean : NanNum (w - 1) (rollingMean w x) := rollingMean_NanNum hx (by omega)
  have hstd : NanNum (w - 1) ((rollingStd rt w x).map (FV.mul (FV.num k))) :=
    NanNum_map (FV.mul (FV.num k)) (FV.mul_num_nan k)
      (fun p => ⟨k * p, FV.mul_num k p⟩) (rollingStd_NanNum hx hw)
  have := NanNum_zipWith FV.add FV.add_nan_left FV.add_nan_right
    (fun p q => ⟨p + q, FV.add_num p q⟩) hmean hstd
  simpa [bollUpper] using this

theorem bollLower_NanNum {rt : ℚ → ℚ} {k : ℚ} {w : ℕ} {x : List FV}
    (hx : AllNum x) (hw : 2 ≤ w) : NanNum (w - 1) (bollLower rt k w x) := by
  have hmean : NanNum (w - 1) (rollingMean w x) := rollingMean_NanNum hx (by omega)
  have hstd : NanNum (w - 1) ((rollingStd rt w x).map (FV.mul (FV.num k))) :=
    NanNum_map (FV.mul (FV.num k)) (FV.mul_num_nan k)
      (fun p => ⟨k * p, FV.mul_num k p⟩) (rollingStd_NanNum hx hw)
  have := NanNum_zipWith FV.sub FV.sub_nan_left FV.sub_nan_right
    (fun p q => ⟨p - q, FV.sub_num p q⟩) hmean hstd
  simpa [bollLower] using this

theorem bollWidth_NanNum {rt : ℚ → ℚ} {k : ℚ} {w : ℕ} {x : List FV}
    (hx : AllNum x) (hw : 2 ≤ w) : NanNum (w - 1) (bollWidth rt k w x) := by
  have hu : NanNum (w - 1) (bollUpper rt k w x) := bollUpper_NanNum hx hw
  have hlo : NanNum (w - 1) (bollLower rt k w x) := bollLower_NanNum hx hw
  have := NanNum_zipWith FV.sub FV.sub_nan_left FV.sub_nan_right
    (fun p q => ⟨p - q, FV.sub_num p q⟩) hu hlo
  simpa [bollWidth] using this

theorem length_ewmGo (a : ℚ) :
    ∀ (xs : List FV) (p : FV), (ewmGo a p xs).length = xs.length + 1 := by
  intro xs
  induction xs with
  | nil => intro p; rfl
  | cons x l ih => intro p; simp [ewmGo, ih]

theorem length_ewmList (a : ℚ) (xs : List FV) :
    (ewmList a xs).length = xs.length := by
  cases xs with
  | nil => rfl
  | cons x l => simp [ewmList, length_ewmGo]

theorem ewmGo_allNum (a : ℚ) :
    ∀ (xs : List FV) (p : ℚ), AllNum xs → AllNum (ewmGo a (FV.num p) xs) := by
  intro xs
  induction xs with
  | nil =>
    intro p _
    intro v hv
    simp [ewmGo] at hv
    exact ⟨p, hv⟩
  | cons x l ih =>
    intro p hx
    intro v hv
    obtain ⟨qx, hqx⟩ := hx x (List.mem_cons_self _ _)
    rw [ewmGo] at hv
    rcases List.mem_cons.mp hv with hv | hv
    · exact ⟨p, hv⟩
    · have hnext : FV.add (FV.mul (FV.num (1 - a)) (FV.num p)) (FV.mul (FV.num a) x) =
          FV.num ((1 - a) * p + a * qx) := by
        rw [hqx, FV.mul_num, FV.mul_num, FV.add_num]
      rw [hqx] at hv
      have := ih ((1 - a) * p + a * qx) (fun u hu => hx u (List.mem_cons_of_mem _ hu))
      apply this
      rw [show FV.num ((1 - a) * p + a * qx) =
        FV.add (FV.mul (FV.num (1 - a)) (FV.num p)) (FV.mul (FV.num a) (FV.num qx)) from
        by rw [FV.mul_num, FV.mul_num, FV.add_num]]
      exact hv

theorem ewmList_allNum {a : ℚ} {xs : List FV} (hx : AllNum xs) :
    AllNum (ewmList a xs) := by
  cases xs with
  | nil => intro v hv; simp [ewmList] at hv
  | cons x l =>
    obtain ⟨qx, hqx⟩ := hx x (List.mem_cons_self _ _)
    rw [ewmList, hqx]
    exact ewmGo_allNum a l qx fun u hu => hx u (List.mem_cons_of_mem _ hu)

theorem mergeMax_num_cases (q : ℚ) {y : FV} (hy : y = FV.nan ∨ ∃ p, y = FV.num p) :
    ∃ r, mergeMax (FV.num q) y = FV.num r := by
  rcases hy with hy | ⟨p, hy⟩
  · subst hy
    exact ⟨q, rfl⟩
  · subst hy
    rw [mergeMax]
    by_cases hb : FV.blt (FV.num q) (FV.num p)
    · exact ⟨p, by simp [FV.isNaN, hb]⟩
    · exact ⟨q, by simp [FV.isNaN, hb]⟩

theorem fabs_shift_shape {a c : List FV} (ha : AllNum a) (hc : AllNum c) :
    ∀ v ∈ (List.zipWith FV.sub a (shift1 c)).map FV.fabs,
      v = FV.nan ∨ ∃ q, v = FV.num q := by
  intro v hv
  obtain ⟨u, hu, huv⟩ := List.mem_map.mp hv
  rcases sub_shift1_shape ha hc u hu with h | ⟨q, h⟩
  · left
    rw [← huv, h]
    rfl
  · right
    exact ⟨|q|, by rw [← huv, h]; rfl⟩

theorem trueRange_shape {high low close : List FV}
    (hh : AllNum high) (hl : AllNum low) (hc : AllNum close) :
    AllNum (trueRangeSeries high low close) := by
  intro v hv
  obtain ⟨t, ht⟩ := List.mem_iff_get?.mp hv
  rw [trueRangeSeries, get?_zipWith] at ht
  cases hA : (List.zipWith mergeMax (List.zipWith FV.sub high low)
      ((List.zipWith FV.sub high (shift1 close)).map FV.fabs)).get? t with
  | none => rw [hA] at ht; simp at ht
  | some m =>
    cases hB : ((List.zipWith FV.sub low (shift1 close)).map FV.fabs).get? t with
    | none => rw [hA, hB] at ht; simp at ht
    | some c3 =>
      rw [hA, hB] at ht
      simp only [Option.bind_some, Option.map_some'] at ht
      have ht' := Option.some.inj ht
      have hm : ∃ q, m = FV.num q := by
        rw [get?_zipWith] at hA
        cases hA1 : (List.zipWith FV.sub high low).get? t with
        | none => rw [hA1] at hA; simp at hA
        | some hlv =>
          cases hA2 : ((List.zipWith FV.sub high (shift1 close)).map FV.fabs).get? t with
          | none => rw [hA1, hA2] at hA; simp at hA
          | some c2 =>
            rw [hA1, hA2] at hA
            simp only [Option.bind_some, Option.map_some'] at hA
            have hA' := Option.some.inj hA
            have hhl : ∃ q, hlv = FV.num q := by
              rw [get?_zipWith] at hA1
              cases hH : high.get? t with
              | none => rw [hH] at hA1; simp at hA1
              | some xh =>
                cases hL : low.get? t with
                | none => rw [hH, hL] at hA1; simp at hA1
                | some xl =>
                  rw [hH, hL] at hA1
                  simp only [Option.bind_some, Option.map_some'] at hA1
                  obtain ⟨qh, hqh⟩ := hh xh (List.get?_mem hH)
                  obtain ⟨ql, hql⟩ := hl xl (List.get?_mem hL)
                  exact ⟨qh - ql, by rw [← Option.some.inj hA1, hqh, hql, FV.sub_num]⟩
            obtain ⟨qm, hqm⟩ := hhl
            obtain ⟨r, hr⟩ := mergeMax_num_cases qm
              (fabs_shift_shape hh hc c2 (List.get?_mem hA2))
            exact ⟨r, by rw [← hA', hqm, hr]⟩
      obtain ⟨qm, hqm⟩ := hm
      obtain ⟨r, hr⟩ := mergeMax_num_cases qm (fabs_shift_shape hl hc c3 (List.get?_mem hB))
      exact ⟨r, by rw [← ht', hqm, hr]⟩

theorem atrSeries_NanNum {w : ℕ} {high low close : List FV}
    (hh : AllNum high) (hl : AllNum low) (hc : AllNum close) (hw : 1 ≤ w) :
    NanNum (w - 1) (atrSeries w high low close) :=
  rollingMean_NanNum (trueRange_shape hh hl hc) hw

theorem vdSeries_NanNum {vol tbb : List FV} (hv : AllNum vol) (hb : AllNum tbb) :
    NanNum 0 (vdSeries vol tbb) := by
  have h1 := NanNum_zipWith FV.sub FV.sub_nan_left FV.sub_nan_right
    (fun p q => ⟨p - q, FV.sub_num p q⟩) (NanNum_allNum hv) (NanNum_allNum hb)
  have h2 := NanNum_zipWith FV.sub FV.sub_nan_left FV.sub_nan_right
    (fun p q => ⟨p - q, FV.sub_num p q⟩) (NanNum_allNum hb) (by simpa using h1)
  simpa [vdSeries] using h2

theorem ofiSeries_NanNum {vol tbb : List FV}
    (hv : ∀ v ∈ vol, ∃ q, v = FV.num q ∧ q ≠ 0) (hb : AllNum tbb) :
    NanNum 0 (ofiSeries vol tbb) := by
  have hvn : AllNum vol := fun v hvm => (hv v hvm).imp fun _ h => h.1
  intro t v hvv
  rw [ofiSeries, get?_zipWith] at hvv
  cases hA : (vdSeries vol tbb).get? t with
  | none => rw [hA] at hvv; simp at hvv
  | some u =>
    cases hB : vol.get? t with
    | none => rw [hA, hB] at hvv; simp at hvv
    | some y =>
      rw [hA, hB] at hvv
      simp only [Option.bind_some, Option.map_some'] at hvv
      have hv' := Option.some.inj hvv
      right
      refine ⟨Nat.zero_le _, ?_⟩
      rcases vdSeries_NanNum hvn hb t u hA with ⟨h1, _⟩ | ⟨_, qu, hu⟩
      · omega
      · obtain ⟨qy, hqy, hqy0⟩ := hv y (List.get?_mem hB)
        exact ⟨qu / qy, by rw [← hv', hu, hqy, FV.div_num _ hqy0]⟩

/-!  ## The global `dropna` trim: exact surviving row count -/

theorem length_filter_range (K : ℕ) :
    ∀ n, ((List.range n).filter fun t => decide (K ≤ t)).length = n - min n K := by
  intro n
  induction n with
  | zero => simp
  | succ m ih =>
    rw [List.range_succ, List.filter_append, List.length_append, ih]
    by_cases h : K ≤ m
    · simp only [List.filter_cons, List.filter_nil, decide_eq_true h, if_true]
      simp only [List.length_cons, List.length_nil]
      omega
    · simp only [List.filter_cons, List.filter_nil]
      rw [if_neg (by simpa using h)]
      simp only [List.length_nil]
      omega

/-- If every column is NaN on its warm-up prefix (of size at most `K`) and
finite after, and some column's warm-up is exactly `K`, the global trim
keeps exactly the rows from `K` on. -/
theorem dropna_nrows {df : DataFrame} {n K : ℕ}
    (hne : df.cols ≠ [])
    (hlen : ∀ p ∈ df.cols, p.2.length = n)
    (hub : ∀ p ∈ df.cols, ∃ k, k ≤ K ∧ NanNum k p.2)
    (hex : ∃ p ∈ df.cols, NanNum K p.2) :
    df.dropna.nrows = n - min n K := by
  obtain ⟨cols⟩ := df
  cases cols with
  | nil => exact absurd rfl hne
  | cons p0 l =>
    have hrows : DataFrame.nrows ⟨p0 :: l⟩ = n := hlen p0 (List.mem_cons_self _ _)
    have hpred : ∀ t ∈ List.range (DataFrame.nrows ⟨p0 :: l⟩),
        ((p0 :: l).all fun p => !(p.2.getD t FV.nan).isNaN) = decide (K ≤ t) := by
      intro t htm
      have ht : t < n := by
        rw [← hrows]
        exact List.mem_range.mp htm
      by_cases hK : K ≤ t
      · rw [decide_eq_true hK, List.all_eq_true]
        intro p hp
        have hlt : t < p.2.length := by rw [hlen p hp]; exact ht
        obtain ⟨k, hk, hNN⟩ := hub p hp
        rcases hNN t _ (List.get?_eq_get hlt) with ⟨h1, _⟩ | ⟨_, q, h2⟩
        · omega
        · rw [List.getD_eq_get?, List.get?_eq_get hlt, h2]
          rfl
      · rw [decide_eq_false hK]
        obtain ⟨p, hp, hNN⟩ := hex
        have hlt : t < p.2.length := by rw [hlen p hp]; exact ht
        rcases hNN t _ (List.get?_eq_get hlt) with ⟨_, h2⟩ | ⟨h1, _⟩
        · rw [List.all_eq_false]
          refine ⟨p, hp, ?_⟩
          rw [List.getD_eq_get?, List.get?_eq_get hlt, h2]
          simp [FV.isNaN]
        · omega
    have hkeep := List.filter_congr hpred
    simp only [DataFrame.nrows] at hkeep hrows
    show (DataFrame.mk (((p0 :: l)).map fun p =>
      (p.1, ((List.range (DataFrame.nrows ⟨p0 :: l⟩)).filter fun t =>
        (p0 :: l).all fun c => !(c.2.getD t FV.nan).isNaN).map fun t =>
          p.2.getD t FV.nan))).nrows = n - min n K
    simp only [List.map_cons, DataFrame.nrows, List.length_map]
    rw [hkeep, hrows, length_filter_range]

/-!  ## DataFrame access lemmas for the orchestration proofs -/

theorem find?_name_none {l : List (String × List FV)} {nm : String}
    (h : nm ∉ l.map Prod.fst) : (l.find? fun p => p.1 == nm) = none := by
  rw [List.find?_eq_none]
  intro p hp
  simp only [beq_iff_eq]
  intro hcon
  exact h (by rw [← hcon]; exact List.mem_map_of_mem Prod.fst hp)

theorem getCol_append_left {df : DataFrame} {extra : List (String × List FV)}
    {nm : String} {c : List FV} (h : df.getCol nm = Except.ok c) :
    (DataFrame.mk (df.cols ++ extra)).getCol nm = Except.ok c := by
  rw [DataFrame.getCol] at h ⊢
  rw [show (DataFrame.mk (df.cols ++ extra)).cols = df.cols ++ extra from rfl,
    List.find?_append]
  cases hf : df.cols.find? (fun p => p.1 == nm) with
  | none =>
    rw [hf] at h
    exact Except.noConfusion h
  | some p =>
    rw [hf] at h
    simpa using h

theorem getCol_append_right {df : DataFrame} {extra : List (String × List FV)}
    {nm : String} (h : nm ∉ df.names) :
    (DataFrame.mk (df.cols ++ extra)).getCol nm = (DataFrame.mk extra).getCol nm := by
  rw [DataFrame.getCol, DataFrame.getCol, List.find?_append, find?_name_none h]
  rfl

theorem getCol_head (nm : String) (c : List FV) (l : List (String × List FV)) :
    (DataFrame.mk ((nm, c) :: l)).getCol nm = Except.ok c := by
  rw [DataFrame.getCol]
  simp [List.find?_cons]

theorem getCol_cons_ne {a : String × List FV} {l : List (String × List FV)}
    {nm : String} (h : a.1 ≠ nm) :
    (DataFrame.mk (a :: l)).getCol nm = (DataFrame.mk l).getCol nm := by
  rw [DataFrame.getCol, DataFrame.getCol]
  rw [List.find?_cons_of_neg _ (by simpa using h)]

theorem setCol_fresh {df : DataFrame} {nm : String} {c : List FV}
    (h : nm ∉ df.names) : df.setCol nm c = ⟨df.cols ++ [(nm, c)]⟩ := by
  rw [DataFrame.setCol, if_neg h]

theorem names_mk (l : List (String × List FV)) :
    (DataFrame.mk l).names = l.map Prod.fst := rfl

/-!  ## One lemma per pipeline step: each computer appends its columns -/

theorem ok_bind {α β : Type} (a : α) (f : α → Except String β) :
    (Except.ok a >>= f) = f a := rfl

theorem not_mem_names_append {df : DataFrame} {extra : List (String × List FV)}
    {nm : String} (h1 : nm ∉ df.names) (h2 : nm ∉ extra.map Prod.fst) :
    nm ∉ (DataFrame.mk (df.cols ++ extra)).names := by
  rw [names_mk, List.map_append]
  intro hmem
  rcases List.mem_append.mp hmem with hmem | hmem
  · exact h1 hmem
  · exact h2 hmem

theorem compute_log_returns_eq {lg : ℚ → ℚ} {df : DataFrame} {close : List FV}
    (hc : df.getCol "Close" = Except.ok close)
    (hf : "Log_Returns" ∉ df.names) :
    compute_log_returns lg df =
      Except.ok ⟨df.cols ++ [("Log_Returns", logRet lg close)]⟩ := by
  simp only [compute_log_returns, hc, ok_bind]
  rw [setCol_fresh hf]
  rfl

theorem compute_z_score_eq {rt : ℚ → ℚ} {df : DataFrame} {close : List FV}
    (hc : df.getCol "Close" = Except.ok close)
    (h1 : "Close_Mean" ∉ df.names) (h2 : "Close_Std" ∉ df.names)
    (h3 : "Z_Score_Close" ∉ df.names) :
    compute_z_score rt "Close" 20 df =
      Except.ok ⟨df.cols ++
        [("Close_Mean", rollingMean 20 close),
         ("Close_Std", rollingStd rt 20 close),
         ("Z_Score_Close", zScoreSeries rt 20 close)]⟩ := by
  have e1 : ("Close" ++ "_Mean" : String) = "Close_Mean" := rfl
  have e2 : ("Close" ++ "_Std" : String) = "Close_Std" := rfl
  have e3 : ("Z_Score_" ++ "Close" : String) = "Z_Score_Close" := rfl
  simp only [compute_z_score, hc, ok_bind, e1, e2, e3]
  rw [setCol_fresh h1]
  rw [setCol_fresh (not_mem_names_append h2
    (by show "Close_Std" ∉ (["Close_Mean"] : List String); decide))]
  have hm : (DataFrame.mk ((df.cols ++ [("Close_Mean", rollingMean 20 close)]) ++
      [("Close_Std", rollingStd rt 20 close)])).getCol "Close_Mean" =
      Except.ok (rollingMean 20 close) := by
    rw [List.append_assoc, getCol_append_right h1]
    simp only [List.cons_append, List.nil_append]
    exact getCol_head _ _ _
  have hs : (DataFrame.mk ((df.cols ++ [("Close_Mean", rollingMean 20 close)]) ++
      [("Close_Std", rollingStd rt 20 close)])).getCol "Close_Std" =
      Except.ok (rollingStd rt 20 close) := by
    rw [List.append_assoc, getCol_append_right h2]
    simp only [List.cons_append, List.nil_append]
    rw [getCol_cons_ne (by show ("Close_Mean" : String) ≠ "Close_Std"; decide)]
    exact getCol_head _ _ _
  simp only [hm, hs, ok_bind]
  have hfrZ : "Z_Score_Close" ∉ (DataFrame.mk ((df.cols ++
      [("Close_Mean", rollingMean 20 close)]) ++
      [("Close_Std", rollingStd rt 20 close)])).names := by
    show "Z_Score_Close" ∉ (DataFrame.mk ((df.cols ++
      [("Close_Mean", rollingMean 20 close)]) ++
      [("Close_Std", rollingStd rt 20 close)])).names
    rw [show ((df.cols ++ [("Close_Mean", rollingMean 20 close)]) ++
      [("Close_Std", rollingStd rt 20 close)]) = df.cols ++
      ([("Close_Mean", rollingMean 20 close)] ++
       [("Close_Std", rollingStd rt 20 close)]) from (List.append_assoc _ _ _)]
    exact not_mem_names_append h3
      (by show "Z_Score_Close" ∉ (["Close_Mean", "Close_Std"] : List String); decide)
  rw [setCol_fresh hfrZ]
  simp only [List.append_assoc, List.cons_append, List.nil_append]
  rfl

theorem compute_volatility_eq {rt : ℚ → ℚ} {df : DataFrame} {close : List FV}
    (hc : df.getCol "Close" = Except.ok close)
    (hf : "Volatility_Close_20" ∉ df.names) :
    compute_volatility rt "Close" 20 df =
      Except.ok ⟨df.cols ++ [("Volatility_Close_20", rollingStd rt 20 close)]⟩ := by
  have e1 : ("Volatility_" ++ "Close" ++ "_" ++ toString (20 : ℕ) : String) =
    "Volatility_Close_20" := rfl
  simp only [compute_volatility, hc, ok_bind, e1]
  rw [setCol_fresh hf]
  rfl

theorem compute_sma_nil (c : String) (df : DataFrame) :
    compute_multiple_moving_averages c [] df = Except.ok df := rfl

theorem compute_sma_cons (c : String) (w : ℕ) (ws : List ℕ) (df : DataFrame) :
    compute_multiple_moving_averages c (w :: ws) df =
      ((do
        let x ← df.getCol c
        pure (df.setCol ("SMA_" ++ toString w) (rollingMean w x))) >>=
        fun d => compute_multiple_moving_averages c ws d) := rfl

theorem compute_sma_eq :
    ∀ (ws : List ℕ) (df : DataFrame) (close : List FV),
      df.getCol "Close" = Except.ok close →
      (∀ w ∈ ws, ("SMA_" ++ toString w) ∉ df.names) →
      (ws.map fun w => "SMA_" ++ toString w).Nodup →
      compute_multiple_moving_averages "Close" ws df =
        Except.ok ⟨df.cols ++ smaPairs close ws⟩ := by
  intro ws
  induction ws with
  | nil =>
    intro df close hc _ _
    rw [compute_sma_nil]
    rw [show df.cols ++ smaPairs close [] = df.cols from by simp [smaPairs]]
  | cons w rest ih =>
    intro df close hc hfresh hnodup
    rw [compute_sma_cons]
    simp only [hc, ok_bind]
    rw [setCol_fresh (hfresh w (List.mem_cons_self _ _))]
    rw [List.map_cons] at hnodup
    have hns := List.nodup_cons.mp hnodup
    have step := ih ⟨df.cols ++ [("SMA_" ++ toString w, rollingMean w close)]⟩ close
      (getCol_append_left hc)
      (by
        intro w' hw'
        apply not_mem_names_append (hfresh w' (List.mem_cons_of_mem _ hw'))
        intro hmem
        simp only [List.map_cons, List.map_nil] at hmem
        rcases List.mem_singleton.mp hmem with h
        exact hns.1 (h ▸ List.mem_map_of_mem (fun u => "SMA_" ++ toString u) hw'))
      hns.2
    rw [pure_bind, step]
    simp [smaPairs, List.append_assoc]

theorem compute_ema_nil (c : String) (df : DataFrame) :
    compute_multiple_exponential_moving_averages c [] df = Except.ok df := rfl

theorem compute_ema_cons (c : String) (w : ℕ) (ws : List ℕ) (df : DataFrame) :
    compute_multiple_exponential_moving_averages c (w :: ws) df =
      ((do
        let x ← df.getCol c
        pure (df.setCol ("EMA_" ++ toString w) (ewmList (2 / ((w : ℚ) + 1)) x))) >>=
        fun d => compute_multiple_exponential_moving_averages c ws d) := rfl

theorem compute_ema_eq :
    ∀ (ws : List ℕ) (df : DataFrame) (close : List FV),
      df.getCol "Close" = Except.ok close →
      (∀ w ∈ ws, ("EMA_" ++ toString w) ∉ df.names) →
      (ws.map fun w => "EMA_" ++ toString w).Nodup →
      compute_multiple_exponential_moving_averages "Close" ws df =
        Except.ok ⟨df.cols ++ emaPairs close ws⟩ := by
  intro ws
  induction ws with
  | nil =>
    intro df close hc _ _
    rw [compute_ema_nil]
    rw [show df.cols ++ emaPairs close [] = df.cols from by simp [emaPairs]]
  | cons w rest ih =>
    intro df close hc hfresh hnodup
    rw [compute_ema_cons]
    simp only [hc, ok_bind]
    rw [setCol_fresh (hfresh w (List.mem_cons_self _ _))]
    rw [List.map_cons] at hnodup
    have hns := List.nodup_cons.mp hnodup
    have step := ih ⟨df.cols ++
        [("EMA_" ++ toString w, ewmList (2 / ((w : ℚ) + 1)) close)]⟩ close
      (getCol_append_left hc)
      (by
        intro w' hw'
        apply not_mem_names_append (hfresh w' (List.mem_cons_of_mem _ hw'))
        intro hmem
        simp only [List.map_cons, List.map_nil] at hmem
        rcases List.mem_singleton.mp hmem with h
        exact hns.1 (h ▸ List.mem_map_of_mem (fun u => "EMA_" ++ toString u) hw'))
      hns.2
    rw [pure_bind, step]
    simp [emaPairs, List.append_assoc, Nat.cast_id]

theorem compute_bollinger_one {rt : ℚ → ℚ} {k : ℚ} {df : DataFrame} {close : List FV}
    {w : ℕ}
    (hc : df.getCol "Close" = Except.ok close)
    (hf : ∀ nm ∈ bollNames w, nm ∉ df.names)
    (hnd : (bollNames w).Nodup) :
    compute_bollinger_bands rt "Close" w k df =
      Except.ok ⟨df.cols ++ bollPairsOne rt k close w⟩ := by
  have h1 : ("Bollinger_MA_" ++ toString w) ∉ df.names := hf _ (by simp [bollNames])
  have h2 : ("Bollinger_Upper_" ++ toString w) ∉ df.names := hf _ (by simp [bollNames])
  have h3 : ("Bollinger_Lower_" ++ toString w) ∉ df.names := hf _ (by simp [bollNames])
  have h4 : ("Bollinger_Width_" ++ toString w) ∉ df.names := hf _ (by simp [bollNames])
  rw [bollNames] at hnd
  have hA := List.nodup_cons.mp hnd
  have hB := List.nodup_cons.mp hA.2
  have hC := List.nodup_cons.mp hB.2
  have d12 : ("Bollinger_MA_" ++ toString w) ≠ ("Bollinger_Upper_" ++ toString w) :=
    fun h => hA.1 (by rw [h]; exact List.mem_cons_self _ _)
  have d13 : ("Bollinger_MA_" ++ toString w) ≠ ("Bollinger_Lower_" ++ toString w) :=
    fun h => hA.1 (by rw [h]; exact List.mem_cons_of_mem _ (List.mem_cons_self _ _))
  have d14 : ("Bollinger_MA_" ++ toString w) ≠ ("Bollinger_Width_" ++ toString w) :=
    fun h => hA.1 (by
      rw [h]
      exact List.mem_cons_of_mem _ (List.mem_cons_of_mem _ (List.mem_cons_self _ _)))
  have d23 : ("Bollinger_Upper_" ++ toString w) ≠ ("Bollinger_Lower_" ++ toString w) :=
    fun h => hB.1 (by rw [h]; exact List.mem_cons_self _ _)
  have d24 : ("Bollinger_Upper_" ++ toString w) ≠ ("Bollinger_Width_" ++ toString w) :=
    fun h => hB.1 (by rw [h]; exact List.mem_cons_of_mem _ (List.mem_cons_self _ _))
  have d34 : ("Bollinger_Lower_" ++ toString w) ≠ ("Bollinger_Width_" ++ toString w) :=
    fun h => hC.1 (by rw [h]; exact List.mem_cons_self _ _)
  simp only [compute_bollinger_bands, hc, ok_bind]
  rw [setCol_fresh h1]
  have r1 : (DataFrame.mk (df.cols ++
      [("Bollinger_MA_" ++ toString w, rollingMean w close)])).getCol
      ("Bollinger_MA_" ++ toString w) = Except.ok (rollingMean w close) := by
    rw [getCol_append_right h1]
    exact getCol_head _ _ _
  simp only [r1, ok_bind]
  rw [setCol_fresh (not_mem_names_append h2 (by
    intro hm
    simp only [List.map_cons, List.map_nil] at hm
    exact d12 (List.mem_singleton.mp hm).symm))]
  have r2 : (DataFrame.mk ((df.cols ++
      [("Bollinger_MA_" ++ toString w, rollingMean w close)]) ++
      [("Bollinger_Upper_" ++ toString w,
        List.zipWith FV.add (rollingMean w close)
          ((rollingStd rt w close).map (FV.mul (FV.num k))))])).getCol
      ("Bollinger_MA_" ++ toString w) = Except.ok (rollingMean w close) := by
    rw [List.append_assoc, getCol_append_right h1]
    simp only [List.cons_append, List.nil_append]
    exact getCol_head _ _ _
  simp only [r2, ok_bind]
  have hfrL : ("Bollinger_Lower_" ++ toString w) ∉ (DataFrame.mk ((df.cols ++
      [("Bollinger_MA_" ++ toString w, rollingMean w close)]) ++
      [("Bollinger_Upper_" ++ toString w,
        List.zipWith FV.add (rollingMean w close)
          ((rollingStd rt w close).map (FV.mul (FV.num k))))])).names := by
    show ("Bollinger_Lower_" ++ toString w) ∉ _
    rw [List.append_assoc]
    apply not_mem_names_append h3
    intro hm
    simp only [List.cons_append, List.nil_append, List.map_cons, List.map_nil] at hm
    rcases List.mem_cons.mp hm with h | h
    · exact d13 h.symm
    · exact d23 (List.mem_singleton.mp h).symm
  rw [setCol_fresh hfrL]
  have r3 : (DataFrame.mk (((df.cols ++
      [("Bollinger_MA_" ++ toString w, rollingMean w close)]) ++
      [("Bollinger_Upper_" ++ toString w,
        List.zipWith FV.add (rollingMean w close)
          ((rollingStd rt w close).map (FV.mul (FV.num k))))]) ++
      [("Bollinger_Lower_" ++ toString w,
        List.zipWith FV.sub (rollingMean w close)
          ((rollingStd rt w close).map (FV.mul (FV.num k))))])).getCol
      ("Bollinger_Upper_" ++ toString w) =
      Except.ok (List.zipWith FV.add (rollingMean w close)
        ((rollingStd rt w close).map (FV.mul (FV.num k)))) := by
    simp only [List.append_assoc, List.cons_append, List.nil_append]
    rw [getCol_append_right h2, getCol_cons_ne (by exact d12)]
    exact getCol_head _ _ _
  have r4 : (DataFrame.mk (((df.cols ++
      [("Bollinger_MA_" ++ toString w, rollingMean w close)]) ++
      [("Bollinger_Upper_" ++ toString w,
        List.zipWith FV.add (rollingMean w close)
          ((rollingStd rt w close).map (FV.mul (FV.num k))))]) ++
      [("Bollinger_Lower_" ++ toString w,
        List.zipWith FV.sub (rollingMean w close)
          ((rollingStd rt w close).map (FV.mul (FV.num k))))])).getCol
      ("Bollinger_Lower_" ++ toString w) =
      Except.ok (List.zipWith FV.sub (rollingMean w close)
        ((rollingStd rt w close).map (FV.mul (FV.num k)))) := by
    simp only [List.append_assoc, List.cons_append, List.nil_append]
    rw [getCol_append_right h3, getCol_cons_ne (by exact d13),
      getCol_cons_ne (by exact d23)]
    exact getCol_head _ _ _
  simp only [r3, r4, ok_bind]
  have hfrW : ("Bollinger_Width_" ++ toString w) ∉ (DataFrame.mk (((df.cols ++
      [("Bollinger_MA_" ++ toString w, rollingMean w close)]) ++
      [("Bollinger_Upper_" ++ toString w,
        List.zipWith FV.add (rollingMean w close)
          ((rollingStd rt w close).map (FV.mul (FV.num k))))]) ++
      [("Bollinger_Lower_" ++ toString w,
        List.zipWith FV.sub (rollingMean w close)
          ((rollingStd rt w close).map (FV.mul (FV.num k))))])).names := by
    show ("Bollinger_Width_" ++ toString w) ∉ _
    simp only [List.append_assoc]
    apply not_mem_names_append h4
    intro hm
    simp only [List.cons_append, List.nil_append, List.map_cons, List.map_nil] at hm
    rcases List.mem_cons.mp hm with h | h
    · exact d14 h.symm
    rcases List.mem_cons.mp h with h | h
    · exact d24 h.symm
    · exact d34 (List.mem_singleton.mp h).symm
  rw [setCol_fresh hfrW]
  simp only [List.append_assoc, List.cons_append, List.nil_append]
  rfl

theorem compute_rsi_one {rt : ℚ → ℚ} {df : DataFrame} {close : List FV} {w : ℕ}
    (hc : df.getCol "Close" = Except.ok close)
    (hf : ∀ nm ∈ rsiNames w, nm ∉ df.names)
    (hnd : (rsiNames w).Nodup) :
    compute_rsi rt "Close" w df = Except.ok ⟨df.cols ++ rsiPairsOne rt close w⟩ := by
  have h1 : ("RSI_" ++ toString w) ∉ df.names := hf _ (by simp [rsiNames])
  have h2 : ("Z_RSI_" ++ toString w) ∉ df.names := hf _ (by simp [rsiNames])
  rw [rsiNames] at hnd
  have hA := List.nodup_cons.mp hnd
  have d12 : ("RSI_" ++ toString w) ≠ ("Z_RSI_" ++ toString w) :=
    fun h => hA.1 (by rw [h]; exact List.mem_cons_self _ _)
  simp only [compute_rsi, hc, ok_bind]
  rw [setCol_fresh h1]
  have r1 : (DataFrame.mk (df.cols ++
      [("RSI_" ++ toString w, rsiSeries w close)])).getCol ("RSI_" ++ toString w) =
      Except.ok (rsiSeries w close) := by
    rw [getCol_append_right h1]
    exact getCol_head _ _ _
  simp only [r1, ok_bind]
  rw [setCol_fresh (not_mem_names_append h2 (by
    intro hm
    simp only [List.map_cons, List.map_nil] at hm
    exact d12 (List.mem_singleton.mp hm).symm))]
  simp only [List.append_assoc, List.cons_append, List.nil_append]
  rfl

theorem compute_atr_one {df : DataFrame} {high low close : List FV} {w : ℕ}
    (hh : df.getCol "High" = Except.ok high)
    (hlo : df.getCol "Low" = Except.ok low)
    (hcl : df.getCol "Close" = Except.ok close)
    (hi : ∀ nm ∈ intermNames, nm ∉ df.names)
    (ha : ("ATR_" ++ toString w) ∉ df.names)
    (hai : ("ATR_" ++ toString w) ∉ intermNames) :
    compute_atr w df =
      Except.ok ⟨df.cols ++ [("ATR_" ++ toString w, atrSeries w high low close)]⟩ := by
  have i1 : ("High-Low" : String) ∉ df.names := hi _ (by simp [intermNames])
  have i2 : ("High-Close" : String) ∉ df.names := hi _ (by simp [intermNames])
  have i3 : ("Low-Close" : String) ∉ df.names := hi _ (by simp [intermNames])
  have i4 : ("TrueRange" : String) ∉ df.names := hi _ (by simp [intermNames])
  simp only [compute_atr, hh, hlo, hcl, ok_bind]
  rw [setCol_fresh i1]
  rw [setCol_fresh (not_mem_names_append i2
    (by show "High-Close" ∉ (["High-Low"] : List String); decide))]
  have hfrLC : ("Low-Close" : String) ∉ (DataFrame.mk ((df.cols ++
      [("High-Low", List.zipWith FV.sub high low)]) ++
      [("High-Close", (List.zipWith FV.sub high (shift1 close)).map FV.fabs)])).names := by
    show ("Low-Close" : String) ∉ _
    rw [List.append_assoc]
    exact not_mem_names_append i3
      (by show "Low-Close" ∉ (["High-Low", "High-Close"] : List String); decide)
  rw [setCol_fresh hfrLC]
  have r1 : (DataFrame.mk (((df.cols ++
      [("High-Low", List.zipWith FV.sub high low)]) ++
      [("High-Close", (List.zipWith FV.sub high (shift1 close)).map FV.fabs)]) ++
      [("Low-Close", (List.zipWith FV.sub low (shift1 close)).map FV.fabs)])).getCol
      "High-Low" = Except.ok (List.zipWith FV.sub high low) := by
    simp only [List.append_assoc, List.cons_append, List.nil_append]
    rw [getCol_append_right i1]
    exact getCol_head _ _ _
  have r2 : (DataFrame.mk (((df.cols ++
      [("High-Low", List.zipWith FV.sub high low)]) ++
      [("High-Close", (List.zipWith FV.sub high (shift1 close)).map FV.fabs)]) ++
      [("Low-Close", (List.zipWith FV.sub low (shift1 close)).map FV.fabs)])).getCol
      "High-Close" =
      Except.ok ((List.zipWith FV.sub high (shift1 close)).map FV.fabs) := by
    simp only [List.append_assoc, List.cons_append, List.nil_append]
    rw [getCol_append_right i2,
      getCol_cons_ne (by show ("High-Low" : String) ≠ "High-Close"; decide)]
    exact getCol_head _ _ _
  have r3 : (DataFrame.mk (((df.cols ++
      [("High-Low", List.zipWith FV.sub high low)]) ++
      [("High-Close", (List.zipWith FV.sub high (shift1 close)).map FV.fabs)]) ++
      [("Low-Close", (List.zipWith FV.sub low (shift1 close)).map FV.fabs)])).getCol
      "Low-Close" =
      Except.ok ((List.zipWith FV.sub low (shift1 close)).map FV.fabs) := by
    simp only [List.append_assoc, List.cons_append, List.nil_append]
    rw [getCol_append_right i3,
      getCol_cons_ne (by show ("High-Low" : String) ≠ "Low-Close"; decide),
      getCol_cons_ne (by show ("High-Close" : String) ≠ "Low-Close"; decide)]
    exact getCol_head _ _ _
  simp only [r1, r2, r3, ok_bind]
  have hfrTR : ("TrueRange" : String) ∉ (DataFrame.mk (((df.cols ++
      [("High-Low", List.zipWith FV.sub high low)]) ++
      [("High-Close", (List.zipWith FV.sub high (shift1 close)).map FV.fabs)]) ++
      [("Low-Close", (List.zipWith FV.sub low (shift1 close)).map FV.fabs)])).names := by
    show ("TrueRange" : String) ∉ _
    simp only [List.append_assoc]
    exact not_mem_names_append i4
      (by show "TrueRange" ∉ (["High-Low", "High-Close", "Low-Close"] : List String)
          decide)
  rw [setCol_fresh hfrTR]
  have r4 : (DataFrame.mk ((((df.cols ++
      [("High-Low", List.zipWith FV.sub high low)]) ++
      [("High-Close", (List.zipWith FV.sub high (shift1 close)).map FV.fabs)]) ++
      [("Low-Close", (List.zipWith FV.sub low (shift1 close)).map FV.fabs)]) ++
      [("TrueRange", List.zipWith mergeMax
        (List.zipWith mergeMax (List.zipWith FV.sub high low)
          ((List.zipWith FV.sub high (shift1 close)).map FV.fabs))
        ((List.zipWith FV.sub low (shift1 close)).map FV.fabs))])).getCol "TrueRange" =
      Except.ok (List.zipWith mergeMax
        (List.zipWith mergeMax (List.zipWith FV.sub high low)
          ((List.zipWith FV.sub high (shift1 close)).map FV.fabs))
        ((List.zipWith FV.sub low (shift1 close)).map FV.fabs)) := by
    simp only [List.append_assoc, List.cons_append, List.nil_append]
    rw [getCol_append_right i4,
      getCol_cons_ne (by show ("High-Low" : String) ≠ "TrueRange"; decide),
      getCol_cons_ne (by show ("High-Close" : String) ≠ "TrueRange"; decide),
      getCol_cons_ne (by show ("Low-Close" : String) ≠ "TrueRange"; decide)]
    exact getCol_head _ _ _
  simp only [r4, ok_bind]
  have hfrATR : ("ATR_" ++ toString w) ∉ (DataFrame.mk ((((df.cols ++
      [("High-Low", List.zipWith FV.sub high low)]) ++
      [("High-Close", (List.zipWith FV.sub high (shift1 close)).map FV.fabs)]) ++
      [("Low-Close", (List.zipWith FV.sub low (shift1 close)).map FV.fabs)]) ++
      [("TrueRange", List.zipWith mergeMax
        (List.zipWith mergeMax (List.zipWith FV.sub high low)
          ((List.zipWith FV.sub high (shift1 close)).map FV.fabs))
        ((List.zipWith FV.sub low (shift1 close)).map FV.fabs))])).names := by
    show ("ATR_" ++ toString w) ∉ _
    simp only [List.append_assoc]
    apply not_mem_names_append ha
    intro hm
    apply hai
    simp only [List.cons_append, List.nil_append, List.map_cons, List.map_nil] at hm
    simpa [intermNames] using hm
  rw [setCol_fresh hfrATR]
  have cATR : ((["High-Low", "High-Close", "Low-Close", "TrueRange"] :
      List String).contains ("ATR_" ++ toString w)) = false := by
    have : ("ATR_" ++ toString w) ∉
        (["High-Low", "High-Close", "Low-Close", "TrueRange"] : List String) := by
      simpa [intermNames] using hai
    simpa using this
  have hkeep : ∀ p ∈ df.cols,
      (!((["High-Low", "High-Close", "Low-Close", "TrueRange"] :
        List String).contains p.1)) = true := by
    intro p hp
    have hpn : p.1 ∈ df.names := List.mem_map_of_mem Prod.fst hp
    have : p.1 ∉ (["High-Low", "High-Close", "Low-Close", "TrueRange"] : List String) :=
      fun hm => hi p.1 (by simpa [intermNames] using hm) hpn
    simpa using this
  show Except.ok (DataFrame.dropCols _ _) = _
  rw [DataFrame.dropCols]
  simp only [List.append_assoc, List.cons_append, List.nil_append]
  rw [List.filter_append, List.filter_eq_self.mpr hkeep]
  simp only [List.filter_cons, cATR]
  norm_num
  rfl

theorem compute_ofi_eq {df : DataFrame} {vol tbb : List FV}
    (hv : df.getCol "Volume" = Except.ok vol)
    (hb : df.getCol "TakerBuyBaseVolume" = Except.ok tbb)
    (hf : "OFI" ∉ df.names) :
    compute_order_flow_imbalance df =
      Except.ok ⟨df.cols ++ [("OFI", ofiSeries vol tbb)]⟩ := by
  simp only [compute_order_flow_imbalance, hv, hb, ok_bind]
  rw [setCol_fresh hf]
  rfl

theorem compute_vd_eq {df : DataFrame} {vol tbb : List FV}
    (hv : df.getCol "Volume" = Except.ok vol)
    (hb : df.getCol "TakerBuyBaseVolume" = Except.ok tbb)
    (hf : "Volume_Delta" ∉ df.names) :
    compute_volume_delta df =
      Except.ok ⟨df.cols ++ [("Volume_Delta", vdSeries vol tbb)]⟩ := by
  simp only [compute_volume_delta, hv, hb, ok_bind]
  rw [setCol_fresh hf]
  rfl

theorem map_fst_bollPairsOne (rt : ℚ → ℚ) (k : ℚ) (close : List FV) (w : ℕ) :
    (bollPairsOne rt k close w).map Prod.fst = bollNames w := rfl

theorem map_fst_rsiPairsOne (rt : ℚ → ℚ) (close : List FV) (w : ℕ) :
    (rsiPairsOne rt close w).map Prod.fst = rsiNames w := rfl

theorem boll_fold_eq {rt : ℚ → ℚ} :
    ∀ (ws : List ℕ) (df : DataFrame) (close : List FV),
      df.getCol "Close" = Except.ok close →
      (∀ w ∈ ws, ∀ nm ∈ bollNames w, nm ∉ df.names) →
      (ws.flatMap bollNames).Nodup →
      ws.foldlM (fun d w => compute_bollinger_bands rt "Close" w 2 d) df =
        Except.ok ⟨df.cols ++ bollPairs rt 2 close ws⟩ := by
  intro ws
  induction ws with
  | nil =>
    intro df close hc _ _
    rw [List.foldlM_nil]
    rw [show df.cols ++ bollPairs rt 2 close [] = df.cols from by
      simp [bollPairs]]
    rfl
  | cons w rest ih =>
    intro df close hc hfresh hnodup
    simp only [List.foldlM_cons]
    rw [compute_bollinger_one hc (hfresh w (List.mem_cons_self _ _)) (by
      rw [List.flatMap_cons] at hnodup
      exact (List.nodup_append.mp hnodup).1)]
    rw [ok_bind]
    rw [List.flatMap_cons] at hnodup
    have hnd := List.nodup_append.mp hnodup
    have step := ih ⟨df.cols ++ bollPairsOne rt 2 close w⟩ close
      (getCol_append_left hc)
      (by
        intro w' hw' nm hnm
        apply not_mem_names_append (hfresh w' (List.mem_cons_of_mem _ hw') nm hnm)
        rw [map_fst_bollPairsOne]
        intro hmem
        exact hnd.2.2 hmem (List.mem_flatMap.mpr ⟨w', hw', hnm⟩))
      hnd.2.1
    rw [step]
    show Except.ok _ = _
    rw [show (DataFrame.mk (df.cols ++ bollPairsOne rt 2 close w)).cols ++
      bollPairs rt 2 close rest = df.cols ++ bollPairs rt 2 close (w :: rest) from by
      show (df.cols ++ bollPairsOne rt 2 close w) ++ bollPairs rt 2 close rest = _
      rw [List.append_assoc]
      rw [show bollPairs rt 2 close (w :: rest) =
        bollPairsOne rt 2 close w ++ bollPairs rt 2 close rest from
        List.flatMap_cons _ _ _]]

theorem rsi_fold_eq {rt : ℚ → ℚ} :
    ∀ (ws : List ℕ) (df : DataFrame) (close : List FV),
      df.getCol "Close" = Except.ok close →
      (∀ w ∈ ws, ∀ nm ∈ rsiNames w, nm ∉ df.names) →
      (ws.flatMap rsiNames).Nodup →
      ws.foldlM (fun d w => compute_rsi rt "Close" w d) df =
        Except.ok ⟨df.cols ++ rsiPairs rt close ws⟩ := by
  intro ws
  induction ws with
  | nil =>
    intro df close hc _ _
    rw [List.foldlM_nil]
    rw [show df.cols ++ rsiPairs rt close [] = df.cols from by simp [rsiPairs]]
    rfl
  | cons w rest ih =>
    intro df close hc hfresh hnodup
    simp only [List.foldlM_cons]
    rw [compute_rsi_one hc (hfresh w (List.mem_cons_self _ _)) (by
      rw [List.flatMap_cons] at hnodup
      exact (List.nodup_append.mp hnodup).1)]
    rw [ok_bind]
    rw [List.flatMap_cons] at hnodup
    have hnd := List.nodup_append.mp hnodup
    have step := ih ⟨df.cols ++ rsiPairsOne rt close w⟩ close
      (getCol_append_left hc)
      (by
        intro w' hw' nm hnm
        apply not_mem_names_append (hfresh w' (List.mem_cons_of_mem _ hw') nm hnm)
        rw [map_fst_rsiPairsOne]
        intro hmem
        exact hnd.2.2 hmem (List.mem_flatMap.mpr ⟨w', hw', hnm⟩))
      hnd.2.1
    rw [step]
    show Except.ok _ = _
    rw [show (DataFrame.mk (df.cols ++ rsiPairsOne rt close w)).cols ++
      rsiPairs rt close rest = df.cols ++ rsiPairs rt close (w :: rest) from by
      show (df.cols ++ rsiPairsOne rt close w) ++ rsiPairs rt close rest = _
      rw [List.append_assoc]
      rw [show rsiPairs rt close (w :: rest) =
        rsiPairsOne rt close w ++ rsiPairs rt close rest from List.flatMap_cons _ _ _]]

theorem atr_fold_eq :
    ∀ (ws : List ℕ) (df : DataFrame) (high low close : List FV),
      df.getCol "High" = Except.ok high →
      df.getCol "Low" = Except.ok low →
      df.getCol "Close" = Except.ok close →
      (∀ nm ∈ intermNames, nm ∉ df.names) →
      (∀ w ∈ ws, ("ATR_" ++ toString w) ∉ df.names) →
      (∀ w ∈ ws, ("ATR_" ++ toString w) ∉ intermNames) →
      (ws.map fun w => "ATR_" ++ toString w).Nodup →
      ws.foldlM (fun d w => compute_atr w d) df =
        Except.ok ⟨df.cols ++ atrPairs high low close ws⟩ := by
  intro ws
  induction ws with
  | nil =>
    intro df high low close _ _ _ _ _ _ _
    rw [List.foldlM_nil]
    rw [show df.cols ++ atrPairs high low close [] = df.cols from by simp [atrPairs]]
    rfl
  | cons w rest ih =>
    intro df high low close hh hlo hcl hi ha hai hnodup
    simp only [List.foldlM_cons]
    rw [compute_atr_one hh hlo hcl hi (ha w (List.mem_cons_self _ _))
      (hai w (List.mem_cons_self _ _))]
    rw [ok_bind]
    rw [List.map_cons] at hnodup
    have hnd := List.nodup_cons.mp hnodup
    have step := ih ⟨df.cols ++ [("ATR_" ++ toString w, atrSeries w high low close)]⟩
      high low close
      (getCol_append_left hh) (getCol_append_left hlo) (getCol_append_left hcl)
      (by
        intro nm hnm
        apply not_mem_names_append (hi nm hnm)
        intro hmem
        simp only [List.map_cons, List.map_nil] at hmem
        have := List.mem_singleton.mp hmem
        exact hai w (List.mem_cons_self _ _) (this ▸ hnm))
      (by
        intro w' hw'
        apply not_mem_names_append (ha w' (List.mem_cons_of_mem _ hw'))
        intro hmem
        simp only [List.map_cons, List.map_nil] at hmem
        have h := List.mem_singleton.mp hmem
        exact hnd.1 (h ▸ List.mem_map_of_mem (fun u => "ATR_" ++ toString u) hw'))
      (fun w' hw' => hai w' (List.mem_cons_of_mem _ hw'))
      hnd.2
    rw [step]
    simp [atrPairs, List.append_assoc]

/-!  ## The master orchestration lemma: `featurize` appends exactly `genCols` -/

theorem map_fst_smaPairs (close : List FV) (ws : List ℕ) :
    (smaPairs close ws).map Prod.fst = ws.map fun w => "SMA_" ++ toString w := by
  rw [smaPairs, List.map_map]
  rfl

theorem map_fst_emaPairs (close : List FV) (ws : List ℕ) :
    (emaPairs close ws).map Prod.fst = ws.map fun w => "EMA_" ++ toString w := by
  rw [emaPairs, List.map_map]
  rfl

theorem map_fst_bollPairs (rt : ℚ → ℚ) (k : ℚ) (close : List FV) :
    ∀ ws : List ℕ, (bollPairs rt k close ws).map Prod.fst = ws.flatMap bollNames := by
  intro ws
  induction ws with
  | nil => rfl
  | cons w rest ih =>
    rw [bollPairs, List.flatMap_cons, List.map_append, List.flatMap_cons]
    rw [show (bollPairsOne rt k close w).map Prod.fst = bollNames w from rfl]
    rw [show (rest.flatMap (bollPairsOne rt k close)).map Prod.fst =
      (bollPairs rt k close rest).map Prod.fst from rfl, ih]

theorem map_fst_rsiPairs (rt : ℚ → ℚ) (close : List FV) :
    ∀ ws : List ℕ, (rsiPairs rt close ws).map Prod.fst = ws.flatMap rsiNames := by
  intro ws
  induction ws with
  | nil => rfl
  | cons w rest ih =>
    rw [rsiPairs, List.flatMap_cons, List.map_append, List.flatMap_cons]
    rw [show (rsiPairsOne rt close w).map Prod.fst = rsiNames w from rfl]
    rw [show (rest.flatMap (rsiPairsOne rt close)).map Prod.fst =
      (rsiPairs rt close rest).map Prod.fst from rfl, ih]

theorem map_fst_atrPairs (high low close : List FV) (ws : List ℕ) :
    (atrPairs high low close ws).map Prod.fst = ws.map fun w => "ATR_" ++ toString w := by
  rw [atrPairs, List.map_map]
  rfl

theorem map_fst_genCols (lg rt : ℚ → ℚ) (cfg : Config)
    (close high low vol tbb : List FV) :
    (genCols lg rt cfg close high low vol tbb).map Prod.fst = genNames cfg := by
  rw [genCols, genNames]
  simp only [List.map_append]
  rw [show (headPairs lg rt close).map Prod.fst =
    (["Log_Returns", "Close_Mean", "Close_Std", "Z_Score_Close",
      "Volatility_Close_20"] : List String) from rfl]
  rw [map_fst_smaPairs, map_fst_emaPairs, map_fst_bollPairs, map_fst_rsiPairs,
    map_fst_atrPairs]
  rw [show (tailPairs vol tbb).map Prod.fst = (["OFI", "Volume_Delta"] : List String)
    from rfl]

set_option maxHeartbeats 3200000 in
theorem featurize_eq {lg rt : ℚ → ℚ} {cfg : Config} {df : DataFrame}
    {close high low vol tbb : List FV}
    (hcl : df.getCol "Close" = Except.ok close)
    (hh : df.getCol "High" = Except.ok high)
    (hlo : df.getCol "Low" = Except.ok low)
    (hv : df.getCol "Volume" = Except.ok vol)
    (hb : df.getCol "TakerBuyBaseVolume" = Except.ok tbb)
    (hfresh : ∀ nm ∈ genNames cfg ++ intermNames, nm ∉ df.names)
    (hnodup : (genNames cfg ++ intermNames).Nodup) :
    featurize lg rt cfg df =
      Except.ok ⟨df.cols ++ genCols lg rt cfg close high low vol tbb⟩ := by
  -- Disjointness ladder through the segments of the generated names.
  rw [genNames] at hnodup
  simp only [List.append_assoc] at hnodup
  have d0 := List.nodup_append.mp hnodup
  have d1 := List.nodup_append.mp d0.2.1
  have d2 := List.nodup_append.mp d1.2.1
  have d3 := List.nodup_append.mp d2.2.1
  have d4 := List.nodup_append.mp d3.2.1
  have d5 := List.nodup_append.mp d4.2.1
  have d6 := List.nodup_append.mp d5.2.1
  -- Freshness of each name family with respect to the input frame.
  have fL0 : ∀ nm ∈ (["Log_Returns", "Close_Mean", "Close_Std", "Z_Score_Close",
      "Volatility_Close_20"] : List String), nm ∉ df.names := by
    intro nm hnm
    refine hfresh nm (List.mem_append_left _ ?_)
    rw [genNames]
    exact List.mem_append_left _ hnm
  have fS : ∀ w ∈ cfg.sma, ("SMA_" ++ toString w) ∉ df.names := by
    intro w hw
    refine hfresh _ (List.mem_append_left _ ?_)
    rw [genNames]
    exact List.mem_append_right _ (List.mem_append_left _ (List.mem_map_of_mem _ hw))
  have fE : ∀ w ∈ cfg.ema, ("EMA_" ++ toString w) ∉ df.names := by
    intro w hw
    refine hfresh _ (List.mem_append_left _ ?_)
    rw [genNames]
    exact List.mem_append_right _ (List.mem_append_right _
      (List.mem_append_left _ (List.mem_map_of_mem _ hw)))
  have fB : ∀ w ∈ cfg.boll, ∀ nm ∈ bollNames w, nm ∉ df.names := by
    intro w hw nm hnm
    refine hfresh _ (List.mem_append_left _ ?_)
    rw [genNames]
    exact List.mem_append_right _ (List.mem_append_right _ (List.mem_append_right _
      (List.mem_append_left _ (List.mem_flatMap.mpr ⟨w, hw, hnm⟩))))
  have fR : ∀ w ∈ cfg.rsi, ∀ nm ∈ rsiNames w, nm ∉ df.names := by
    intro w hw nm hnm
    refine hfresh _ (List.mem_append_left _ ?_)
    rw [genNames]
    exact List.mem_append_right _ (List.mem_append_right _ (List.mem_append_right _
      (List.mem_append_right _
        (List.mem_append_left _ (List.mem_flatMap.mpr ⟨w, hw, hnm⟩)))))
  have fA : ∀ w ∈ cfg.atr, ("ATR_" ++ toString w) ∉ df.names := by
    intro w hw
    refine hfresh _ (List.mem_append_left _ ?_)
    rw [genNames]
    exact List.mem_append_right _ (List.mem_append_right _ (List.mem_append_right _
      (List.mem_append_right _ (List.mem_append_right _
        (List.mem_append_left _ (List.mem_map_of_mem _ hw))))))
  have fT : ∀ nm ∈ (["OFI", "Volume_Delta"] : List String), nm ∉ df.names := by
    intro nm hnm
    refine hfresh _ (List.mem_append_left _ ?_)
    rw [genNames]
    exact List.mem_append_right _ (List.mem_append_right _ (List.mem_append_right _
      (List.mem_append_right _ (List.mem_append_right _
        (List.mem_append_right _ hnm)))))
  have fI : ∀ nm ∈ intermNames, nm ∉ df.names := fun nm hnm =>
    hfresh nm (List.mem_append_right _ hnm)
  -- Segment membership implies exclusion from earlier segments.
  have nS_L0 : ∀ w ∈ cfg.sma, ("SMA_" ++ toString w) ∉
      (["Log_Returns", "Close_Mean", "Close_Std", "Z_Score_Close",
        "Volatility_Close_20"] : List String) := by
    intro w hw hmem
    exact d0.2.2 hmem (List.mem_append_left _ (List.mem_map_of_mem _ hw))
  have nE_L0 : ∀ w ∈ cfg.ema, ("EMA_" ++ toString w) ∉
      (["Log_Returns", "Close_Mean", "Close_Std", "Z_Score_Close",
        "Volatility_Close_20"] : List String) := by
    intro w hw hmem
    exact d0.2.2 hmem (List.mem_append_right _
      (List.mem_append_left _ (List.mem_map_of_mem _ hw)))
  have nE_S : ∀ w ∈ cfg.ema, ("EMA_" ++ toString w) ∉
      cfg.sma.map (fun u => "SMA_" ++ toString u) := by
    intro w hw hmem
    exact d1.2.2 hmem (List.mem_append_left _ (List.mem_map_of_mem _ hw))
  have nB_L0 : ∀ w ∈ cfg.boll, ∀ nm ∈ bollNames w, nm ∉
      (["Log_Returns", "Close_Mean", "Close_Std", "Z_Score_Close",
        "Volatility_Close_20"] : List String) := by
    intro w hw nm hnm hmem
    exact d0.2.2 hmem (List.mem_append_right _ (List.mem_append_right _
      (List.mem_append_left _ (List.mem_flatMap.mpr ⟨w, hw, hnm⟩))))
  have nB_S : ∀ w ∈ cfg.boll, ∀ nm ∈ bollNames w, nm ∉
      cfg.sma.map (fun u => "SMA_" ++ toString u) := by
    intro w hw nm hnm hmem
    exact d1.2.2 hmem (List.mem_append_right _
      (List.mem_append_left _ (List.mem_flatMap.mpr ⟨w, hw, hnm⟩)))
  have nB_E : ∀ w ∈ cfg.boll, ∀ nm ∈ bollNames w, nm ∉
      cfg.ema.map (fun u => "EMA_" ++ toString u) := by
    intro w hw nm hnm hmem
    exact d2.2.2 hmem (List.mem_append_left _ (List.mem_flatMap.mpr ⟨w, hw, hnm⟩))
  have nR_L0 : ∀ w ∈ cfg.rsi, ∀ nm ∈ rsiNames w, nm ∉
      (["Log_Returns", "Close_Mean", "Close_Std", "Z_Score_Close",
        "Volatility_Close_20"] : List String) := by
    intro w hw nm hnm hmem
    exact d0.2.2 hmem (List.mem_append_right _ (List.mem_append_right _
      (List.mem_append_right _
        (List.mem_append_left _ (List.mem_flatMap.mpr ⟨w, hw, hnm⟩)))))
  have nR_S : ∀ w ∈ cfg.rsi, ∀ nm ∈ rsiNames w, nm ∉
      cfg.sma.map (fun u => "SMA_" ++ toString u) := by
    intro w hw nm hnm hmem
    exact d1.2.2 hmem (List.mem_append_right _ (List.mem_append_right _
      (List.mem_append_left _ (List.mem_flatMap.mpr ⟨w, hw, hnm⟩))))
  have nR_E : ∀ w ∈ cfg.rsi, ∀ nm ∈ rsiNames w, nm ∉
      cfg.ema.map (fun u => "EMA_" ++ toString u) := by
    intro w hw nm hnm hmem
    exact d2.2.2 hmem (List.mem_append_right _
      (List.mem_append_left _ (List.mem_flatMap.mpr ⟨w, hw, hnm⟩)))
  have nR_B : ∀ w ∈ cfg.rsi, ∀ nm ∈ rsiNames w, nm ∉ cfg.boll.flatMap bollNames := by
    intro w hw nm hnm hmem
    exact d3.2.2 hmem (List.mem_append_left _ (List.mem_flatMap.mpr ⟨w, hw, hnm⟩))
  have nA_L0 : ∀ w ∈ cfg.atr, ("ATR_" ++ toString w) ∉
      (["Log_Returns", "Close_Mean", "Close_Std", "Z_Score_Close",
        "Volatility_Close_20"] : List String) := by
    intro w hw hmem
    exact d0.2.2 hmem (List.mem_append_right _ (List.mem_append_right _
      (List.mem_append_right _ (List.mem_append_right _
        (List.mem_append_left _ (List.mem_map_of_mem _ hw))))))
  have nA_S : ∀ w ∈ cfg.atr, ("ATR_" ++ toString w) ∉
      cfg.sma.map (fun u => "SMA_" ++ toString u) := by
    intro w hw hmem
    exact d1.2.2 hmem (List.mem_append_right _ (List.mem_append_right _
      (List.mem_append_right _ (List.mem_append_left _ (List.mem_map_of_mem _ hw)))))
  have nA_E : ∀ w ∈ cfg.atr, ("ATR_" ++ toString w) ∉
      cfg.ema.map (fun u => "EMA_" ++ toString u) := by
    intro w hw hmem
    exact d2.2.2 hmem (List.mem_append_right _ (List.mem_append_right _
      (List.mem_append_left _ (List.mem_map_of_mem _ hw))))
  have nA_B : ∀ w ∈ cfg.atr, ("ATR_" ++ toString w) ∉ cfg.boll.flatMap bollNames := by
    intro w hw hmem
    exact d3.2.2 hmem (List.mem_append_right _
      (List.mem_append_left _ (List.mem_map_of_mem _ hw)))
  have nA_R : ∀ w ∈ cfg.atr, ("ATR_" ++ toString w) ∉ cfg.rsi.flatMap rsiNames := by
    intro w hw hmem
    exact d4.2.2 hmem (List.mem_append_left _ (List.mem_map_of_mem _ hw))
  have nA_I : ∀ w ∈ cfg.atr, ("ATR_" ++ toString w) ∉ intermNames := by
    intro w hw hmem
    exact d5.2.2 (List.mem_map_of_mem _ hw) (List.mem_append_right _ hmem)
  have nT_L0 : ∀ nm ∈ (["OFI", "Volume_Delta"] : List String), nm ∉
      (["Log_Returns", "Close_Mean", "Close_Std", "Z_Score_Close",
        "Volatility_Close_20"] : List String) := by
    intro nm hnm hmem
    exact d0.2.2 hmem (List.mem_append_right _ (List.mem_append_right _
      (List.mem_append_right _ (List.mem_append_right _ (List.mem_append_right _
        (List.mem_append_left _ hnm))))))
  have nT_S : ∀ nm ∈ (["OFI", "Volume_Delta"] : List String), nm ∉
      cfg.sma.map (fun u => "SMA_" ++ toString u) := by
    intro nm hnm hmem
    exact d1.2.2 hmem (List.mem_append_right _ (List.mem_append_right _
      (List.mem_append_right _ (List.mem_append_right _ (List.mem_append_left _ hnm)))))
  have nT_E : ∀ nm ∈ (["OFI", "Volume_Delta"] : List String), nm ∉
      cfg.ema.map (fun u => "EMA_" ++ toString u) := by
    intro nm hnm hmem
    exact d2.2.2 hmem (List.mem_append_right _ (List.mem_append_right _
      (List.mem_append_right _ (List.mem_append_left _ hnm))))
  have nT_B : ∀ nm ∈ (["OFI", "Volume_Delta"] : List String),
      nm ∉ cfg.boll.flatMap bollNames := by
    intro nm hnm hmem
    exact d3.2.2 hmem (List.mem_append_right _
      (List.mem_append_right _ (List.mem_append_left _ hnm)))
  have nT_R : ∀ nm ∈ (["OFI", "Volume_Delta"] : List String),
      nm ∉ cfg.rsi.flatMap rsiNames := by
    intro nm hnm hmem
    exact d4.2.2 hmem (List.mem_append_right _ (List.mem_append_left _ hnm))
  have nT_A : ∀ nm ∈ (["OFI", "Volume_Delta"] : List String),
      nm ∉ cfg.atr.map (fun u => "ATR_" ++ toString u) := by
    intro nm hnm hmem
    exact d5.2.2 hmem (List.mem_append_left _ hnm)
  have nI_gen : ∀ nm ∈ intermNames, nm ∉ genNames cfg := by
    intro nm hnm hmem
    rw [genNames] at hmem
    rcases List.mem_append.mp hmem with h | h
    · exact d0.2.2 h (List.mem_append_right _ (List.mem_append_right _
        (List.mem_append_right _ (List.mem_append_right _ (List.mem_append_right _
          (List.mem_append_right _ hnm))))))
    rcases List.mem_append.mp h with h | h
    · exact d1.2.2 h (List.mem_append_right _ (List.mem_append_right _
        (List.mem_append_right _ (List.mem_append_right _
          (List.mem_append_right _ hnm)))))
    rcases List.mem_append.mp h with h | h
    · exact d2.2.2 h (List.mem_append_right _ (List.mem_append_right _
        (List.mem_append_right _ (List.mem_append_right _ hnm))))
    rcases List.mem_append.mp h with h | h
    · exact d3.2.2 h (List.mem_append_right _ (List.mem_append_right _
        (List.mem_append_right _ hnm)))
    rcases List.mem_append.mp h with h | h
    · exact d4.2.2 h (List.mem_append_right _ (List.mem_append_right _ hnm))
    rcases List.mem_append.mp h with h | h
    · exact d5.2.2 h (List.mem_append_right _ hnm)
    · exact d6.2.2 h hnm
  have nI_L0 : ∀ nm ∈ intermNames, nm ∉
      (["Log_Returns", "Close_Mean", "Close_Std", "Z_Score_Close",
        "Volatility_Close_20"] : List String) := by
    intro nm hnm hmem
    exact d0.2.2 hmem (List.mem_append_right _ (List.mem_append_right _
      (List.mem_append_right _ (List.mem_append_right _ (List.mem_append_right _
        (List.mem_append_right _ hnm))))))
  have nI_S : ∀ nm ∈ intermNames, nm ∉ cfg.sma.map (fun u => "SMA_" ++ toString u) := by
    intro nm hnm hmem
    exact d1.2.2 hmem (List.mem_append_right _ (List.mem_append_right _
      (List.mem_append_right _ (List.mem_append_right _ (List.mem_append_right _ hnm)))))
  have nI_E : ∀ nm ∈ intermNames, nm ∉ cfg.ema.map (fun u => "EMA_" ++ toString u) := by
    intro nm hnm hmem
    exact d2.2.2 hmem (List.mem_append_right _ (List.mem_append_right _
      (List.mem_append_right _ (List.mem_append_right _ hnm))))
  have nI_B : ∀ nm ∈ intermNames, nm ∉ cfg.boll.flatMap bollNames := by
    intro nm hnm hmem
    exact d3.2.2 hmem (List.mem_append_right _ (List.mem_append_right _
      (List.mem_append_right _ hnm)))
  have nI_R : ∀ nm ∈ intermNames, nm ∉ cfg.rsi.flatMap rsiNames := by
    intro nm hnm hmem
    exact d4.2.2 hmem (List.mem_append_right _ (List.mem_append_right _ hnm))
  clear nI_gen
  -- The pipeline chain, one computer at a time.
  rw [featurize]
  rw [compute_log_returns_eq hcl (fL0 _ (by simp)), ok_bind]
  rw [compute_z_score_eq (getCol_append_left hcl)
    (not_mem_names_append (fL0 _ (by simp)) (by intro hm; simp at hm))
    (not_mem_names_append (fL0 _ (by simp)) (by intro hm; simp at hm))
    (not_mem_names_append (fL0 _ (by simp)) (by intro hm; simp at hm)), ok_bind]
  simp only [List.append_assoc, List.cons_append, List.nil_append]
  rw [compute_volatility_eq (getCol_append_left hcl)
    (not_mem_names_append (fL0 _ (by simp)) (by intro hm; simp at hm)), ok_bind]
  simp only [List.append_assoc, List.cons_append, List.nil_append]
  rw [compute_sma_eq cfg.sma _ close (getCol_append_left hcl)
    (by
      intro w hw
      apply not_mem_names_append (fS w hw)
      intro hm
      have e1 := nS_L0 w hw
      simp only [List.map_cons, List.map_append, List.map_nil, List.mem_cons,
        List.mem_append, List.not_mem_nil, List.mem_singleton, or_false] at hm e1
      tauto)
    d1.1, ok_bind]
  simp only [List.append_assoc, List.cons_append, List.nil_append]
  rw [compute_ema_eq cfg.ema _ close (getCol_append_left hcl)
    (by
      intro w hw
      apply not_mem_names_append (fE w hw)
      intro hm
      have e1 := nE_L0 w hw
      have e2 := nE_S w hw
      simp only [List.map_cons, List.map_append, List.map_nil, map_fst_smaPairs,
        List.mem_cons, List.mem_append, List.not_mem_nil, or_false] at hm e1
      tauto)
    d2.1, ok_bind]
  simp only [List.append_assoc, List.cons_append, List.nil_append]
  rw [boll_fold_eq cfg.boll _ close (getCol_append_left hcl)
    (by
      intro w hw nm hnm
      apply not_mem_names_append (fB w hw nm hnm)
      intro hm
      have e1 := nB_L0 w hw nm hnm
      have e2 := nB_S w hw nm hnm
      have e3 := nB_E w hw nm hnm
      simp only [List.map_cons, List.map_append, List.map_nil, map_fst_smaPairs,
        map_fst_emaPairs, List.mem_cons, List.mem_append, List.not_mem_nil,
        or_false] at hm e1
      tauto)
    d3.1, ok_bind]
  simp only [List.append_assoc, List.cons_append, List.nil_append]
  rw [rsi_fold_eq cfg.rsi _ close (getCol_append_left hcl)
    (by
      intro w hw nm hnm
      apply not_mem_names_append (fR w hw nm hnm)
      intro hm
      have e1 := nR_L0 w hw nm hnm
      have e2 := nR_S w hw nm hnm
      have e3 := nR_E w hw nm hnm
      have e4 := nR_B w hw nm hnm
      simp only [List.map_cons, List.map_append, List.map_nil, map_fst_smaPairs,
        map_fst_emaPairs, map_fst_bollPairs, List.mem_cons, List.mem_append,
        List.not_mem_nil, or_false] at hm e1
      tauto)
    d4.1, ok_bind]
  simp only [List.append_assoc, List.cons_append, List.nil_append]
  rw [atr_fold_eq cfg.atr _ high low close
    (getCol_append_left hh) (getCol_append_left hlo) (getCol_append_left hcl)
    (by
      intro nm hnm
      apply not_mem_names_append (fI nm hnm)
      intro hm
      have e1 := nI_L0 nm hnm
      have e2 := nI_S nm hnm
      have e3 := nI_E nm hnm
      have e4 := nI_B nm hnm
      have e5 := nI_R nm hnm
      simp only [List.map_cons, List.map_append, List.map_nil, map_fst_smaPairs,
        map_fst_emaPairs, map_fst_bollPairs, map_fst_rsiPairs, List.mem_cons,
        List.mem_append, List.not_mem_nil, or_false] at hm e1
      tauto)
    (by
      intro w hw
      apply not_mem_names_append (fA w hw)
      intro hm
      have e1 := nA_L0 w hw
      have e2 := nA_S w hw
      have e3 := nA_E w hw
      have e4 := nA_B w hw
      have e5 := nA_R w hw
      simp only [List.map_cons, List.map_append, List.map_nil, map_fst_smaPairs,
        map_fst_emaPairs, map_fst_bollPairs, map_fst_rsiPairs, List.mem_cons,
        List.mem_append, List.not_mem_nil, or_false] at hm e1
      tauto)
    nA_I d5.1, ok_bind]
  simp only [List.append_assoc, List.cons_append, List.nil_append]
  rw [compute_ofi_eq (getCol_append_left hv) (getCol_append_left hb)
    (by
      apply not_mem_names_append (fT "OFI" (by simp))
      intro hm
      have e1 := nT_L0 "OFI" (by simp)
      have e2 := nT_S "OFI" (by simp)
      have e3 := nT_E "OFI" (by simp)
      have e4 := nT_B "OFI" (by simp)
      have e5 := nT_R "OFI" (by simp)
      have e6 := nT_A "OFI" (by simp)
      simp only [List.map_cons, List.map_append, List.map_nil, map_fst_smaPairs,
        map_fst_emaPairs, map_fst_bollPairs, map_fst_rsiPairs, map_fst_atrPairs,
        List.mem_cons, List.mem_append, List.not_mem_nil, or_false] at hm e1
      tauto), ok_bind]
  simp only [List.append_assoc, List.cons_append, List.nil_append]
  rw [compute_vd_eq (getCol_append_left hv) (getCol_append_left hb)
    (by
      apply not_mem_names_append (fT "Volume_Delta" (by simp))
      intro hm
      have e1 := nT_L0 "Volume_Delta" (by simp)
      have e2 := nT_S "Volume_Delta" (by simp)
      have e3 := nT_E "Volume_Delta" (by simp)
      have e4 := nT_B "Volume_Delta" (by simp)
      have e5 := nT_R "Volume_Delta" (by simp)
      have e6 := nT_A "Volume_Delta" (by simp)
      simp only [List.map_cons, List.map_append, List.map_nil, map_fst_smaPairs,
        map_fst_emaPairs, map_fst_bollPairs, map_fst_rsiPairs, map_fst_atrPairs,
        List.mem_cons, List.mem_append, List.not_mem_nil, or_false] at hm e1
      tauto)]
  simp only [genCols, headPairs, tailPairs, List.append_assoc, List.cons_append,
    List.nil_append]

/-!  ## Lengths of the generated columns -/

theorem length_logRet (lg : ℚ → ℚ) (close : List FV) :
    (logRet lg close).length = close.length := by
  simp [logRet, length_shift1]

theorem length_zScoreSeries (rt : ℚ → ℚ) (w : ℕ) (x : List FV) :
    (zScoreSeries rt w x).length = x.length := by
  simp [zScoreSeries, length_rollingMean, length_rollingStd]

theorem length_bollUpper (rt : ℚ → ℚ) (k : ℚ) (w : ℕ) (x : List FV) :
    (bollUpper rt k w x).length = x.length := by
  simp [bollUpper, length_rollingMean, length_rollingStd]

theorem length_bollLower (rt : ℚ → ℚ) (k : ℚ) (w : ℕ) (x : List FV) :
    (bollLower rt k w x).length = x.length := by
  simp [bollLower, length_rollingMean, length_rollingStd]

theorem length_bollWidth (rt : ℚ → ℚ) (k : ℚ) (w : ℕ) (x : List FV) :
    (bollWidth rt k w x).length = x.length := by
  simp [bollWidth, length_bollUpper, length_bollLower]

theorem length_rsiSeries' (w : ℕ) (x : List FV) :
    (rsiSeries w x).length = x.length := by
  rw [length_rsiSeries, Nat.min_self]

theorem length_trueRange {high low close : List FV} {n : ℕ}
    (hh : high.length = n) (hl : low.length = n) (hc : close.length = n) :
    (trueRangeSeries high low close).length = n := by
  simp [trueRangeSeries, length_shift1, hh, hl, hc]

theorem length_atrSeries {w : ℕ} {high low close : List FV} {n : ℕ}
    (hh : high.length = n) (hl : low.length = n) (hc : close.length = n) :
    (atrSeries w high low close).length = n := by
  rw [atrSeries, length_rollingMean, length_trueRange hh hl hc]

theorem length_vdSeries {vol tbb : List FV} {n : ℕ}
    (hv : vol.length = n) (hb : tbb.length = n) :
    (vdSeries vol tbb).length = n := by
  simp [vdSeries, hv, hb]

theorem length_ofiSeries {vol tbb : List FV} {n : ℕ}
    (hv : vol.length = n) (hb : tbb.length = n) :
    (ofiSeries vol tbb).length = n := by
  simp [ofiSeries, length_vdSeries hv hb, hv]

/-!  ## Facts about the warm-up bound -/

theorem maxOf_le {l : List ℕ} : ∀ w ∈ l, w - 1 ≤ maxOf l := by
  induction l with
  | nil => intro w hw; simp at hw
  | cons a rest ih =>
    intro w hw
    rcases List.mem_cons.mp hw with h | h
    · rw [h, maxOf, List.foldr_cons]
      exact le_max_left _ _
    · rw [maxOf, List.foldr_cons]
      exact le_trans (ih w h) (le_max_right _ _)

theorem maxOf_attained : ∀ l : List ℕ, maxOf l = 0 ∨ ∃ w ∈ l, maxOf l = w - 1 := by
  intro l
  induction l with
  | nil => exact Or.inl rfl
  | cons a rest ih =>
    rw [maxOf, List.foldr_cons]
    rw [show List.foldr (fun w m => (w - 1) ⊔ m) 0 rest = maxOf rest from rfl]
    rcases Nat.le_total (a - 1) (maxOf rest) with h | h
    · rw [max_eq_right h]
      rcases ih with h0 | ⟨w, hw, he⟩
      · exact Or.inl h0
      · exact Or.inr ⟨w, List.mem_cons_of_mem _ hw, he⟩
    · rw [max_eq_left h]
      exact Or.inr ⟨a, List.mem_cons_self _ _, rfl⟩

theorem mem_of_getCol {df : DataFrame} {nm : String} {c : List FV}
    (h : df.getCol nm = Except.ok c) : (nm, c) ∈ df.cols := by
  rw [DataFrame.getCol] at h
  cases hf : df.cols.find? (fun p => p.1 == nm) with
  | none =>
    rw [hf] at h
    exact Except.noConfusion h
  | some p =>
    rw [hf] at h
    have hm := List.mem_of_find?_eq_some hf
    have hp := List.find?_some hf
    have h2 : p.2 = c := by simpa using h
    have h1 : p.1 = nm := by simpa using hp
    rw [← h1, ← h2]
    exact hm

/-- Every generated column has the input length and the NaN-prefix shape,
with warm-up at most `maxWarm cfg`, on finite, non-degenerate input. -/
theorem genCols_spec {lg rt : ℚ → ℚ} {cfg : Config} {n : ℕ}
    {close high low vol tbb : List FV}
    (hcn : close.length = n) (hhn : high.length = n) (hln : low.length = n)
    (hvn : vol.length = n) (hbn : tbb.length = n)
    (hcA : AllNum close) (hhA : AllNum high) (hlA : AllNum low)
    (hbA : AllNum tbb)
    (hcpos : ∀ v ∈ close, ∃ q, v = FV.num q ∧ 0 < q)
    (hvnz : ∀ v ∈ vol, ∃ q, v = FV.num q ∧ q ≠ 0)
    (hrt : ∀ q : ℚ, 0 < q → 0 < rt q)
    (hsma : ∀ w ∈ cfg.sma, 1 ≤ w)
    (hboll : ∀ w ∈ cfg.boll, 2 ≤ w)
    (hrsi : ∀ w ∈ cfg.rsi, 1 ≤ w)
    (hatr : ∀ w ∈ cfg.atr, 1 ≤ w)
    (hz : FV.num 0 ∉ rollingStd rt 20 close)
    (hnb : ∀ w ∈ cfg.rsi, ∀ t, ¬((rsiGain w close).get? t = some (FV.num 0) ∧
      (rsiLoss w close).get? t = some (FV.num 0)))
    (hvr : ∀ w ∈ cfg.rsi, keptVarFV (rsiSeries w close) ≠ FV.num 0) :
    ∀ p ∈ genCols lg rt cfg close high low vol tbb,
      p.2.length = n ∧ ∃ k, k ≤ maxWarm cfg ∧ NanNum k p.2 := by
  have hvA : AllNum vol := fun v hvm => (hvnz v hvm).imp fun _ hq => hq.1
  have h19 : 19 ≤ maxWarm cfg := le_max_left _ _
  have hWs : ∀ w ∈ cfg.sma, w - 1 ≤ maxWarm cfg := by
    intro w hw
    exact le_trans (maxOf_le w (List.mem_append_left _ (List.mem_append_left _
      (List.mem_append_left _ hw)))) (le_max_right _ _)
  have hWb : ∀ w ∈ cfg.boll, w - 1 ≤ maxWarm cfg := by
    intro w hw
    exact le_trans (maxOf_le w (List.mem_append_left _ (List.mem_append_left _
      (List.mem_append_right _ hw)))) (le_max_right _ _)
  have hWr : ∀ w ∈ cfg.rsi, w - 1 ≤ maxWarm cfg := by
    intro w hw
    exact le_trans (maxOf_le w (List.mem_append_left _ (List.mem_append_right _ hw)))
      (le_max_right _ _)
  have hWa : ∀ w ∈ cfg.atr, w - 1 ≤ maxWarm cfg := by
    intro w hw
    exact le_trans (maxOf_le w (List.mem_append_right _ hw)) (le_max_right _ _)
  intro p hp
  rw [genCols] at hp
  rcases List.mem_append.mp hp with h | h
  · -- the five fixed leading columns
    rw [headPairs] at h
    simp only [List.mem_cons, List.not_mem_nil, or_false] at h
    rcases h with h | h | h | h | h
    · rw [h]
      exact ⟨length_logRet lg close ▸ hcn, 1, le_trans (by norm_num) h19,
        logRet_NanNum hcpos⟩
    · rw [h]
      refine ⟨(length_rollingMean 20 close).trans hcn, 19, h19, ?_⟩
      have h20 : NanNum (20 - 1) (rollingMean 20 close) :=
        rollingMean_NanNum hcA (by norm_num)
      simpa using h20
    · rw [h]
      refine ⟨(length_rollingStd rt 20 close).trans hcn, 19, h19, ?_⟩
      have h20 : NanNum (20 - 1) (rollingStd rt 20 close) :=
        rollingStd_NanNum hcA (by norm_num)
      simpa using h20
    · rw [h]
      refine ⟨(length_zScoreSeries rt 20 close).trans hcn, 19, h19, ?_⟩
      have h20 : NanNum (20 - 1) (zScoreSeries rt 20 close) :=
        zScoreSeries_NanNum hcA (by norm_num) hz
      simpa using h20
    · rw [h]
      refine ⟨(length_rollingStd rt 20 close).trans hcn, 19, h19, ?_⟩
      have h20 : NanNum (20 - 1) (rollingStd rt 20 close) :=
        rollingStd_NanNum hcA (by norm_num)
      simpa using h20
  rcases List.mem_append.mp h with h | h
  · -- SMA columns
    rw [smaPairs] at h
    obtain ⟨w, hw, hpe⟩ := List.mem_map.mp h
    rw [← hpe]
    exact ⟨(length_rollingMean w close).trans hcn, w - 1, hWs w hw,
      rollingMean_NanNum hcA (hsma w hw)⟩
  rcases List.mem_append.mp h with h | h
  · -- EMA columns
    rw [emaPairs] at h
    obtain ⟨w, hw, hpe⟩ := List.mem_map.mp h
    rw [← hpe]
    exact ⟨(length_ewmList _ close).trans hcn, 0, Nat.zero_le _,
      NanNum_allNum (ewmList_allNum hcA)⟩
  rcases List.mem_append.mp h with h | h
  · -- Bollinger columns
    rw [bollPairs] at h
    obtain ⟨w, hw, hpm⟩ := List.mem_flatMap.mp h
    rw [bollPairsOne] at hpm
    simp only [List.mem_cons, List.not_mem_nil, or_false] at hpm
    rcases hpm with h | h | h | h
    · rw [h]
      exact ⟨(length_rollingMean w close).trans hcn, w - 1, hWb w hw,
        rollingMean_NanNum hcA (by have := hboll w hw; omega)⟩
    · rw [h]
      exact ⟨(length_bollUpper rt 2 w close).trans hcn, w - 1, hWb w hw,
        bollUpper_NanNum hcA (hboll w hw)⟩
    · rw [h]
      exact ⟨(length_bollLower rt 2 w close).trans hcn, w - 1, hWb w hw,
        bollLower_NanNum hcA (hboll w hw)⟩
    · rw [h]
      exact ⟨(length_bollWidth rt 2 w close).trans hcn, w - 1, hWb w hw,
        bollWidth_NanNum hcA (hboll w hw)⟩
  rcases List.mem_append.mp h with h | h
  · -- RSI columns
    rw [rsiPairs] at h
    obtain ⟨w, hw, hpm⟩ := List.mem_flatMap.mp h
    rw [rsiPairsOne] at hpm
    simp only [List.mem_cons, List.not_mem_nil, or_false] at hpm
    rcases hpm with h | h
    · rw [h]
      exact ⟨(length_rsiSeries' w close).trans hcn, w - 1, hWr w hw,
        rsiSeries_NanNum hcA (hrsi w hw) (hnb w hw)⟩
    · rw [h]
      exact ⟨(length_zscoreReinsert rt (rsiSeries w close)).trans
          ((length_rsiSeries' w close).trans hcn), w - 1, hWr w hw,
        zscoreReinsert_NanNum (rsiSeries_NanNum hcA (hrsi w hw) (hnb w hw))
          (hvr w hw) hrt⟩
  rcases List.mem_append.mp h with h | h
  · -- ATR columns
    rw [atrPairs] at h
    obtain ⟨w, hw, hpe⟩ := List.mem_map.mp h
    rw [← hpe]
    exact ⟨length_atrSeries hhn hln hcn, w - 1, hWa w hw,
      atrSeries_NanNum hhA hlA hcA (hatr w hw)⟩
  · -- OFI and volume delta
    rw [tailPairs] at h
    simp only [List.mem_cons, List.not_mem_nil, or_false] at h
    rcases h with h | h
    · rw [h]
      exact ⟨length_ofiSeries hvn hbn, 0, Nat.zero_le _, ofiSeries_NanNum hvnz hbA⟩
    · rw [h]
      exact ⟨length_vdSeries hvn hbn, 0, Nat.zero_le _, vdSeries_NanNum hvA hbA⟩

/-- Some generated column has NaN exactly on the first `maxWarm cfg` rows. -/
theorem genCols_attained {lg rt : ℚ → ℚ} {cfg : Config}
    {close high low vol tbb : List FV}
    (hcA : AllNum close) (hhA : AllNum high) (hlA : AllNum low)
    (hsma : ∀ w ∈ cfg.sma, 1 ≤ w)
    (hboll : ∀ w ∈ cfg.boll, 2 ≤ w)
    (hrsi : ∀ w ∈ cfg.rsi, 1 ≤ w)
    (hatr : ∀ w ∈ cfg.atr, 1 ≤ w)
    (hnb : ∀ w ∈ cfg.rsi, ∀ t, ¬((rsiGain w close).get? t = some (FV.num 0) ∧
      (rsiLoss w close).get? t = some (FV.num 0))) :
    ∃ p ∈ genCols lg rt cfg close high low vol tbb, NanNum (maxWarm cfg) p.2 := by
  rcases Nat.le_total (maxOf (cfg.sma ++ cfg.boll ++ cfg.rsi ++ cfg.atr)) 19 with h | h
  · have hK : maxWarm cfg = 19 := max_eq_left h
    refine ⟨("Close_Mean", rollingMean 20 close), ?_, ?_⟩
    · rw [genCols]
      apply List.mem_append_left
      rw [headPairs]
      simp
    · rw [hK]
      have h20 : NanNum (20 - 1) (rollingMean 20 close) :=
        rollingMean_NanNum hcA (by norm_num)
      simpa using h20
  · have hK : maxWarm cfg = maxOf (cfg.sma ++ cfg.boll ++ cfg.rsi ++ cfg.atr) :=
      max_eq_right h
    rcases maxOf_attained (cfg.sma ++ cfg.boll ++ cfg.rsi ++ cfg.atr) with h0 | ⟨w, hw, he⟩
    · omega
    · rcases List.mem_append.mp hw with hw' | hwa
      · rcases List.mem_append.mp hw' with hw'' | hwr
        · rcases List.mem_append.mp hw'' with hws | hwb
          · refine ⟨("SMA_" ++ toString w, rollingMean w close), ?_, ?_⟩
            · rw [genCols]
              apply List.mem_append_right
              apply List.mem_append_left
              rw [smaPairs]
              exact List.mem_map_of_mem _ hws
            · rw [hK, he]
              exact rollingMean_NanNum hcA (hsma w hws)
          · refine ⟨("Bollinger_MA_" ++ toString w, rollingMean w close), ?_, ?_⟩
            · rw [genCols]
              apply List.mem_append_right
              apply List.mem_append_right
              apply List.mem_append_right
              apply List.mem_append_left
              rw [bollPairs]
              refine List.mem_flatMap.mpr ⟨w, hwb, ?_⟩
              rw [bollPairsOne]
              exact List.mem_cons_self _ _
            · rw [hK, he]
              exact rollingMean_NanNum hcA (by have := hboll w hwb; omega)
        · refine ⟨("RSI_" ++ toString w, rsiSeries w close), ?_, ?_⟩
          · rw [genCols]
            apply List.mem_append_right
            apply List.mem_append_right
            apply List.mem_append_right
            apply List.mem_append_right
            apply List.mem_append_left
            rw [rsiPairs]
            refine List.mem_flatMap.mpr ⟨w, hwr, ?_⟩
            rw [rsiPairsOne]
            exact List.mem_cons_self _ _
          · rw [hK, he]
            exact rsiSeries_NanNum hcA (hrsi w hwr) (hnb w hwr)
      · refine ⟨("ATR_" ++ toString w, atrSeries w high low close), ?_, ?_⟩
        · rw [genCols]
          apply List.mem_append_right
          apply List.mem_append_right
          apply List.mem_append_right
          apply List.mem_append_right
          apply List.mem_append_right
          apply List.mem_append_left
          rw [atrPairs]
          exact List.mem_map_of_mem _ hwa
        · rw [hK, he]
          exact atrSeries_NanNum hhA hlA hcA (hatr w hwa)

/-- C2 (amended): the pipeline performs a single global NaN trim, and on an
`n`-row table with finite inputs, positive closes, nonzero volumes and no
degenerate divisions, the surviving row count is
`n - min n (maxWarm cfg)`: the input row count minus the largest warm-up
prefix, where that prefix is `max 19 (w - 1 over the requested
SMA/Bollinger/RSI/ATR windows)` — the hard-coded window-20 z-score family
contributes 19, EMA windows contribute nothing, and the one log-return
warm-up row is index 0, already inside every rolling warm-up, so no extra
`- 1` applies. -/
theorem process_features_row_count
    {lg rt : ℚ → ℚ} {cfg : Config} {df : DataFrame} {n : ℕ}
    {close high low vol tbb : List FV}
    (hcl : df.getCol "Close" = Except.ok close)
    (hh : df.getCol "High" = Except.ok high)
    (hlo : df.getCol "Low" = Except.ok low)
    (hv : df.getCol "Volume" = Except.ok vol)
    (hb : df.getCol "TakerBuyBaseVolume" = Except.ok tbb)
    (hin : ∀ p ∈ df.cols, p.2.length = n ∧ AllNum p.2)
    (hcpos : ∀ v ∈ close, ∃ q, v = FV.num q ∧ 0 < q)
    (hvnz : ∀ v ∈ vol, ∃ q, v = FV.num q ∧ q ≠ 0)
    (hrt : ∀ q : ℚ, 0 < q → 0 < rt q)
    (hsma : ∀ w ∈ cfg.sma, 1 ≤ w)
    (hboll : ∀ w ∈ cfg.boll, 2 ≤ w)
    (hrsi : ∀ w ∈ cfg.rsi, 1 ≤ w)
    (hatr : ∀ w ∈ cfg.atr, 1 ≤ w)
    (hz : FV.num 0 ∉ rollingStd rt 20 close)
    (hnb : ∀ w ∈ cfg.rsi, ∀ t, ¬((rsiGain w close).get? t = some (FV.num 0) ∧
      (rsiLoss w close).get? t = some (FV.num 0)))
    (hvr : ∀ w ∈ cfg.rsi, keptVarFV (rsiSeries w close) ≠ FV.num 0)
    (hfresh : ∀ nm ∈ genNames cfg ++ intermNames, nm ∉ df.names)
    (hnodup : (genNames cfg ++ intermNames).Nodup) :
    ∃ out, process_features lg rt cfg df = Except.ok out ∧
      out.nrows = n - min n (maxWarm cfg) := by
  have hclm := hin _ (mem_of_getCol hcl)
  have hhm := hin _ (mem_of_getCol hh)
  have hlm := hin _ (mem_of_getCol hlo)
  have hvm := hin _ (mem_of_getCol hv)
  have hbm := hin _ (mem_of_getCol hb)
  have hspec := @genCols_spec lg rt cfg n close high low vol tbb
    hclm.1 hhm.1 hlm.1 hvm.1 hbm.1 hclm.2 hhm.2 hlm.2 hbm.2
    hcpos hvnz hrt hsma hboll hrsi hatr hz hnb hvr
  rw [process_features, featurize_eq hcl hh hlo hv hb hfresh hnodup, ok_bind]
  refine ⟨_, rfl, ?_⟩
  apply dropna_nrows
  · show df.cols ++ genCols lg rt cfg close high low vol tbb ≠ []
    rw [genCols, headPairs]
    simp
  · intro p hp
    rcases List.mem_append.mp hp with h | h
    · exact (hin p h).1
    · exact (hspec p h).1
  · intro p hp
    rcases List.mem_append.mp hp with h | h
    · exact ⟨0, Nat.zero_le _, NanNum_allNum (hin p h).2⟩
    · exact (hspec p h).2
  · obtain ⟨p, hp, hNN⟩ := @genCols_attained lg rt cfg close high low vol tbb
      hclm.2 hhm.2 hlm.2 hsma hboll hrsi hatr hnb
    exact ⟨p, List.mem_append_right _ hp, hNN⟩

/-!  ## Helper lemmas for the remaining per-claim theorems and witnesses -/

theorem error_bind {α β : Type} (e : String) (f : α → Except String β) :
    ((Except.error e : Except String α) >>= f) = Except.error e := rfl

theorem dropna_names (df : DataFrame) : df.dropna.names = df.names := by
  simp only [DataFrame.dropna]
  rw [names_mk, List.map_map]
  rfl

theorem NanNum_of_getD {k : ℕ} {xs : List FV}
    (h : ∀ t < xs.length,
      (t < k → xs.getD t FV.pinf = FV.nan) ∧
      (k ≤ t → (xs.getD t FV.pinf).toNum.isSome = true)) :
    NanNum k xs := by
  intro t v hv
  have ht : t < xs.length := lt_length_of_get? hv
  have hg : xs.getD t FV.pinf = v := by
    rw [List.getD_eq_get?, hv]
    rfl
  rcases Nat.lt_or_ge t k with hlt | hge
  · exact Or.inl ⟨hlt, by rw [← hg]; exact (h t ht).1 hlt⟩
  · refine Or.inr ⟨hge, ?_⟩
    have h2 := (h t ht).2 hge
    rw [hg] at h2
    cases v with
    | num q => exact ⟨q, rfl⟩
    | pinf => simp [FV.toNum] at h2
    | ninf => simp [FV.toNum] at h2
    | nan => simp [FV.toNum] at h2

theorem not_both_zero_of_bounded {w : ℕ} {x : List FV}
    (h : ∀ t < (rsiGain w x).length,
      ¬((rsiGain w x).get? t = some (FV.num 0) ∧
        (rsiLoss w x).get? t = some (FV.num 0))) :
    ∀ t, ¬((rsiGain w x).get? t = some (FV.num 0) ∧
      (rsiLoss w x).get? t = some (FV.num 0)) := by
  intro t hcon
  by_cases ht : t < (rsiGain w x).length
  · exact h t ht hcon
  · rw [List.get?_eq_none.mpr (le_of_not_lt ht)] at hcon
    exact Option.noConfusion hcon.1

theorem colT_shape (f : ℕ → ℚ) :
    ((List.range 25).map fun i => FV.num (f i)).length = 25 ∧
      AllNum ((List.range 25).map fun i => FV.num (f i)) := by
  constructor
  · simp
  · intro v hv
    obtain ⟨i, _, hv⟩ := List.mem_map.mp hv
    exact ⟨f i, hv.symm⟩

theorem colT_pos {f : ℕ → ℚ} (h : ∀ i < 25, 0 < f i) :
    ∀ v ∈ (List.range 25).map fun i => FV.num (f i),
      ∃ q, v = FV.num q ∧ 0 < q := by
  intro v hv
  obtain ⟨i, hi, hv⟩ := List.mem_map.mp hv
  exact ⟨f i, hv.symm, h i (List.mem_range.mp hi)⟩

theorem colT_ne {f : ℕ → ℚ} (h : ∀ i < 25, f i ≠ 0) :
    ∀ v ∈ (List.range 25).map fun i => FV.num (f i),
      ∃ q, v = FV.num q ∧ q ≠ 0 := by
  intro v hv
  obtain ⟨i, hi, hv⟩ := List.mem_map.mp hv
  exact ⟨f i, hv.symm, h i (List.mem_range.mp hi)⟩

theorem closeT_not_both_zero_bounded :
    ∀ w ∈ smallCfg.rsi, ∀ t < (rsiGain w closeT).length,
      ¬((rsiGain w closeT).get? t = some (FV.num 0) ∧
        (rsiLoss w closeT).get? t = some (FV.num 0)) := by
  with_unfolding_all decide

theorem ewmGo_head (a : ℚ) (p : FV) (xs : List FV) :
    (ewmGo a p xs).get? 0 = some p := by
  cases xs <;> rfl

theorem ewmGo_rec (a : ℚ) :
    ∀ (xs : List FV) (p : FV) (t : ℕ) (e x : FV),
      (ewmGo a p xs).get? t = some e → xs.get? t = some x →
      (ewmGo a p xs).get? (t + 1) =
        some (FV.add (FV.mul (FV.num (1 - a)) e) (FV.mul (FV.num a) x)) := by
  intro xs
  induction xs with
  | nil =>
    intro p t e x _ hx
    simp at hx
  | cons y l ih =>
    intro p t e x he hx
    cases t with
    | zero =>
      rw [ewmGo] at he ⊢
      rw [List.get?_cons_zero] at he hx
      have hpe := Option.some.inj he
      have hyx := Option.some.inj hx
      subst hpe
      subst hyx
      rw [List.get?_cons_succ, ewmGo_head]
    | succ u =>
      rw [ewmGo] at he ⊢
      rw [List.get?_cons_succ] at he ⊢
      rw [List.get?_cons_succ] at hx
      exact ih _ u e x he hx

theorem ewmList_head (a : ℚ) (xs : List FV) :
    (ewmList a xs).get? 0 = xs.get? 0 := by
  cases xs with
  | nil => rfl
  | cons y l => rw [ewmList, ewmGo_head, List.get?_cons_zero]

theorem ewmList_rec {a : ℚ} {xs : List FV} {t : ℕ} {e x : FV}
    (he : (ewmList a xs).get? t = some e) (hx : xs.get? (t + 1) = some x) :
    (ewmList a xs).get? (t + 1) =
      some (FV.add (FV.mul (FV.num (1 - a)) e) (FV.mul (FV.num a) x)) := by
  cases xs with
  | nil => simp [ewmList] at he
  | cons y l =>
    rw [ewmList] at he ⊢
    rw [List.get?_cons_succ] at hx
    exact ewmGo_rec a l y t e x he hx

/-!  ## Which columns the pipeline reads

A name that is absent from the input table and is not one of the names the
pipeline itself writes stays absent through every step; each step that
reads a column can only succeed when that column is present.  Together
these show the run aborts whenever one of the five read columns
(`Close`, `High`, `Low`, `Volume`, `TakerBuyBaseVolume`) is missing. -/

theorem pure_eq_ok {α : Type} (a : α) :
    (pure a : Except String α) = Except.ok a := rfl

theorem bind_ok {α β : Type} {a : Except String α} {f : α → Except String β}
    {b : β} (h : (a >>= f) = Except.ok b) :
    ∃ x, a = Except.ok x ∧ f x = Except.ok b := by
  cases a with
  | error e =>
    rw [error_bind] at h
    exact Except.noConfusion h
  | ok x =>
    rw [ok_bind] at h
    exact ⟨x, rfl, h⟩

theorem getCol_error {df : DataFrame} {nm : String} (h : nm ∉ df.names) :
    df.getCol nm = Except.error ("KeyError: " ++ nm) := by
  rw [DataFrame.getCol, find?_name_none h]

theorem names_of_getCol {df : DataFrame} {nm : String} {c : List FV}
    (h : df.getCol nm = Except.ok c) : nm ∈ df.names :=
  List.mem_map_of_mem Prod.fst (mem_of_getCol h)

theorem setCol_names_sub {df : DataFrame} {n : String} {c : List FV} {x : String}
    (hx : x ∈ (df.setCol n c).names) : x ∈ df.names ∨ x = n := by
  rw [DataFrame.setCol] at hx
  by_cases hmem : n ∈ df.names
  · rw [if_pos hmem, names_mk, List.map_map] at hx
    obtain ⟨p, hp, hpe⟩ := List.mem_map.mp hx
    simp only [Function.comp] at hpe
    by_cases hpn : p.1 = n
    · right
      rw [← hpe, if_pos hpn]
    · left
      rw [← hpe, if_neg hpn]
      exact List.mem_map_of_mem Prod.fst hp
  · rw [if_neg hmem, names_mk, List.map_append] at hx
    rcases List.mem_append.mp hx with h | h
    · exact Or.inl h
    · right
      simpa using h

theorem dropCols_names_sub {df : DataFrame} {ns : List String} {x : String}
    (hx : x ∈ (df.dropCols ns).names) : x ∈ df.names := by
  rw [DataFrame.dropCols, names_mk] at hx
  obtain ⟨p, hp, hpe⟩ := List.mem_map.mp hx
  exact hpe ▸ List.mem_map_of_mem Prod.fst (List.mem_of_mem_filter hp)

theorem compute_log_returns_names {lg : ℚ → ℚ} {df out : DataFrame}
    (h : compute_log_returns lg df = Except.ok out) :
    ∀ x ∈ out.names, x ∈ df.names ∨ x = "Log_Returns" := by
  rw [compute_log_returns] at h
  cases hg : df.getCol "Close" with
  | error e =>
    rw [hg, error_bind] at h
    exact Except.noConfusion h
  | ok c =>
    simp only [hg, ok_bind] at h
    rw [pure_eq_ok] at h
    have hout := Except.ok.inj h
    intro x hx
    rw [← hout] at hx
    exact setCol_names_sub hx

theorem compute_z_score_names {rt : ℚ → ℚ} {c : String} {w : ℕ}
    {df out : DataFrame} (h : compute_z_score rt c w df = Except.ok out) :
    ∀ x ∈ out.names, x ∈ df.names ∨
      x ∈ [c ++ "_Mean", c ++ "_Std", "Z_Score_" ++ c] := by
  rw [compute_z_score] at h
  cases hg : df.getCol c with
  | error e =>
    rw [hg, error_bind] at h
    exact Except.noConfusion h
  | ok x0 =>
    simp only [hg, ok_bind] at h
    obtain ⟨m, _, h⟩ := bind_ok h
    obtain ⟨s, _, h⟩ := bind_ok h
    have hout := Except.ok.inj h
    intro x hx
    rw [← hout] at hx
    rcases setCol_names_sub hx with hx | hx
    · rcases setCol_names_sub hx with hx | hx
      · rcases setCol_names_sub hx with hx | hx
        · exact Or.inl hx
        · exact Or.inr (by rw [hx]; simp)
      · exact Or.inr (by rw [hx]; simp)
    · exact Or.inr (by rw [hx]; simp)

theorem compute_volatility_names {rt : ℚ → ℚ} {c : String} {w : ℕ}
    {df out : DataFrame} (h : compute_volatility rt c w df = Except.ok out) :
    ∀ x ∈ out.names, x ∈ df.names ∨
      x = "Volatility_" ++ c ++ "_" ++ toString w := by
  rw [compute_volatility] at h
  cases hg : df.getCol c with
  | error e =>
    rw [hg, error_bind] at h
    exact Except.noConfusion h
  | ok x0 =>
    simp only [hg, ok_bind] at h
    rw [pure_eq_ok] at h
    have hout := Except.ok.inj h
    intro x hx
    rw [← hout] at hx
    exact setCol_names_sub hx

theorem compute_sma_names :
    ∀ (ws : List ℕ) (c : String) (df out : DataFrame),
      compute_multiple_moving_averages c ws df = Except.ok out →
      ∀ x ∈ out.names, x ∈ df.names ∨
        x ∈ ws.map fun w => "SMA_" ++ toString w := by
  intro ws
  induction ws with
  | nil =>
    intro c df out h x hx
    rw [compute_sma_nil] at h
    exact Or.inl (Except.ok.inj h ▸ hx)
  | cons w rest ih =>
    intro c df out h x hx
    rw [compute_sma_cons] at h
    obtain ⟨d, hd, hrec⟩ := bind_ok h
    obtain ⟨x0, _, hd2⟩ := bind_ok hd
    have hde := Except.ok.inj hd2
    rcases ih c d out hrec x hx with h2 | h2
    · rw [← hde] at h2
      rcases setCol_names_sub h2 with h3 | h3
      · exact Or.inl h3
      · refine Or.inr ?_
        rw [List.map_cons, h3]
        exact List.mem_cons_self _ _
    · refine Or.inr ?_
      rw [List.map_cons]
      exact List.mem_cons_of_mem _ h2

theorem compute_ema_names :
    ∀ (ws : List ℕ) (c : String) (df out : DataFrame),
      compute_multiple_exponential_moving_averages c ws df = Except.ok out →
      ∀ x ∈ out.names, x ∈ df.names ∨
        x ∈ ws.map fun w => "EMA_" ++ toString w := by
  intro ws
  induction ws with
  | nil =>
    intro c df out h x hx
    rw [compute_ema_nil] at h
    exact Or.inl (Except.ok.inj h ▸ hx)
  | cons w rest ih =>
    intro c df out h x hx
    rw [compute_ema_cons] at h
    obtain ⟨d, hd, hrec⟩ := bind_ok h
    obtain ⟨x0, _, hd2⟩ := bind_ok hd
    have hde := Except.ok.inj hd2
    rcases ih c d out hrec x hx with h2 | h2
    · rw [← hde] at h2
      rcases setCol_names_sub h2 with h3 | h3
      · exact Or.inl h3
      · refine Or.inr ?_
        rw [List.map_cons, h3]
        exact List.mem_cons_self _ _
    · refine Or.inr ?_
      rw [List.map_cons]
      exact List.mem_cons_of_mem _ h2

theorem compute_boll_names_one {rt : ℚ → ℚ} {c : String} {w : ℕ} {k : ℚ}
    {df out : DataFrame}
    (h : compute_bollinger_bands rt c w k df = Except.ok out) :
    ∀ x ∈ out.names, x ∈ df.names ∨ x ∈ bollNames w := by
  rw [compute_bollinger_bands] at h
  cases hg : df.getCol c with
  | error e =>
    rw [hg, error_bind] at h
    exact Except.noConfusion h
  | ok x0 =>
    simp only [hg, ok_bind] at h
    obtain ⟨ma, _, h⟩ := bind_ok h
    obtain ⟨ma2, _, h⟩ := bind_ok h
    obtain ⟨up, _, h⟩ := bind_ok h
    obtain ⟨lo, _, h⟩ := bind_ok h
    have hout := Except.ok.inj h
    intro x hx
    rw [← hout] at hx
    rcases setCol_names_sub hx with hx | hx
    · rcases setCol_names_sub hx with hx | hx
      · rcases setCol_names_sub hx with hx | hx
        · rcases setCol_names_sub hx with hx | hx
          · exact Or.inl hx
          · exact Or.inr (by rw [hx]; simp [bollNames])
        · exact Or.inr (by rw [hx]; simp [bollNames])
      · exact Or.inr (by rw [hx]; simp [bollNames])
    · exact Or.inr (by rw [hx]; simp [bollNames])

theorem compute_rsi_names_one {rt : ℚ → ℚ} {c : String} {w : ℕ}
    {df out : DataFrame} (h : compute_rsi rt c w df = Except.ok out) :
    ∀ x ∈ out.names, x ∈ df.names ∨ x ∈ rsiNames w := by
  rw [compute_rsi] at h
  cases hg : df.getCol c with
  | error e =>
    rw [hg, error_bind] at h
    exact Except.noConfusion h
  | ok x0 =>
    simp only [hg, ok_bind] at h
    obtain ⟨r, _, h⟩ := bind_ok h
    have hout := Except.ok.inj h
    intro x hx
    rw [← hout] at hx
    rcases setCol_names_sub hx with hx | hx
    · rcases setCol_names_sub hx with hx | hx
      · exact Or.inl hx
      · exact Or.inr (by rw [hx]; simp [rsiNames])
    · exact Or.inr (by rw [hx]; simp [rsiNames])

theorem compute_atr_names_one {w : ℕ} {df out : DataFrame}
    (h : compute_atr w df = Except.ok out) :
    ∀ x ∈ out.names,
      x ∈ df.names ∨ x ∈ intermNames ++ ["ATR_" ++ toString w] := by
  rw [compute_atr] at h
  cases hg1 : df.getCol "High" with
  | error e =>
    rw [hg1, error_bind] at h
    exact Except.noConfusion h
  | ok high =>
  simp only [hg1, ok_bind] at h
  cases hg2 : df.getCol "Low" with
  | error e =>
    rw [hg2, error_bind] at h
    exact Except.noConfusion h
  | ok low =>
  simp only [hg2, ok_bind] at h
  cases hg3 : df.getCol "Close" with
  | error e =>
    rw [hg3, error_bind] at h
    exact Except.noConfusion h
  | ok close =>
  simp only [hg3, ok_bind] at h
  obtain ⟨hl, _, h⟩ := bind_ok h
  obtain ⟨hc, _, h⟩ := bind_ok h
  obtain ⟨lc, _, h⟩ := bind_ok h
  obtain ⟨tr, _, h⟩ := bind_ok h
  have hout := Except.ok.inj h
  intro x hx
  rw [← hout] at hx
  have hx2 := dropCols_names_sub hx
  rcases setCol_names_sub hx2 with hx3 | hx3
  · rcases setCol_names_sub hx3 with hx3 | hx3
    · rcases setCol_names_sub hx3 with hx3 | hx3
      · rcases setCol_names_sub hx3 with hx3 | hx3
        · rcases setCol_names_sub hx3 with hx3 | hx3
          · exact Or.inl hx3
          · exact Or.inr (by rw [hx3]; simp [intermNames])
        · exact Or.inr (by rw [hx3]; simp [intermNames])
      · exact Or.inr (by rw [hx3]; simp [intermNames])
    · exact Or.inr (by rw [hx3]; simp [intermNames])
  · exact Or.inr (by rw [hx3]; simp)

theorem compute_atr_ok_reads {w : ℕ} {df out : DataFrame}
    (h : compute_atr w df = Except.ok out) :
    "High" ∈ df.names ∧ "Low" ∈ df.names := by
  rw [compute_atr] at h
  cases hg1 : df.getCol "High" with
  | error e =>
    rw [hg1, error_bind] at h
    exact Except.noConfusion h
  | ok high =>
  simp only [hg1, ok_bind] at h
  cases hg2 : df.getCol "Low" with
  | error e =>
    rw [hg2, error_bind] at h
    exact Except.noConfusion h
  | ok low =>
  exact ⟨names_of_getCol hg1, names_of_getCol hg2⟩

theorem boll_fold_names {rt : ℚ → ℚ} {c : String} {k : ℚ} :
    ∀ (ws : List ℕ) (df out : DataFrame),
      ws.foldlM (fun d w => compute_bollinger_bands rt c w k d) df =
        Except.ok out →
      ∀ x ∈ out.names, x ∈ df.names ∨ x ∈ ws.flatMap bollNames := by
  intro ws
  induction ws with
  | nil =>
    intro df out h x hx
    rw [List.foldlM_nil, pure_eq_ok] at h
    exact Or.inl (Except.ok.inj h ▸ hx)
  | cons w rest ih =>
    intro df out h x hx
    rw [List.foldlM_cons] at h
    obtain ⟨d, hd, hrec⟩ := bind_ok h
    rcases ih d out hrec x hx with h2 | h2
    · rcases compute_boll_names_one hd x h2 with h3 | h3
      · exact Or.inl h3
      · refine Or.inr ?_
        rw [List.flatMap_cons]
        exact List.mem_append_left _ h3
    · refine Or.inr ?_
      rw [List.flatMap_cons]
      exact List.mem_append_right _ h2

theorem rsi_fold_names {rt : ℚ → ℚ} {c : String} :
    ∀ (ws : List ℕ) (df out : DataFrame),
      ws.foldlM (fun d w => compute_rsi rt c w d) df = Except.ok out →
      ∀ x ∈ out.names, x ∈ df.names ∨ x ∈ ws.flatMap rsiNames := by
  intro ws
  induction ws with
  | nil =>
    intro df out h x hx
    rw [List.foldlM_nil, pure_eq_ok] at h
    exact Or.inl (Except.ok.inj h ▸ hx)
  | cons w rest ih =>
    intro df out h x hx
    rw [List.foldlM_cons] at h
    obtain ⟨d, hd, hrec⟩ := bind_ok h
    rcases ih d out hrec x hx with h2 | h2
    · rcases compute_rsi_names_one hd x h2 with h3 | h3
      · exact Or.inl h3
      · refine Or.inr ?_
        rw [List.flatMap_cons]
        exact List.mem_append_left _ h3
    · refine Or.inr ?_
      rw [List.flatMap_cons]
      exact List.mem_append_right _ h2

theorem atr_fold_names :
    ∀ (ws : List ℕ) (df out : DataFrame),
      ws.foldlM (fun d w => compute_atr w d) df = Except.ok out →
      ∀ x ∈ out.names, x ∈ df.names ∨
        x ∈ intermNames ++ ws.map fun w => "ATR_" ++ toString w := by
  intro ws
  induction ws with
  | nil =>
    intro df out h x hx
    rw [List.foldlM_nil, pure_eq_ok] at h
    exact Or.inl (Except.ok.inj h ▸ hx)
  | cons w rest ih =>
    intro df out h x hx
    rw [List.foldlM_cons] at h
    obtain ⟨d, hd, hrec⟩ := bind_ok h
    rcases ih d out hrec x hx with h2 | h2
    · rcases compute_atr_names_one hd x h2 with h3 | h3
      · exact Or.inl h3
      · rcases List.mem_append.mp h3 with h4 | h4
        · exact Or.inr (List.mem_append_left _ h4)
        · refine Or.inr (List.mem_append_right _ ?_)
          rw [List.mem_singleton] at h4
          rw [List.map_cons, h4]
          exact List.mem_cons_self _ _
    · rcases List.mem_append.mp h2 with h4 | h4
      · exact Or.inr (List.mem_append_left _ h4)
      · refine Or.inr (List.mem_append_right _ ?_)
        rw [List.map_cons]
        exact List.mem_cons_of_mem _ h4

theorem ofi_missing {df : DataFrame} {nm : String}
    (hnm : nm = "Volume" ∨ nm = "TakerBuyBaseVolume") (h : nm ∉ df.names) :
    ∃ e, compute_order_flow_imbalance df = Except.error e := by
  rcases hnm with rfl | rfl
  · exact ⟨_, by rw [compute_order_flow_imbalance, getCol_error h, error_bind]⟩
  · rw [compute_order_flow_imbalance]
    cases hv : df.getCol "Volume" with
    | error e => exact ⟨e, by rw [error_bind]⟩
    | ok v =>
      refine ⟨"KeyError: " ++ "TakerBuyBaseVolume", ?_⟩
      simp only [hv, ok_bind, getCol_error h, error_bind]

theorem mem_gen_head {cfg : Config} {x : String}
    (hx : x ∈ (["Log_Returns", "Close_Mean", "Close_Std", "Z_Score_Close",
      "Volatility_Close_20"] : List String)) :
    x ∈ genNames cfg ++ intermNames := by
  refine List.mem_append_left _ ?_
  rw [genNames]
  exact List.mem_append_left _ hx

theorem mem_gen_sma {cfg : Config} {x : String}
    (hx : x ∈ cfg.sma.map fun w => "SMA_" ++ toString w) :
    x ∈ genNames cfg ++ intermNames := by
  refine List.mem_append_left _ ?_
  rw [genNames]
  exact List.mem_append_right _ (List.mem_append_left _ hx)

theorem mem_gen_ema {cfg : Config} {x : String}
    (hx : x ∈ cfg.ema.map fun w => "EMA_" ++ toString w) :
    x ∈ genNames cfg ++ intermNames := by
  refine List.mem_append_left _ ?_
  rw [genNames]
  exact List.mem_append_right _ (List.mem_append_right _
    (List.mem_append_left _ hx))

theorem mem_gen_boll {cfg : Config} {x : String}
    (hx : x ∈ cfg.boll.flatMap bollNames) :
    x ∈ genNames cfg ++ intermNames := by
  refine List.mem_append_left _ ?_
  rw [genNames]
  exact List.mem_append_right _ (List.mem_append_right _
    (List.mem_append_right _ (List.mem_append_left _ hx)))

theorem mem_gen_rsi {cfg : Config} {x : String}
    (hx : x ∈ cfg.rsi.flatMap rsiNames) :
    x ∈ genNames cfg ++ intermNames := by
  refine List.mem_append_left _ ?_
  rw [genNames]
  exact List.mem_append_right _ (List.mem_append_right _
    (List.mem_append_right _ (List.mem_append_right _
      (List.mem_append_left _ hx))))

theorem mem_gen_atr {cfg : Config} {x : String}
    (hx : x ∈ cfg.atr.map fun w => "ATR_" ++ toString w) :
    x ∈ genNames cfg ++ intermNames := by
  refine List.mem_append_left _ ?_
  rw [genNames]
  exact List.mem_append_right _ (List.mem_append_right _
    (List.mem_append_right _ (List.mem_append_right _
      (List.mem_append_right _ (List.mem_append_left _ hx)))))

/-- A run whose input lacks one of `High`/`Low` (with an ATR window
requested) or one of `Volume`/`TakerBuyBaseVolume` aborts with an error:
the missing name is never written by any step, and the step that finally
reads it fails. -/
theorem featurize_stuck {lg rt : ℚ → ℚ} {cfg : Config} {df : DataFrame}
    {nm : String}
    (hmiss : nm ∉ df.names)
    (hgen : nm ∉ genNames cfg ++ intermNames)
    (hcase : (nm = "High" ∨ nm = "Low") ∧ cfg.atr ≠ [] ∨
      (nm = "Volume" ∨ nm = "TakerBuyBaseVolume")) :
    ∃ e, featurize lg rt cfg df = Except.error e := by
  rw [featurize]
  cases h1 : compute_log_returns lg df with
  | error e => exact ⟨e, by rw [error_bind]⟩
  | ok d1 =>
  simp only [h1, ok_bind]
  have n1 : nm ∉ d1.names := fun hx => by
    rcases compute_log_returns_names h1 nm hx with h | h
    · exact hmiss h
    · subst h
      exact hgen (mem_gen_head (by decide))
  cases h2 : compute_z_score rt "Close" 20 d1 with
  | error e => exact ⟨e, by rw [error_bind]⟩
  | ok d2 =>
  simp only [h2, ok_bind]
  have n2 : nm ∉ d2.names := fun hx => by
    rcases compute_z_score_names h2 nm hx with h | h
    · exact n1 h
    · simp only [List.mem_cons, List.not_mem_nil, or_false] at h
      rcases h with h | h | h <;> subst h <;>
        exact hgen (mem_gen_head (by decide))
  cases h3 : compute_volatility rt "Close" 20 d2 with
  | error e => exact ⟨e, by rw [error_bind]⟩
  | ok d3 =>
  simp only [h3, ok_bind]
  have n3 : nm ∉ d3.names := fun hx => by
    rcases compute_volatility_names h3 nm hx with h | h
    · exact n2 h
    · subst h
      exact hgen (mem_gen_head (by decide))
  cases h4 : compute_multiple_moving_averages "Close" cfg.sma d3 with
  | error e => exact ⟨e, by rw [error_bind]⟩
  | ok d4 =>
  simp only [h4, ok_bind]
  have n4 : nm ∉ d4.names := fun hx => by
    rcases compute_sma_names cfg.sma "Close" d3 d4 h4 nm hx with h | h
    · exact n3 h
    · exact hgen (mem_gen_sma h)
  cases h5 : compute_multiple_exponential_moving_averages "Close" cfg.ema d4 with
  | error e => exact ⟨e, by rw [error_bind]⟩
  | ok d5 =>
  simp only [h5, ok_bind]
  have n5 : nm ∉ d5.names := fun hx => by
    rcases compute_ema_names cfg.ema "Close" d4 d5 h5 nm hx with h | h
    · exact n4 h
    · exact hgen (mem_gen_ema h)
  cases h6 : cfg.boll.foldlM
      (fun d w => compute_bollinger_bands rt "Close" w 2 d) d5 with
  | error e => exact ⟨e, by rw [error_bind]⟩
  | ok d6 =>
  simp only [h6, ok_bind]
  have n6 : nm ∉ d6.names := fun hx => by
    rcases boll_fold_names cfg.boll d5 d6 h6 nm hx with h | h
    · exact n5 h
    · exact hgen (mem_gen_boll h)
  cases h7 : cfg.rsi.foldlM (fun d w => compute_rsi rt "Close" w d) d6 with
  | error e => exact ⟨e, by rw [error_bind]⟩
  | ok d7 =>
  simp only [h7, ok_bind]
  have n7 : nm ∉ d7.names := fun hx => by
    rcases rsi_fold_names cfg.rsi d6 d7 h7 nm hx with h | h
    · exact n6 h
    · exact hgen (mem_gen_rsi h)
  rcases hcase with ⟨hHL, hne⟩ | hVT
  · -- the ATR fold reads High and Low on its first iteration
    cases hatrl : cfg.atr with
    | nil => exact absurd hatrl hne
    | cons w ws =>
    cases h8a : compute_atr w d7 with
    | error e =>
      refine ⟨e, ?_⟩
      simp only [List.foldlM_cons, h8a, error_bind]
    | ok d8 =>
      rcases hHL with rfl | rfl
      · exact absurd (compute_atr_ok_reads h8a).1 n7
      · exact absurd (compute_atr_ok_reads h8a).2 n7
  · cases h8 : cfg.atr.foldlM (fun d w => compute_atr w d) d7 with
    | error e => exact ⟨e, by rw [error_bind]⟩
    | ok d8 =>
    simp only [h8, ok_bind]
    have n8 : nm ∉ d8.names := fun hx => by
      rcases atr_fold_names cfg.atr d7 d8 h8 nm hx with h | h
      · exact n7 h
      · rcases List.mem_append.mp h with h4 | h4
        · exact hgen (List.mem_append_right _ h4)
        · exact hgen (mem_gen_atr h4)
    obtain ⟨e9, h9⟩ := ofi_missing hVT n8
    exact ⟨e9, by rw [h9, error_bind]⟩

/-!  ## The per-claim theorems -/

/-- C1 (amended): after `compute_rsi`, the `Z_RSI_w` column is the
population z-score of the non-missing `RSI_w` values re-inserted at their
positions: it has the same length as the RSI column, whenever the RSI
column is NaN exactly on a warm-up prefix and its defined part is not
constant (nonzero population variance) the z-scored column is NaN exactly
on the same prefix, and at every index where `RSI_w` is a finite `q` it
holds `(q - mean) / sqrt variance` of the kept values.  The claim as
written (NaN exactly where `RSI_w` is NaN, with no non-degeneracy proviso)
fails for a constant RSI column, see the counterexample. -/
theorem c1_zrsi_global_zscore {rt : ℚ → ℚ} {df : DataFrame} {close : List FV}
    {w k : ℕ}
    (hc : df.getCol "Close" = Except.ok close)
    (hf : ∀ nm ∈ rsiNames w, nm ∉ df.names)
    (hnd : (rsiNames w).Nodup)
    (hk : NanNum k (rsiSeries w close))
    (hnc : keptVarFV (rsiSeries w close) ≠ FV.num 0)
    (hrt : ∀ q : ℚ, 0 < q → 0 < rt q) :
    ∃ df', compute_rsi rt "Close" w df = Except.ok df' ∧
      df'.getCol ("Z_RSI_" ++ toString w) =
        Except.ok (zscoreReinsert rt (rsiSeries w close)) ∧
      (zscoreReinsert rt (rsiSeries w close)).length =
        (rsiSeries w close).length ∧
      NanNum k (zscoreReinsert rt (rsiSeries w close)) ∧
      ∀ t q, (rsiSeries w close).get? t = some (FV.num q) →
        (zscoreReinsert rt (rsiSeries w close)).get? t =
          some (FV.div (FV.sub (FV.num q) (keptMeanFV (rsiSeries w close)))
            (sqrtFV rt (keptVarFV (rsiSeries w close)))) := by
  have hzf : ("Z_RSI_" ++ toString w) ∉ df.names := hf _ (by simp [rsiNames])
  have hne : ("RSI_" ++ toString w) ≠ ("Z_RSI_" ++ toString w) := by
    rw [rsiNames] at hnd
    have h1 := (List.nodup_cons.mp hnd).1
    simpa using h1
  refine ⟨⟨df.cols ++ rsiPairsOne rt close w⟩, compute_rsi_one hc hf hnd, ?_,
    length_zscoreReinsert _ _, zscoreReinsert_NanNum hk hnc hrt, ?_⟩
  · rw [getCol_append_right hzf, rsiPairsOne, getCol_cons_ne (by exact hne),
      getCol_head]
  · intro t q hq
    rw [zscoreReinsert_get?, hq]
    simp [FV.isNaN]

/-- C1 witness: the amended theorem evaluated at window 3 on the zig-zag
table, whose RSI column has warm-up 2 and non-constant defined part. -/
theorem c1_zrsi_global_zscore_witness :
    ∃ df', compute_rsi idq "Close" 3 inputDF = Except.ok df' ∧
      df'.getCol ("Z_RSI_" ++ toString 3) =
        Except.ok (zscoreReinsert idq (rsiSeries 3 closeT)) ∧
      (zscoreReinsert idq (rsiSeries 3 closeT)).length =
        (rsiSeries 3 closeT).length ∧
      NanNum 2 (zscoreReinsert idq (rsiSeries 3 closeT)) ∧
      ∀ t q, (rsiSeries 3 closeT).get? t = some (FV.num q) →
        (zscoreReinsert idq (rsiSeries 3 closeT)).get? t =
          some (FV.div (FV.sub (FV.num q) (keptMeanFV (rsiSeries 3 closeT)))
            (sqrtFV idq (keptVarFV (rsiSeries 3 closeT)))) :=
  c1_zrsi_global_zscore (by with_unfolding_all rfl)
    (by with_unfolding_all decide) (by with_unfolding_all decide)
    (NanNum_of_getD (by with_unfolding_all decide))
    (by with_unfolding_all decide) (fun q hq => hq)

/-- C1 counterexample: on a strictly increasing close the RSI is the
constant 100 on its defined range, the population variance of the kept
values is 0, and every re-inserted z-score is `0/0 = NaN`: `Z_RSI_3` is NaN
at index 4 while `RSI_3` holds the finite value 100 there, refuting the
unconditional "NaN exactly where `RSI_w` is NaN". -/
theorem c1_zrsi_nan_mismatch :
    ∃ df', compute_rsi idq "Close" 3 incDF = Except.ok df' ∧
      df'.getCol "RSI_3" = Except.ok (rsiSeries 3 incClose) ∧
      df'.getCol "Z_RSI_3" =
        Except.ok (zscoreReinsert idq (rsiSeries 3 incClose)) ∧
      (rsiSeries 3 incClose).get? 4 = some (FV.num 100) ∧
      (zscoreReinsert idq (rsiSeries 3 incClose)).get? 4 = some FV.nan := by
  refine ⟨⟨incDF.cols ++ rsiPairsOne idq incClose 3⟩, ?_, ?_, ?_, ?_, ?_⟩ <;>
    with_unfolding_all rfl

/-- C2 witness: the amended row-count law evaluated on the 25-row zig-zag
table with every window set to 3: the run keeps `25 - 19 = 6` rows. -/
theorem process_features_row_count_witness :
    ∃ out, process_features idq idq smallCfg inputDF = Except.ok out ∧
      out.nrows = 25 - min 25 (maxWarm smallCfg) :=
  process_features_row_count
    (show inputDF.getCol "Close" = Except.ok closeT by with_unfolding_all rfl)
    (show inputDF.getCol "High" = Except.ok highT by with_unfolding_all rfl)
    (show inputDF.getCol "Low" = Except.ok lowT by with_unfolding_all rfl)
    (show inputDF.getCol "Volume" = Except.ok volT by with_unfolding_all rfl)
    (show inputDF.getCol "TakerBuyBaseVolume" = Except.ok tbbT by
      with_unfolding_all rfl)
    (by
      intro p hp
      simp only [inputDF, List.mem_cons, List.not_mem_nil, or_false] at hp
      rcases hp with h | h | h | h | h | h | h | h | h | h <;> subst h
      · exact colT_shape (fun i => ((i : ℚ)))
      · exact colT_shape (fun i => zz i - 1 / 4)
      · exact colT_shape (fun i => zz i + 1)
      · exact colT_shape (fun i => zz i - 1)
      · exact colT_shape zz
      · exact colT_shape (fun i => 10 + 0 * ((i : ℚ)))
      · exact colT_shape (fun i => 1000 + 0 * ((i : ℚ)))
      · exact colT_shape (fun i => 50 + 0 * ((i : ℚ)))
      · exact colT_shape (fun i => 6 + (((i % 3 : ℕ) : ℚ)))
      · exact colT_shape (fun i => 600 + 0 * ((i : ℚ))))
    (@colT_pos zz (by with_unfolding_all decide))
    (@colT_ne (fun i => 10 + 0 * ((i : ℚ))) (by with_unfolding_all decide))
    (fun q hq => hq)
    (by decide) (by decide) (by decide) (by decide)
    (by with_unfolding_all decide)
    (fun w hw => not_both_zero_of_bounded (closeT_not_both_zero_bounded w hw))
    (by with_unfolding_all decide)
    (by with_unfolding_all decide)
    (by with_unfolding_all decide)

/-- C2 counterexample: on the 25-row zig-zag table with all requested
windows at 3 the pipeline keeps 6 rows.  The claimed formula "input rows
minus the maximum warm-up horizon among all requested windows, minus 1"
gives `25 - 2 - 1 = 22`, and even charging the hard-coded window-20 family
as the maximum gives `25 - 19 - 1 = 5`: the extra `- 1` for the log-return
row is wrong (its one NaN row is index 0, inside every rolling warm-up). -/
theorem c2_minus_one_fails :
    (process_features idq idq smallCfg inputDF).map DataFrame.nrows =
      Except.ok 6 ∧
    (6 : ℕ) ≠ 25 - maxOf (smallCfg.sma ++ smallCfg.boll ++ smallCfg.rsi ++
      smallCfg.atr) - 1 ∧
    (6 : ℕ) ≠ 25 - maxWarm smallCfg - 1 := by
  refine ⟨?_, by decide, by decide⟩
  with_unfolding_all rfl

/-- C3 (amended): the pipeline reads exactly the input columns `Close`,
`High`, `Low`, `Volume` and `TakerBuyBaseVolume` (`High` and `Low` only
when at least one ATR window is requested).  When one of these is absent
from the input table — and, as for the real column names, the missing name
is not among the names the pipeline itself writes — the run aborts with an
error (the `KeyError` of the step that first reads the column: `Close`
fails on the very first computation, the others mid-pipeline) and no
output table is produced.  The other half of the claim — that an empty
table is also rejected — is false, see the counterexample. -/
theorem c3_missing_input_fails {lg rt : ℚ → ℚ} {cfg : Config} {df : DataFrame}
    {nm : String}
    (hread : nm ∈ (["Close", "High", "Low", "Volume",
      "TakerBuyBaseVolume"] : List String))
    (hmiss : nm ∉ df.names)
    (hgen : nm ∉ genNames cfg ++ intermNames)
    (hatr : nm = "High" ∨ nm = "Low" → cfg.atr ≠ []) :
    ∃ e, process_features lg rt cfg df = Except.error e := by
  suffices h : ∃ e, featurize lg rt cfg df = Except.error e by
    obtain ⟨e, he⟩ := h
    exact ⟨e, by rw [process_features, he, error_bind]⟩
  simp only [List.mem_cons, List.not_mem_nil, or_false] at hread
  rcases hread with rfl | hread
  · refine ⟨"KeyError: " ++ "Close", ?_⟩
    have h1 : compute_log_returns lg df =
        Except.error ("KeyError: " ++ "Close") := by
      rw [compute_log_returns, getCol_error hmiss, error_bind]
    rw [featurize, h1, error_bind]
  · refine featurize_stuck hmiss hgen ?_
    rcases hread with rfl | rfl | rfl | rfl
    · exact Or.inl ⟨Or.inl rfl, hatr (Or.inl rfl)⟩
    · exact Or.inl ⟨Or.inr rfl, hatr (Or.inr rfl)⟩
    · exact Or.inr (Or.inl rfl)
    · exact Or.inr (Or.inr rfl)

/-- C3 witness: with the `Volume` column removed from the concrete table
the run survives eight pipeline steps and aborts when the order-flow step
reads the missing column. -/
theorem c3_missing_input_fails_witness :
    ∃ e, process_features idq idq smallCfg noVolDF = Except.error e :=
  @c3_missing_input_fails idq idq smallCfg noVolDF "Volume" (by decide)
    (by decide) (by with_unfolding_all decide) (fun h => absurd h (by decide))

/-- C3 counterexample: a zero-row table carrying every required column is
not rejected and aborts nothing: the run succeeds and returns an empty
output table, so "the table is empty" is not a detected precondition. -/
theorem c3_empty_table_not_rejected :
    (process_features idq idq smallCfg emptyDF).map DataFrame.nrows =
      Except.ok 0 := by
  with_unfolding_all rfl

/-- C4: the `EMA_w` column written for a requested window `w` is
`ewm(span=w, adjust=False).mean()` of the close: it has the length of the
input, is seeded with `EMA[0] = x[0]` exactly (not a w-period average
seed), every entry is finite (defined from `t = 0`, no warm-up NaN), and it
satisfies the recurrence `EMA[t+1] = a·x[t+1] + (1-a)·EMA[t]` with
`a = 2/(w+1)`. -/
theorem c4_ema_spec {df : DataFrame} {close : List FV} {ws : List ℕ} {w : ℕ}
    (hc : df.getCol "Close" = Except.ok close)
    (hfresh : ∀ u ∈ ws, ("EMA_" ++ toString u) ∉ df.names)
    (hnd : (ws.map fun u => "EMA_" ++ toString u).Nodup)
    (hw : w ∈ ws) (hx : AllNum close) :
    ∃ df', compute_multiple_exponential_moving_averages "Close" ws df =
        Except.ok df' ∧
      ("EMA_" ++ toString w, ewmList (2 / ((w : ℚ) + 1)) close) ∈ df'.cols ∧
      (ewmList (2 / ((w : ℚ) + 1)) close).length = close.length ∧
      (ewmList (2 / ((w : ℚ) + 1)) close).get? 0 = close.get? 0 ∧
      AllNum (ewmList (2 / ((w : ℚ) + 1)) close) ∧
      ∀ t p q,
        (ewmList (2 / ((w : ℚ) + 1)) close).get? t = some (FV.num p) →
        close.get? (t + 1) = some (FV.num q) →
        (ewmList (2 / ((w : ℚ) + 1)) close).get? (t + 1) =
          some (FV.num (2 / ((w : ℚ) + 1) * q +
            (1 - 2 / ((w : ℚ) + 1)) * p)) := by
  refine ⟨_, compute_ema_eq ws df close hc hfresh hnd, ?_, length_ewmList _ _,
    ewmList_head _ _, ewmList_allNum hx, ?_⟩
  · show _ ∈ df.cols ++ emaPairs close ws
    refine List.mem_append_right _ ?_
    rw [emaPairs]
    exact List.mem_map_of_mem _ hw
  · intro t p q hp hq
    have h := ewmList_rec hp hq
    rw [FV.mul_num, FV.mul_num, FV.add_num] at h
    rw [h]
    have head : (1 - 2 / ((w : ℚ) + 1)) * p + 2 / ((w : ℚ) + 1) * q =
        2 / ((w : ℚ) + 1) * q + (1 - 2 / ((w : ℚ) + 1)) * p := by ring
    rw [head]

/-- C4 witness: the EMA law evaluated at window 3 on the zig-zag table. -/
theorem c4_ema_spec_witness :
    ∃ df', compute_multiple_exponential_moving_averages "Close" [3] inputDF =
        Except.ok df' ∧
      ("EMA_" ++ toString 3, ewmList (2 / ((3 : ℚ) + 1)) closeT) ∈ df'.cols ∧
      (ewmList (2 / ((3 : ℚ) + 1)) closeT).length = closeT.length ∧
      (ewmList (2 / ((3 : ℚ) + 1)) closeT).get? 0 = closeT.get? 0 ∧
      AllNum (ewmList (2 / ((3 : ℚ) + 1)) closeT) ∧
      ∀ t p q,
        (ewmList (2 / ((3 : ℚ) + 1)) closeT).get? t = some (FV.num p) →
        closeT.get? (t + 1) = some (FV.num q) →
        (ewmList (2 / ((3 : ℚ) + 1)) closeT).get? (t + 1) =
          some (FV.num (2 / ((3 : ℚ) + 1) * q +
            (1 - 2 / ((3 : ℚ) + 1)) * p)) :=
  c4_ema_spec (by with_unfolding_all rfl) (by with_unfolding_all decide)
    (by with_unfolding_all decide) (by decide) (colT_shape zz).2

/-- C5: wherever the rolling mean gain and mean loss at `t` are the finite
values `g` and `l`, the RSI value at `t` is finite and within `[0, 100]`
when `l > 0`; and when `l = 0` with `g > 0` it is the degenerate
"infinite gain" value, propagated as exactly 100 (`rs = +inf`), not an
error. -/
theorem c5_rsi_bounds {w t : ℕ} {x : List FV} {g l : ℚ} (hx : AllNum x)
    (hg : (rsiGain w x).get? t = some (FV.num g))
    (hl : (rsiLoss w x).get? t = some (FV.num l)) :
    (0 < l → ∃ q, (rsiSeries w x).get? t = some (FV.num q) ∧
      0 ≤ q ∧ q ≤ 100) ∧
    (l = 0 → 0 < g → (rsiSeries w x).get? t = some (FV.num 100)) := by
  have hq : 0 ≤ g := rsiGain_nonneg hx t g hg
  constructor
  · intro hlpos
    obtain ⟨heq, h0, h100⟩ := rsi_point_pos hq hlpos
    refine ⟨100 - 100 / (1 + g / l), ?_, h0, h100⟩
    rw [rsiSeries_get?, hg, hl]
    simp only [Option.some_bind, Option.map_some']
    rw [heq]
  · intro hl0 hgpos
    rw [rsiSeries_get?, hg, hl, hl0]
    simp only [Option.some_bind, Option.map_some']
    rw [rsi_point_inf hgpos]

/-- C5 witness: the degenerate branch on the strictly increasing close
(mean loss 0, mean gain 2/3 at index 2, RSI exactly 100) and the bound
hypothesis shape at the same point. -/
theorem c5_rsi_bounds_witness :
    (0 < (0 : ℚ) → ∃ q, (rsiSeries 3 incClose).get? 2 = some (FV.num q) ∧
      0 ≤ q ∧ q ≤ 100) ∧
    ((0 : ℚ) = 0 → 0 < (2 / 3 : ℚ) →
      (rsiSeries 3 incClose).get? 2 = some (FV.num 100)) :=
  c5_rsi_bounds
    (by intro v hv
        obtain ⟨i, _, hv⟩ := List.mem_map.mp hv
        exact ⟨1 + (i : ℚ), hv.symm⟩)
    (by with_unfolding_all decide) (by with_unfolding_all decide)

/-- C6: at every index where the rolling mean is the finite `m` and the
rolling standard deviation is the finite `s`, the Bollinger bands for
multiplier `k` satisfy `upper = m + k·s`, `lower = m - k·s`, and
`width = upper - lower = 2·k·s` exactly. -/
theorem c6_boll_width {rt : ℚ → ℚ} {k : ℚ} {w t : ℕ} {x : List FV} {m s : ℚ}
    (hm : (rollingMean w x).get? t = some (FV.num m))
    (hs : (rollingStd rt w x).get? t = some (FV.num s)) :
    (bollUpper rt k w x).get? t = some (FV.num (m + k * s)) ∧
    (bollLower rt k w x).get? t = some (FV.num (m - k * s)) ∧
    (bollWidth rt k w x).get? t = some (FV.num (2 * k * s)) := by
  have hu : (bollUpper rt k w x).get? t = some (FV.num (m + k * s)) := by
    rw [bollUpper, get?_zipWith, hm, List.get?_map, hs]
    simp only [Option.map_some', Option.some_bind]
    rw [FV.mul_num, FV.add_num]
  have hlo : (bollLower rt k w x).get? t = some (FV.num (m - k * s)) := by
    rw [bollLower, get?_zipWith, hm, List.get?_map, hs]
    simp only [Option.map_some', Option.some_bind]
    rw [FV.mul_num, FV.sub_num]
  refine ⟨hu, hlo, ?_⟩
  rw [bollWidth, get?_zipWith, hu, hlo]
  simp only [Option.map_some', Option.some_bind]
  rw [FV.sub_num]
  have hw2 : m + k * s - (m - k * s) = 2 * k * s := by ring
  rw [hw2]

/-- C6 witness: window 2, index 1 on the zig-zag close: mean `201/2`,
standard deviation `1/2`, multiplier 2, width `2·2·(1/2) = 2`. -/
theorem c6_boll_width_witness :
    (bollUpper idq 2 2 closeT).get? 1 =
      some (FV.num ((201 / 2 : ℚ) + 2 * (1 / 2))) ∧
    (bollLower idq 2 2 closeT).get? 1 =
      some (FV.num ((201 / 2 : ℚ) - 2 * (1 / 2))) ∧
    (bollWidth idq 2 2 closeT).get? 1 =
      some (FV.num (2 * 2 * (1 / 2 : ℚ))) :=
  c6_boll_width (by with_unfolding_all decide) (by with_unfolding_all decide)

/-- C7: on every row with finite volume `v` and taker-buy volume `b`,
`Volume_Delta = b - (v - b)`; whenever `v ≠ 0`,
`OFI = Volume_Delta / v`; and when `v = 0` the OFI entry is the propagated
degenerate IEEE value of the division (an infinity or NaN), not an
error. -/
theorem c7_ofi_vd {vol tbb : List FV} {t : ℕ} {v b : ℚ}
    (hv : vol.get? t = some (FV.num v)) (hb : tbb.get? t = some (FV.num b)) :
    (vdSeries vol tbb).get? t = some (FV.num (b - (v - b))) ∧
    (v ≠ 0 → (ofiSeries vol tbb).get? t =
      some (FV.num ((b - (v - b)) / v))) ∧
    (v = 0 → (ofiSeries vol tbb).get? t =
      some (if 0 < b - (v - b) then FV.pinf
        else if b - (v - b) < 0 then FV.ninf else FV.nan)) := by
  have hvd : (vdSeries vol tbb).get? t = some (FV.num (b - (v - b))) := by
    rw [vdSeries, get?_zipWith, hb, get?_zipWith, hv, hb]
    simp only [Option.map_some', Option.some_bind]
    rw [FV.sub_num, FV.sub_num]
  refine ⟨hvd, ?_, ?_⟩
  · intro hvnz
    rw [ofiSeries, get?_zipWith, hvd, hv]
    simp only [Option.map_some', Option.some_bind]
    rw [FV.div_num _ hvnz]
  · intro hv0
    subst hv0
    rw [ofiSeries, get?_zipWith, hvd, hv]
    simp only [Option.map_some', Option.bind_some]
    simp [FV.div]

/-- C7 witness: row 0 of the concrete table: volume 10, taker-buy 6,
`Volume_Delta = 2`, `OFI = 2/10`. -/
theorem c7_ofi_vd_witness :
    (vdSeries volT tbbT).get? 0 = some (FV.num ((6 : ℚ) - (10 - 6))) ∧
    ((10 : ℚ) ≠ 0 → (ofiSeries volT tbbT).get? 0 =
      some (FV.num (((6 : ℚ) - (10 - 6)) / 10))) ∧
    ((10 : ℚ) = 0 → (ofiSeries volT tbbT).get? 0 =
      some (if 0 < (6 : ℚ) - (10 - 6) then FV.pinf
        else if (6 : ℚ) - (10 - 6) < 0 then FV.ninf else FV.nan)) :=
  c7_ofi_vd (by with_unfolding_all decide) (by with_unfolding_all decide)

/-- C8 (amended): on a finite series, `SMA_w` is NaN exactly at indices
`0..w-2` and finite from `w-1` on for every window `w ≥ 1`, and the rolling
standard deviation has the same shape for every `w ≥ 2`; the bound
`w ≥ 2` for the standard deviation is necessary: with `ddof = 1` the
`w = 1` sample variance is `0/0` and the column is NaN at `w - 1 = 0` too
(see the counterexample), so the claimed shape does not hold for every
window. -/
theorem c8_sma_std_warmup {rt : ℚ → ℚ} {w : ℕ} {xs : List FV}
    (hx : AllNum xs) :
    (1 ≤ w → NanNum (w - 1) (rollingMean w xs)) ∧
    (2 ≤ w → NanNum (w - 1) (rollingStd rt w xs)) :=
  ⟨fun hw => rollingMean_NanNum hx hw, fun hw => rollingStd_NanNum hx hw⟩

/-- C8 witness: the warm-up shape at window 3 on the zig-zag close. -/
theorem c8_sma_std_warmup_witness :
    (1 ≤ 3 → NanNum (3 - 1) (rollingMean 3 closeT)) ∧
    (2 ≤ 3 → NanNum (3 - 1) (rollingStd idq 3 closeT)) :=
  c8_sma_std_warmup (colT_shape zz).2

/-- C8 counterexample: at window 1 the rolling standard deviation is NaN at
index `0 = w - 1` (and at every index), where the claim asserts it is
defined. -/
theorem c8_std_window1_nan :
    (rollingStd idq 1 closeT).get? 0 = some FV.nan ∧
    (rollingStd idq 1 closeT).get? 24 = some FV.nan := by
  constructor <;> with_unfolding_all decide

/-- C9: no component ever removes a previously added column: the feature
stage returns the input columns followed by all generated columns, the
final trim keeps exactly the same column list (it removes rows only), and
the four ATR scratch columns are not among the output columns. -/
theorem c9_columns_preserved {lg rt : ℚ → ℚ} {cfg : Config} {df : DataFrame}
    {close high low vol tbb : List FV}
    (hcl : df.getCol "Close" = Except.ok close)
    (hh : df.getCol "High" = Except.ok high)
    (hlo : df.getCol "Low" = Except.ok low)
    (hv : df.getCol "Volume" = Except.ok vol)
    (hb : df.getCol "TakerBuyBaseVolume" = Except.ok tbb)
    (hfresh : ∀ nm ∈ genNames cfg ++ intermNames, nm ∉ df.names)
    (hnodup : (genNames cfg ++ intermNames).Nodup) :
    ∃ out, featurize lg rt cfg df = Except.ok out ∧
      process_features lg rt cfg df = Except.ok out.dropna ∧
      out.names = df.names ++ genNames cfg ∧
      out.dropna.names = out.names ∧
      ∀ nm ∈ intermNames, nm ∉ out.names := by
  refine ⟨_, featurize_eq hcl hh hlo hv hb hfresh hnodup, ?_, ?_, dropna_names _,
    ?_⟩
  · rw [process_features, featurize_eq hcl hh hlo hv hb hfresh hnodup, ok_bind]
    rfl
  · rw [names_mk, List.map_append, map_fst_genCols]
    rfl
  · intro nm hnm
    rw [names_mk, List.map_append, map_fst_genCols]
    intro hcon
    rcases List.mem_append.mp hcon with h | h
    · exact hfresh nm (List.mem_append_right _ hnm) h
    · exact (List.nodup_append.mp hnodup).2.2 h hnm

/-- C9 witness: the column-preservation law on the concrete table with all
windows at 3. -/
theorem c9_columns_preserved_witness :
    ∃ out, featurize idq idq smallCfg inputDF = Except.ok out ∧
      process_features idq idq smallCfg inputDF = Except.ok out.dropna ∧
      out.names = inputDF.names ++ genNames smallCfg ∧
      out.dropna.names = out.names ∧
      ∀ nm ∈ intermNames, nm ∉ out.names :=
  c9_columns_preserved (by with_unfolding_all rfl) (by with_unfolding_all rfl)
    (by with_unfolding_all rfl) (by with_unfolding_all rfl)
    (by with_unfolding_all rfl) (by with_unfolding_all decide)
    (by with_unfolding_all decide)

/-- C10: the z-score and volatility computations are hard-coded to a
20-period window: for every window configuration, the output holds the
columns `Close_Mean`, `Close_Std`, `Z_Score_Close` and
`Volatility_Close_20` with the trailing 20-bar rolling statistics of the
close, independent of the requested SMA/EMA/Bollinger/RSI/ATR window
sets. -/
theorem c10_fixed_window20 {lg rt : ℚ → ℚ} {cfg : Config} {df : DataFrame}
    {close high low vol tbb : List FV}
    (hcl : df.getCol "Close" = Except.ok close)
    (hh : df.getCol "High" = Except.ok high)
    (hlo : df.getCol "Low" = Except.ok low)
    (hv : df.getCol "Volume" = Except.ok vol)
    (hb : df.getCol "TakerBuyBaseVolume" = Except.ok tbb)
    (hfresh : ∀ nm ∈ genNames cfg ++ intermNames, nm ∉ df.names)
    (hnodup : (genNames cfg ++ intermNames).Nodup) :
    ∃ out, featurize lg rt cfg df = Except.ok out ∧
      out.getCol "Close_Mean" = Except.ok (rollingMean 20 close) ∧
      out.getCol "Close_Std" = Except.ok (rollingStd rt 20 close) ∧
      out.getCol "Z_Score_Close" = Except.ok (zScoreSeries rt 20 close) ∧
      out.getCol "Volatility_Close_20" =
        Except.ok (rollingStd rt 20 close) := by
  have hmem : ∀ nm ∈ (["Log_Returns", "Close_Mean", "Close_Std",
      "Z_Score_Close", "Volatility_Close_20"] : List String), nm ∉ df.names := by
    intro nm hnm
    refine hfresh nm (List.mem_append_left _ ?_)
    rw [genNames]
    exact List.mem_append_left _ hnm
  refine ⟨_, featurize_eq hcl hh hlo hv hb hfresh hnodup, ?_, ?_, ?_, ?_⟩
  · rw [getCol_append_right (hmem _ (by decide)), genCols, headPairs]
    simp only [List.cons_append, List.nil_append]
    rw [getCol_cons_ne (show ("Log_Returns" : String) ≠ "Close_Mean" by decide),
      getCol_head]
  · rw [getCol_append_right (hmem _ (by decide)), genCols, headPairs]
    simp only [List.cons_append, List.nil_append]
    rw [getCol_cons_ne (show ("Log_Returns" : String) ≠ "Close_Std" by decide),
      getCol_cons_ne (show ("Close_Mean" : String) ≠ "Close_Std" by decide),
      getCol_head]
  · rw [getCol_append_right (hmem _ (by decide)), genCols, headPairs]
    simp only [List.cons_append, List.nil_append]
    rw [getCol_cons_ne (show ("Log_Returns" : String) ≠ "Z_Score_Close" by decide),
      getCol_cons_ne (show ("Close_Mean" : String) ≠ "Z_Score_Close" by decide),
      getCol_cons_ne (show ("Close_Std" : String) ≠ "Z_Score_Close" by decide),
      getCol_head]
  · rw [getCol_append_right (hmem _ (by decide)), genCols, headPairs]
    simp only [List.cons_append, List.nil_append]
    rw [getCol_cons_ne
        (show ("Log_Returns" : String) ≠ "Volatility_Close_20" by decide),
      getCol_cons_ne
        (show ("Close_Mean" : String) ≠ "Volatility_Close_20" by decide),
      getCol_cons_ne
        (show ("Close_Std" : String) ≠ "Volatility_Close_20" by decide),
      getCol_cons_ne
        (show ("Z_Score_Close" : String) ≠ "Volatility_Close_20" by decide),
      getCol_head]

/-- C10 witness: the fixed window-20 family on the concrete table whose
configuration requests only window 3 everywhere. -/
theorem c10_fixed_window20_witness :
    ∃ out, featurize idq idq smallCfg inputDF = Except.ok out ∧
      out.getCol "Close_Mean" = Except.ok (rollingMean 20 closeT) ∧
      out.getCol "Close_Std" = Except.ok (rollingStd idq 20 closeT) ∧
      out.getCol "Z_Score_Close" = Except.ok (zScoreSeries idq 20 closeT) ∧
      out.getCol "Volatility_Close_20" =
        Except.ok (rollingStd idq 20 closeT) :=
  c10_fixed_window20 (by with_unfolding_all rfl) (by with_unfolding_all rfl)
    (by with_unfolding_all rfl) (by with_unfolding_all rfl)
    (by with_unfolding_all rfl) (by with_unfolding_all decide)
    (by with_unfolding_all decide)

end QTP
